import Mathlib

/-!
Verification development for the SudokuSolver repository (mmorckos/Insight).

The repository's core is `ExactCoverSolver` (src/sudoku_solver/src/exact_cover.cpp,
exact_cover.hpp): a dancing-links (DLX) implementation of Knuth's Algorithm X for
sudoku-style grids, plus a dispatch wrapper `SudokuSolver` (sudoku_solver.hpp/.cpp).

Shallow embedding conventions:
* A C++ `Node<int>` is identified by a `NodeId`: the sentinel `root`, the column
  header of constraint column `c` (`header c`), or the matrix node of placement
  row `r` in constraint family `f` (`node r f`; each placement row built by
  `ExactCoverSolver::init` has exactly four nodes, one per constraint family).
* The four mutable pointer fields `left_`, `right_`, `top_`, `bottom_` form the
  state `DLX` (four total maps `NodeId → NodeId`).  The fields that `init` sets
  once and no later code ever mutates (`row_`, `col_`, `value_`, `header_`,
  `col_header_`) are pure functions of the `NodeId` and of the grid parameters.
* Machine `int`s are modelled as `Int` (grid values) or `Nat` (indices that the
  source keeps nonnegative); no arithmetic here approaches overflow.
* The C++ `while` loops walking the circular lists carry a `fuel : Nat`
  argument; when fuel runs out the loop stops early.  Every theorem either
  holds for all fuel values or supplies fuel provably larger than the length
  of the traversed list, so the fuel never changes the modelled behaviour.
-/

namespace Insight

/-- Grid parameters fixed by `ExactCoverSolver::init`: the grid size
(`GRID_SIZE_`) and the box division factors (`ROW_BOX_DIV_`, `COL_BOX_DIV_`). -/
structure Params where
  N : Nat
  RBD : Nat
  CBD : Nat
  deriving DecidableEq, Repr

/-- `init`'s size dispatch (exact_cover.cpp lines 56-79): the four supported
grid sizes with their fixed box-division factor pairs; any other size makes
`init` return `false` (modelled as `none`). -/
def sizeParams (gridSize : Int) : Option Params :=
  if gridSize = 9 then some ⟨9, 3, 3⟩
  else if gridSize = 10 then some ⟨10, 5, 2⟩
  else if gridSize = 12 then some ⟨12, 3, 4⟩
  else if gridSize = 16 then some ⟨16, 4, 4⟩
  else none

namespace Params

/-- `COL_OFFSET_ = pow(grid_size, 2)` (line 50). -/
def COL_OFFSET (p : Params) : Nat := p.N ^ 2

/-- `CELL_OFFSET_ = COL_OFFSET_ * 2` (line 51). -/
def CELL_OFFSET (p : Params) : Nat := p.COL_OFFSET * 2

/-- `BOX_OFFSET_ = COL_OFFSET_ * 3` (line 52). -/
def BOX_OFFSET (p : Params) : Nat := p.COL_OFFSET * 3

/-- `MAX_COLS_ = COL_OFFSET_ * 4` (line 53). -/
def MAX_COLS (p : Params) : Nat := p.COL_OFFSET * 4

/-- `MAX_ROWS_ = COL_OFFSET_ * GRID_SIZE_` (line 54). -/
def MAX_ROWS (p : Params) : Nat := p.COL_OFFSET * p.N

end Params

/-- The puzzle-row index `i` of placement row `r = i*N² + j*N + k`
(inverting `row = (i * COL_OFFSET_ + j * GRID_SIZE_ + k)`, line 103). -/
def iOf (p : Params) (r : Nat) : Nat := r / p.N ^ 2

/-- The puzzle-column index `j` of placement row `r`. -/
def jOf (p : Params) (r : Nat) : Nat := r / p.N % p.N

/-- The zero-based value index `k` of placement row `r`. -/
def kOf (p : Params) (r : Nat) : Nat := r % p.N

/-- The box index of cell `(i, j)`:
`i / ROW_BOX_DIV_ + j / COL_BOX_DIV_ * COL_BOX_DIV_` (line 113). -/
def boxIdx (p : Params) (i j : Nat) : Nat := i / p.RBD + j / p.CBD * p.CBD

/-- The placement row index of triple `(i, j, k)`:
`row = (i * COL_OFFSET_ + j * GRID_SIZE_ + k)` (line 103). -/
def rowIdx (p : Params) (i j k : Nat) : Nat := i * p.N ^ 2 + j * p.N + k

/-- The constraint column occupied by the node of family `f` in placement row
`r`, following the four slot assignments of `init` (lines 105, 108, 111, 113):
family 0 is the row-has-value constraint, family 1 the column-has-value
constraint, family 2 the cell-is-filled constraint, family 3 the box-has-value
constraint. -/
def colOf (p : Params) (r : Nat) (f : Fin 4) : Nat :=
  match f with
  | 0 => iOf p r * p.N + kOf p r
  | 1 => p.COL_OFFSET + (jOf p r * p.N + kOf p r)
  | 2 => p.CELL_OFFSET + (iOf p r * p.N + jOf p r)
  | 3 => p.BOX_OFFSET + (boxIdx p (iOf p r) (jOf p r) * p.N + kOf p r)

/-- Identity of a heap node of the dancing-links structure. -/
inductive NodeId where
  | root : NodeId
  | header (c : Nat) : NodeId
  | node (r : Nat) (f : Fin 4) : NodeId
  deriving DecidableEq, Repr

/-- The static `col_header_` field: `init` points every matrix node at the
header of its constraint column (line 153) and every header at itself
(line 142).  The root's `col_header_` is never set nor read; we map it to
itself. -/
def colHeaderOf (p : Params) : NodeId → NodeId
  | NodeId.root => NodeId.root
  | NodeId.header c => NodeId.header c
  | NodeId.node r f => NodeId.header (colOf p r f)

/-- The static `row_` field: `i` for a matrix node (constructor
`Node(i, j, k)`, lines 104-114), `-1` for headers and the root (default
constructor). -/
def rowI (p : Params) : NodeId → Int
  | NodeId.root => -1
  | NodeId.header _ => -1
  | NodeId.node r _ => (iOf p r : Int)

/-- The static `col_` field: `j` for a matrix node, `-1` for headers/root. -/
def colI (p : Params) : NodeId → Int
  | NodeId.root => -1
  | NodeId.header _ => -1
  | NodeId.node r _ => (jOf p r : Int)

/-- The static `value_` field: `k` for a matrix node.  The default `Node`
constructor leaves `value_` uninitialized for headers and the root; no code
path reads it there, and the model uses `0`. -/
def valI (p : Params) : NodeId → Int
  | NodeId.root => 0
  | NodeId.header _ => 0
  | NodeId.node r _ => (kOf p r : Int)

/-- The static `header_` flag (lines 32, 137; `false` for matrix nodes). -/
def isHeaderB : NodeId → Bool
  | NodeId.root => true
  | NodeId.header _ => true
  | NodeId.node _ _ => false

/-- The mutable part of the dancing-links structure: the four pointer fields
of every node.  `cover` and `uncover` mutate only these four fields. -/
@[ext]
structure DLX where
  left : NodeId → NodeId
  right : NodeId → NodeId
  top : NodeId → NodeId
  bottom : NodeId → NodeId

namespace DLX

/-- Write the `left_` field of node `x`. -/
def setLeft (s : DLX) (x v : NodeId) : DLX :=
  { s with left := fun z => if z = x then v else s.left z }

/-- Write the `right_` field of node `x`. -/
def setRight (s : DLX) (x v : NodeId) : DLX :=
  { s with right := fun z => if z = x then v else s.right z }

/-- Write the `top_` field of node `x`. -/
def setTop (s : DLX) (x v : NodeId) : DLX :=
  { s with top := fun z => if z = x then v else s.top z }

/-- Write the `bottom_` field of node `x`. -/
def setBottom (s : DLX) (x v : NodeId) : DLX :=
  { s with bottom := fun z => if z = x then v else s.bottom z }

end DLX

/-- The rows of `init`'s sparse matrix that put a node in constraint column
`c`, in increasing row order.  `init` links the vertical list of column `c` by
scanning `matrix[i][c]` for `i = 0 .. MAX_ROWS_-1` in increasing order
(lines 144-156), and the occupied slots of column `c` are exactly the
placement rows `r` one of whose four nodes (lines 105, 108, 111, 114) was
stored at column `c`. -/
def colRows (p : Params) (c : Nat) : List Nat :=
  (List.range p.MAX_ROWS).filter fun r =>
    decide (colOf p r 0 = c) || decide (colOf p r 1 = c) ||
    decide (colOf p r 2 = c) || decide (colOf p r 3 = c)

/-- The return value of `ExactCoverSolver::init(grid_size)` (lines 46-179):
`false` when the size dispatch falls through to `return false` (lines 75-78),
and otherwise `false` iff some constraint column ends up with an empty
vertical cycle, `next_col_header->bottom_ == next_col_header` (lines
158-161).  The remaining failure exit, `create_col` returning `false`
(lines 163-177), cannot fire: `create_col` only fails on a null or
non-header argument or when `create_col_helper` reaches the new node while
scanning the existing header ring, and each header is fresh and
self-linked when passed in. -/
def initOk (gridSize : Int) : Bool :=
  match sizeParams gridSize with
  | none => false
  | some p => (List.range p.MAX_COLS).all fun c => decide (colRows p c ≠ [])

/-- The family of the node that placement row `r` puts in column `c`
(meaningful when `r ∈ colRows p c`; families occupy disjoint column ranges for
valid parameters, so the first match is the match). -/
def famOf (p : Params) (r : Nat) (c : Nat) : Fin 4 :=
  if colOf p r 0 = c then 0
  else if colOf p r 1 = c then 1
  else if colOf p r 2 = c then 2
  else 3

/-- The element following the first occurrence of `x` in `l`. -/
def nextAfter {α : Type} [DecidableEq α] : List α → α → Option α
  | [], _ => none
  | [_], _ => none
  | a :: b :: t, x => if a = x then some b else nextAfter (b :: t) x

/-- The element preceding the first occurrence of `x` in `l`. -/
def prevBefore {α : Type} [DecidableEq α] : List α → α → Option α
  | [], _ => none
  | [_], _ => none
  | a :: b :: t, x => if b = x then some a else prevBefore (b :: t) x

/-- The matrix node of column `c` contributed by placement row `r`. -/
def colNode (p : Params) (c r : Nat) : NodeId := NodeId.node r (famOf p r c)

/-- The `left_` pointers after `init` finishes.  Matrix nodes: `init` links
each placement row's four nodes into the horizontal cycle
row → col → cell → box → row (lines 116-126), so `left` steps the family back
by one.  Headers: `create_col` appends each new header just left of the root
(lines 333-352), so after all `MAX_COLS_` appends the horizontal list is
root, header 0, header 1, …, header (MAX_COLS_-1), cyclically. -/
def initLeft (p : Params) : NodeId → NodeId
  | NodeId.root =>
      if p.MAX_COLS = 0 then NodeId.root else NodeId.header (p.MAX_COLS - 1)
  | NodeId.header c =>
      if c = 0 then NodeId.root
      else if c < p.MAX_COLS then NodeId.header (c - 1)
      else NodeId.header c
  | NodeId.node r f => NodeId.node r (f - 1)

/-- The `right_` pointers after `init` finishes (see `initLeft`). -/
def initRight (p : Params) : NodeId → NodeId
  | NodeId.root =>
      if p.MAX_COLS = 0 then NodeId.root else NodeId.header 0
  | NodeId.header c =>
      if c + 1 < p.MAX_COLS then NodeId.header (c + 1)
      else if c < p.MAX_COLS then NodeId.root
      else NodeId.header c
  | NodeId.node r f => NodeId.node r (f + 1)

/-- The `top_` pointers after `init` finishes: within constraint column `c`
the vertical cycle visits `header c` and then the occupied rows in increasing
row order (lines 144-156). -/
def initTop (p : Params) : NodeId → NodeId
  | NodeId.root => NodeId.root
  | NodeId.header c =>
      match (colRows p c).getLast? with
      | none => NodeId.header c
      | some r => colNode p c r
  | NodeId.node r f =>
      let c := colOf p r f
      match prevBefore (colRows p c) r with
      | some r' => colNode p c r'
      | none => NodeId.header c

/-- The `bottom_` pointers after `init` finishes (see `initTop`). -/
def initBottom (p : Params) : NodeId → NodeId
  | NodeId.root => NodeId.root
  | NodeId.header c =>
      match (colRows p c).head? with
      | none => NodeId.header c
      | some r => colNode p c r
  | NodeId.node r f =>
      let c := colOf p r f
      match nextAfter (colRows p c) r with
      | some r' => colNode p c r'
      | none => NodeId.header c

/-- The dancing-links state as `ExactCoverSolver::init` leaves it. -/
def initState (p : Params) : DLX :=
  { left := initLeft p, right := initRight p,
    top := initTop p, bottom := initBottom p }

/-! ### The cover / uncover operations (exact_cover.cpp lines 360-394) -/

/-- The inner statement pair of `cover`'s nested loop (lines 372-373):
`right_node->top_->bottom_ = right_node->bottom_;`
`right_node->bottom_->top_ = right_node->top_;` -/
def unlinkV (s : DLX) (x : NodeId) : DLX :=
  let s1 := s.setBottom (s.top x) (s.bottom x)
  s1.setTop (s1.bottom x) (s1.top x)

/-- The inner statement pair of `uncover`'s nested loop (lines 388-389):
`left_node->top_->bottom_ = left_node;`
`left_node->bottom_->top_ = left_node;` -/
def relinkV (s : DLX) (x : NodeId) : DLX :=
  let s1 := s.setBottom (s.top x) x
  s1.setTop (s1.bottom x) x

/-- `cover`'s header unlinking (lines 366-367):
`col_node->right_->left_ = col_node->left_;`
`col_node->left_->right_ = col_node->right_;` -/
def unlinkH (s : DLX) (c : NodeId) : DLX :=
  let s1 := s.setLeft (s.right c) (s.left c)
  s1.setRight (s1.left c) (s1.right c)

/-- `uncover`'s header relinking (lines 392-393):
`col_node->right_->left_ = col_node;`
`col_node->left_->right_ = col_node;` -/
def relinkH (s : DLX) (c : NodeId) : DLX :=
  let s1 := s.setLeft (s.right c) c
  s1.setRight (s1.left c) c

/-- `cover`'s inner loop (lines 370-374): walk the `right_` cycle of row node
`rn`, vertically unlinking every other node of the row. -/
def coverRowLoop : DLX → NodeId → NodeId → Nat → DLX
  | s, _, _, 0 => s
  | s, rn, cur, fuel + 1 =>
    if cur = rn then s
    else
      let s1 := unlinkV s cur
      coverRowLoop s1 rn (s1.right cur) fuel

/-- `cover`'s outer loop (lines 368-375): walk the `bottom_` cycle of column
header `c`, unlinking each row met. -/
def coverColLoop : DLX → NodeId → NodeId → Nat → DLX
  | s, _, _, 0 => s
  | s, c, cur, fuel + 1 =>
    if cur = c then s
    else
      let s1 := coverRowLoop s cur (s.right cur) fuel
      coverColLoop s1 c (s1.bottom cur) fuel

/-- `ExactCoverSolver::cover` (lines 360-376): resolve `node->col_header_`,
unlink the header from the horizontal header cycle, then unlink every row of
the column from the other columns' vertical cycles. -/
def cover (p : Params) (s : DLX) (n : NodeId) (fuel : Nat) : DLX :=
  let c := colHeaderOf p n
  let s1 := unlinkH s c
  coverColLoop s1 c (s1.bottom c) fuel

/-- `uncover`'s inner loop (lines 386-390): walk the `left_` cycle of row node
`rn`, vertically relinking every other node of the row. -/
def uncoverRowLoop : DLX → NodeId → NodeId → Nat → DLX
  | s, _, _, 0 => s
  | s, rn, cur, fuel + 1 =>
    if cur = rn then s
    else
      let s1 := relinkV s cur
      uncoverRowLoop s1 rn (s1.left cur) fuel

/-- `uncover`'s outer loop (lines 384-391): walk the `top_` cycle of column
header `c`, relinking each row met. -/
def uncoverColLoop : DLX → NodeId → NodeId → Nat → DLX
  | s, _, _, 0 => s
  | s, c, cur, fuel + 1 =>
    if cur = c then s
    else
      let s1 := uncoverRowLoop s cur (s.left cur) fuel
      uncoverColLoop s1 c (s1.top cur) fuel

/-- `ExactCoverSolver::uncover` (lines 378-394): relink every row of the
column bottom-up, then relink the header into the horizontal header cycle. -/
def uncover (p : Params) (s : DLX) (n : NodeId) (fuel : Nat) : DLX :=
  let c := colHeaderOf p n
  let s1 := uncoverColLoop s c (s.top c) fuel
  relinkH s1 c

/-- `ExactCoverSolver::empty` (lines 354-358): `root_->right_ == root_`. -/
def emptyB (s : DLX) : Bool := s.right NodeId.root = NodeId.root

/-! ### find and pick_next_col (lines 396-454) -/

/-- `find`'s inner loop: walk the `bottom_` cycle of header `h` looking for a
node whose `row_`, `col_`, `value_` match the target triple (lines 403-412). -/
def findColLoop (p : Params) (s : DLX) (h : NodeId) (i j v : Int) :
    NodeId → Nat → Option NodeId
  | _, 0 => none
  | cur, fuel + 1 =>
    if cur = h then none
    else if rowI p cur = i ∧ colI p cur = j ∧ valI p cur = v then some cur
    else findColLoop p s h i j v (s.bottom cur) fuel

/-- `find`'s outer loop: walk the header cycle from `root_->right_`
(lines 401-414). -/
def findLoop (p : Params) (s : DLX) (i j v : Int) :
    NodeId → Nat → Option NodeId
  | _, 0 => none
  | cur, fuel + 1 =>
    if cur = NodeId.root then none
    else
      match findColLoop p s cur i j v (s.bottom cur) fuel with
      | some n => some n
      | none => findLoop p s i j v (s.right cur) fuel

/-- `ExactCoverSolver::find` (lines 396-417): linear scan over the live
columns and their vertical lists for the matrix row matching a clue triple.
Returns `none` (`NULL`) when the triple is not present. -/
def find (p : Params) (s : DLX) (i j v : Int) (fuel : Nat) : Option NodeId :=
  findLoop p s i j v (s.right NodeId.root) fuel

/-- `pick_next_col`'s inner counting loop (lines 429-439): the number of
nodes on the `bottom_` cycle of header `h`. -/
def colCount (s : DLX) (h : NodeId) : NodeId → Nat → Nat
  | _, 0 => 0
  | cur, fuel + 1 =>
    if cur = h then 0 else 1 + colCount s h (s.bottom cur) fuel

/-- `pick_next_col`'s outer loop (lines 427-446): scan the header cycle
keeping the first column of strictly smallest count.  `best = -1` before any
column is seen is modelled with an `Option` accumulator. -/
def pickLoop (s : DLX) : NodeId → Option (NodeId × Nat) → Nat →
    Option (NodeId × Nat)
  | _, acc, 0 => acc
  | cur, acc, fuel + 1 =>
    if cur = NodeId.root then acc
    else
      let cnt := colCount s cur (s.bottom cur) fuel
      let acc' :=
        match acc with
        | none => some (cur, cnt)
        | some (b, bc) => if cnt < bc then some (cur, cnt) else some (b, bc)
      pickLoop s (s.right cur) acc' fuel

/-- `ExactCoverSolver::pick_next_col` (lines 419-454): the most constrained
live column and its row count; `none` models the `best == -1` outcome (empty
header list), in which case the caller's `cols_count < 1` test fails the
search level. -/
def pickNextCol (s : DLX) (fuel : Nat) : Option (NodeId × Nat) :=
  pickLoop s (s.right NodeId.root) none fuel

/-- The loop `row_node = rn->right_; while (row_node != rn)
{ cover(row_node->col_header_); row_node = row_node->right_; }` used both by
clue insertion (lines 223-228) and by the search (lines 299-304). -/
def coverRowCols (p : Params) (cf : Nat) : DLX → NodeId → NodeId → Nat → DLX
  | s, _, _, 0 => s
  | s, rn, cur, wf + 1 =>
    if cur = rn then s
    else
      let s1 := cover p s cur cf
      coverRowCols p cf s1 rn (s1.right cur) wf

/-- The matching uncover loop (lines 246-251 and 310-315). -/
def uncoverRowCols (p : Params) (cf : Nat) : DLX → NodeId → NodeId → Nat → DLX
  | s, _, _, 0 => s
  | s, rn, cur, wf + 1 =>
    if cur = rn then s
    else
      let s1 := uncover p s cur cf
      uncoverRowCols p cf s1 rn (s1.right cur) wf

/-- The mutable scalar state of an `ExactCoverSolver` instance besides the
dancing-links pointers: the solution stack `running_sol_` (head = stack top),
the `solved_` flag and the `total_competition_` counter. -/
structure EC where
  dlx : DLX
  runningSol : List NodeId
  solved : Bool
  totalCompetition : Int

/-- One iteration body of the row-trying `while` loop of the private `solve`
(lines 297-316), parametrised by the next level of the search `slv` (the C++
`solved_ = solve();` at line 306): push the candidate row, cover its other
columns, recurse through `slv`, pop on failure, uncover its other columns. -/
def rowAttempt (p : Params) (slv : EC → Nat → EC × Bool) (cur : NodeId)
    (ec : EC) (loopFuel : Nat) : EC :=
  let ec1 := { ec with runningSol := cur :: ec.runningSol }
  let s1 := coverRowCols p loopFuel ec1.dlx cur (ec1.dlx.right cur) loopFuel
  let res := slv { ec1 with dlx := s1 } loopFuel
  let ec2 := { res.1 with solved := res.2 }
  let ec3 :=
    if ec2.solved then ec2
    else { ec2 with runningSol := ec2.runningSol.tail }
  let s2 := uncoverRowCols p loopFuel ec3.dlx cur (ec3.dlx.right cur) loopFuel
  { ec3 with dlx := s2 }

/-- The solver state passed to the recursive call inside a row attempt: the
candidate row pushed (line 298) and its other columns covered
(lines 299-304). -/
def pushState (p : Params) (cur : NodeId) (ec : EC) (lf : Nat) : EC :=
  { dlx := coverRowCols p lf ec.dlx cur (ec.dlx.right cur) lf,
    runningSol := cur :: ec.runningSol, solved := ec.solved,
    totalCompetition := ec.totalCompetition }

/-- The row-trying `while` loop of the private `solve` (lines 296-317):
attempt each row of the covered column in `bottom_` order until the search
succeeds or the cycle closes. -/
def solveRowsLoop (p : Params) (slv : EC → Nat → EC × Bool) (c : NodeId) :
    EC → NodeId → Nat → EC
  | ec, _, 0 => ec
  | ec, cur, loopFuel + 1 =>
    if cur = c ∨ ec.solved then ec
    else
      let ec4 := rowAttempt p slv cur ec loopFuel
      solveRowsLoop p slv c ec4 (ec4.dlx.bottom cur) loopFuel

/-- The private recursive `ExactCoverSolver::solve` (lines 277-321).
`recFuel` bounds the recursion depth, `loopFuel` the list traversals; the
pair `(state, returned bool)` models the member-state mutation plus the
return value (the C++ returns `solved_` after the loop, and the loop may
in addition have set `solved_` through `solved_ = solve();`). -/
def solveRec (p : Params) : Nat → EC → Nat → EC × Bool
  | 0, ec, _ => (ec, false)
  | recFuel + 1, ec, loopFuel =>
    if emptyB ec.dlx then (ec, true)
    else
      match pickNextCol ec.dlx loopFuel with
      | none => (ec, false)
      | some (nextCol, cnt) =>
        if cnt < 1 then (ec, false)
        else
          let ec1 := { ec with totalCompetition := ec.totalCompetition + cnt }
          let firstRow := ec1.dlx.bottom nextCol
          let ec2 := { ec1 with dlx := cover p ec1.dlx nextCol loopFuel }
          let ec3 := solveRowsLoop p (solveRec p recFuel) nextCol ec2
            firstRow loopFuel
          (({ ec3 with dlx := uncover p ec3.dlx nextCol loopFuel }),
            ec3.solved)

/-- What the public `solve` prints on its three failure paths
(lines 206, 216-217, 239). -/
inductive SolveReport where
  | invalidPuzzle : SolveReport
  | repeatedValue (i j : Nat) (v : Int) : SolveReport
  | notSolvable : SolveReport
  deriving DecidableEq, Repr

/-- The cells `(i, j)` in the scan order of the clue-insertion double loop
(lines 199-201). -/
def cells (p : Params) : List (Nat × Nat) :=
  (List.range p.N).flatMap fun i => (List.range p.N).map fun j => (i, j)

/-- The clue-insertion double loop of the public `solve` (lines 199-235):
range-check each grid value, `find` the matching matrix row, cover its
column and the other columns of the row, and push it on both `puzzle_nodes`
and `running_sol_`.  Returns the state, the two stacks, and the error report
of an early `return`, if any. -/
def insertClues (p : Params) (g : Int → Int → Int) (fuel : Nat) :
    DLX → List NodeId → List NodeId → List (Nat × Nat) →
    DLX × List NodeId × List NodeId × Option SolveReport
  | s, pz, rs, [] => (s, pz, rs, none)
  | s, pz, rs, (i, j) :: rest =>
    let val := g i j
    if val > (p.N : Int) ∨ val < 0 then (s, pz, rs, some SolveReport.invalidPuzzle)
    else if val ≠ 0 then
      match find p s (i : Int) (j : Int) (val - 1) fuel with
      | none => (s, pz, rs, some (SolveReport.repeatedValue i j val))
      | some insertNext =>
        let s1 := cover p s (colHeaderOf p insertNext) fuel
        let s2 := coverRowCols p fuel s1 insertNext (s1.right insertNext) fuel
        insertClues p g fuel s2 (insertNext :: pz) (insertNext :: rs) rest
    else insertClues p g fuel s pz rs rest

/-- The restore loop at the end of the public `solve` (lines 242-254):
pop each clue row off `puzzle_nodes`, uncover the other columns of the row,
then uncover the row's own column. -/
def restoreClues (p : Params) (fuel : Nat) : DLX → List NodeId → DLX
  | s, [] => s
  | s, topN :: rest =>
    let s1 := uncoverRowCols p fuel s topN (s.right topN) fuel
    let s2 := uncover p s1 topN fuel
    restoreClues p fuel s2 rest

/-- The public `ExactCoverSolver::solve(input_grid)` (lines 181-255): reset
`solved_`, `total_competition_` and `running_sol_`, insert the clues
(returning early on an invalid or repeated value), run the search, and
restore the covers applied for the clues. -/
def solveEC (p : Params) (s0 : DLX) (g : Int → Int → Int) (fuel : Nat) :
    EC × Option SolveReport :=
  match insertClues p g fuel s0 [] [] (cells p) with
  | (s, _, rs, some e) =>
    ({ dlx := s, runningSol := rs, solved := false, totalCompetition := 0 }, some e)
  | (s, pz, rs, none) =>
    let res := solveRec p fuel
      { dlx := s, runningSol := rs, solved := false, totalCompetition := 0 } fuel
    let rep := if res.2 then none else some SolveReport.notSolvable
    ({ res.1 with dlx := restoreClues p fuel res.1.dlx pz }, rep)

/-- `ExactCoverSolver::is_solved` (lines 257-260). -/
def isSolved (ec : EC) : Bool := ec.solved

/-- `ExactCoverSolver::output` (lines 262-275): drain `running_sol_`,
writing `value_ + 1` at `(row_, col_)` of each popped node into the output
grid.  Returns the drained stack together with the updated grid. -/
def output (p : Params) :
    List NodeId → (Int → Int → Int) → List NodeId × (Int → Int → Int)
  | [], g => ([], g)
  | n :: t, g =>
    output p t fun a b => if a = rowI p n ∧ b = colI p n then valI p n + 1 else g a b

/-- `CSP_TECH = 1` (sudoku_solver.cpp line 155). -/
def CSP_TECH : Int := 1

/-- `DLX_TECH = 2` (sudoku_solver.cpp line 156). -/
def DLX_TECH : Int := 2

/-- The two solving engines. -/
inductive Technique where
  | EC : Technique
  | CSP : Technique
  deriving DecidableEq, Repr

/-- The per-puzzle technique dispatch of `SudokuSolver::solve`
(sudoku_solver.cpp lines 204-211): `if (technique_ == DLX_TECH ||
grid_size_ > 9) solve_EC(...); else if (technique_ == CSP_TECH)
sovle_CSP(...);` — `none` models the fall-through where neither branch
runs. -/
def chooseTechnique (technique gridSize : Int) : Option Technique :=
  if technique = DLX_TECH ∨ gridSize > 9 then some Technique.EC
  else if technique = CSP_TECH then some Technique.CSP
  else none

/-- `SudokuSolver::set_technique` (sudoku_solver.cpp lines 250-258): an
invalid code leaves the current technique in place. -/
def setTechnique (current t : Int) : Int :=
  if t ≠ CSP_TECH ∧ t ≠ DLX_TECH then current else t

/-!
## Chain-structure vocabulary

The circular doubly linked lists of the dancing-links structure are described
by `follows`: starting at `cur` and repeatedly applying `nxt` visits exactly
the nodes of `L` in order and then reaches `stop`.
-/

/-- `follows nxt stop cur L`: iterating `nxt` from `cur` visits the elements
of `L` in order and then arrives at `stop` (none of the listed elements being
`stop` itself). -/
def follows (nxt : NodeId → NodeId) (stop : NodeId) : NodeId → List NodeId → Prop
  | cur, [] => cur = stop
  | cur, x :: xs => cur = x ∧ x ≠ stop ∧ follows nxt stop (nxt x) xs

/-- Apply `unlinkV` along a list of nodes, left to right. -/
def unlinkSeq (s : DLX) : List NodeId → DLX
  | [] => s
  | x :: xs => unlinkSeq (unlinkV s x) xs

/-- Apply `relinkV` along a list of nodes, left to right. -/
def relinkSeq (s : DLX) : List NodeId → DLX
  | [] => s
  | x :: xs => relinkSeq (relinkV s x) xs

/-- Vertical pointer symmetry at one node: `top` and `bottom` invert each
other through `x`. -/
def okV (s : DLX) (x : NodeId) : Prop :=
  s.bottom (s.top x) = x ∧ s.top (s.bottom x) = x

/-- Horizontal pointer symmetry at one node. -/
def okH (s : DLX) (x : NodeId) : Prop :=
  s.right (s.left x) = x ∧ s.left (s.right x) = x

/-- The well-formedness of the grid parameters that `init` guarantees for
its four supported sizes: the box divisors tile the grid. -/
structure ValidP (p : Params) : Prop where
  n_pos : 0 < p.N
  rbd_pos : 0 < p.RBD
  mul_eq : p.RBD * p.CBD = p.N

/-- Column `c`'s live vertical cycle holds exactly the rows of `L`:
the `bottom_` cycle from header `h` visits `L`'s nodes in order and the
`top_` cycle visits them in reverse order. -/
def colRepr (s : DLX) (h : NodeId) (cn : Nat → NodeId) (L : List Nat) : Prop :=
  follows s.bottom h (s.bottom h) (L.map cn) ∧
  follows s.top h (s.top h) (L.reverse.map cn)

/-- The other three nodes of the placement row of `x = node r f`, in the
order `cover`'s inner loop visits them (`right_` steps). -/
def partnersR (r : Nat) (f : Fin 4) : List NodeId :=
  [NodeId.node r (f + 1), NodeId.node r (f + 2), NodeId.node r (f + 3)]

/-- The unlink sequence `cover` performs on column `c`: for each live row of
the column, in order, its three partner nodes in `right_` order. -/
def coverSeq (p : Params) (c : Nat) (R : List Nat) : List NodeId :=
  R.flatMap fun r => partnersR r (famOf p r c)

/-- The dancing-links representation invariant: the state `s` represents the
exact-cover residual problem with live columns `H` (in header order) and live
rows `V c` per live column `c`.  Fresh `init` output satisfies it with all
columns and all rows live, and `cover`/`uncover` move between such states. -/
structure Inv (p : Params) (s : DLX) (H : List Nat) (V : Nat → List Nat) :
    Prop where
  hcols : ∀ c ∈ H, c < p.MAX_COLS
  hnd : H.Nodup
  vsub : ∀ c, List.Sublist (V c) (colRows p c)
  hchainR : follows s.right NodeId.root (s.right NodeId.root)
    (H.map NodeId.header)
  hchainL : follows s.left NodeId.root (s.left NodeId.root)
    ((H.map NodeId.header).reverse)
  vrep : ∀ c ∈ H, colRepr s (NodeId.header c) (colNode p c) (V c)
  live : ∀ c ∈ H, ∀ r ∈ V c, ∀ f : Fin 4,
    colOf p r f ∈ H ∧ r ∈ V (colOf p r f)
  rowR : ∀ r f, s.right (NodeId.node r f) = NodeId.node r (f + 1)
  rowL : ∀ r f, s.left (NodeId.node r f) = NodeId.node r (f - 1)

/-- Mid-execution invariant of `cover`'s outer loop over column `c`: relative
to the base state `s`, the rows `Done` have had their partner nodes unlinked
and `R` remains; column `c`'s own vertical pointers are untouched and every
other live column's cycle has lost exactly the `Done` rows. -/
structure CoverMid (p : Params) (s : DLX) (H : List Nat)
    (V : Nat → List Nat) (c : Nat) (u : DLX) (Done R : List Nat) : Prop where
  hsplit : V c = Done ++ R
  hform : u.top = (unlinkSeq s (coverSeq p c Done)).top ∧
    u.bottom = (unlinkSeq s (coverSeq p c Done)).bottom
  agH : u.top (NodeId.header c) = s.top (NodeId.header c) ∧
    u.bottom (NodeId.header c) = s.bottom (NodeId.header c)
  agN : ∀ rr ∈ colRows p c,
    u.top (colNode p c rr) = s.top (colNode p c rr) ∧
    u.bottom (colNode p c rr) = s.bottom (colNode p c rr)
  mrep : ∀ d ∈ H, d ≠ c → colRepr u (NodeId.header d) (colNode p d)
    ((V d).filter fun r => decide (r ∉ Done))

/-- Two placement rows are compatible (can both be part of a solution) iff
they occupy no common constraint column. -/
def rowsDisjoint (p : Params) (r r' : Nat) : Prop :=
  ∀ f f' : Fin 4, colOf p r f ≠ colOf p r' f'

/-- The node identities `init` actually allocates for parameters `p`: the
root, the `MAX_COLS_` headers, and the nodes of the `MAX_ROWS_` placement
rows. -/
def realNode (p : Params) : NodeId → Prop
  | NodeId.root => True
  | NodeId.header c => c < p.MAX_COLS
  | NodeId.node r _ => r < p.MAX_ROWS

/-!
## Claim C10 — technique dispatch of `SudokuSolver::solve`
-/

/-- C10: in `SudokuSolver::solve`, the exact-cover (DLX) solver is used for
every puzzle whenever the configured grid size is greater than 9 — even if
the CSP technique was selected — and the CSP solver is invoked exactly when
the technique is CSP and the grid size is at most 9. -/
theorem claim_C10_technique_dispatch (technique gridSize : Int) :
    (gridSize > 9 → chooseTechnique technique gridSize = some Technique.EC) ∧
    (chooseTechnique technique gridSize = some Technique.CSP ↔
      technique = CSP_TECH ∧ gridSize ≤ 9) := by
  unfold chooseTechnique CSP_TECH DLX_TECH
  constructor
  · intro hg
    rw [if_pos (Or.inr hg)]
  · constructor
    · intro h
      by_cases h2 : technique = 2 ∨ gridSize > 9
      · rw [if_pos h2] at h
        exact absurd h (by simp)
      · rw [if_neg h2] at h
        push_neg at h2
        by_cases h1 : technique = 1
        · exact ⟨h1, h2.2⟩
        · rw [if_neg h1] at h
          exact absurd h (by simp)
    · rintro ⟨h1, h9⟩
      have h2 : ¬(technique = 2 ∨ gridSize > 9) := by
        push_neg
        exact ⟨by omega, by omega⟩
      rw [if_neg h2, if_pos h1]

/-- Witness for C10 at a concrete input: grid size 16 with the CSP technique
selected still dispatches to the exact-cover solver. -/
theorem claim_C10_technique_dispatch_witness :
    chooseTechnique 1 16 = some Technique.EC :=
  (claim_C10_technique_dispatch 1 16).1 (by norm_num)

/-!
## Claim C9 — frame of `ExactCoverSolver::output`
-/

/-- C9: `output` writes only at cells `(row_, col_)` named by nodes on the
solution stack, drains the stack to empty, and therefore running `output`
a second time immediately afterwards changes nothing. -/
theorem claim_C9_output_frame (p : Params) (stack : List NodeId)
    (g : Int → Int → Int) :
    (output p stack g).1 = [] ∧
    (∀ a b : Int, (∀ n ∈ stack, ¬(a = rowI p n ∧ b = colI p n)) →
      (output p stack g).2 a b = g a b) ∧
    output p (output p stack g).1 (output p stack g).2 =
      ([], (output p stack g).2) := by
  induction stack generalizing g with
  | nil => exact ⟨rfl, fun a b _ => rfl, rfl⟩
  | cons n t ih =>
    refine ⟨(ih _).1, ?_, ?_⟩
    · intro a b hab
      have hn := hab n (List.mem_cons_self n t)
      calc (output p (n :: t) g).2 a b
          = (fun a b => if a = rowI p n ∧ b = colI p n then valI p n + 1
              else g a b) a b := by
            exact (ih _).2.1 a b fun m hm => hab m (List.mem_cons_of_mem n hm)
        _ = g a b := by simp only [if_neg hn]
    · have h1 := (ih (fun a b => if a = rowI p n ∧ b = colI p n
        then valI p n + 1 else g a b)).1
      show output p (output p t _).1 _ = _
      rw [h1]
      rfl

/-- Witness for C9 at a concrete stack and grid: one node on the stack, the
untouched cell keeps its value and the stack drains. -/
theorem claim_C9_output_frame_witness :
    (output ⟨9, 3, 3⟩ [NodeId.node 0 0] (fun _ _ => 7)).1 = [] ∧
    (output ⟨9, 3, 3⟩ [NodeId.node 0 0] (fun _ _ => 7)).2 5 5 = 7 := by
  refine ⟨(claim_C9_output_frame ⟨9, 3, 3⟩ [NodeId.node 0 0] _).1, ?_⟩
  refine (claim_C9_output_frame ⟨9, 3, 3⟩ [NodeId.node 0 0] _).2.1 5 5 ?_
  intro n hn
  simp only [List.mem_singleton] at hn
  subst hn
  decide

/-!
## Pointer algebra of the unlink / relink primitives
-/

theorem unlinkV_left (s : DLX) (x : NodeId) : (unlinkV s x).left = s.left := rfl

theorem unlinkV_right (s : DLX) (x : NodeId) : (unlinkV s x).right = s.right := rfl

theorem relinkV_left (s : DLX) (x : NodeId) : (relinkV s x).left = s.left := rfl

theorem relinkV_right (s : DLX) (x : NodeId) : (relinkV s x).right = s.right := rfl

theorem unlinkH_top (s : DLX) (c : NodeId) : (unlinkH s c).top = s.top := rfl

theorem unlinkH_bottom (s : DLX) (c : NodeId) : (unlinkH s c).bottom = s.bottom := rfl

theorem relinkH_top (s : DLX) (c : NodeId) : (relinkH s c).top = s.top := rfl

theorem relinkH_bottom (s : DLX) (c : NodeId) : (relinkH s c).bottom = s.bottom := rfl

/-- `unlinkV` bypasses `x` downward: the `bottom_` map is updated at `x`'s
top neighbour. -/
theorem unlinkV_bottom (s : DLX) (x : NodeId) :
    (unlinkV s x).bottom =
      fun z => if z = s.top x then s.bottom x else s.bottom z := by
  funext z
  simp only [unlinkV, DLX.setTop, DLX.setBottom, ite_self]

/-- `unlinkV` bypasses `x` upward: the `top_` map is updated at `x`'s bottom
neighbour. -/
theorem unlinkV_top (s : DLX) (x : NodeId) :
    (unlinkV s x).top =
      fun z => if z = s.bottom x then s.top x else s.top z := by
  funext z
  simp only [unlinkV, DLX.setTop, DLX.setBottom, ite_self]

/-- `unlinkH` bypasses `c` rightward. -/
theorem unlinkH_right (s : DLX) (c : NodeId) :
    (unlinkH s c).right =
      fun z => if z = s.left c then s.right c else s.right z := by
  funext z
  simp only [unlinkH, DLX.setLeft, DLX.setRight, ite_self]

/-- `unlinkH` bypasses `c` leftward. -/
theorem unlinkH_left (s : DLX) (c : NodeId) :
    (unlinkH s c).left =
      fun z => if z = s.right c then s.left c else s.left z := by
  funext z
  simp only [unlinkH, DLX.setLeft, DLX.setRight, ite_self]

/-- `relinkV`'s `bottom_` map: `x`'s top neighbour points back down at `x`. -/
theorem relinkV_bottom (s : DLX) (x : NodeId) :
    (relinkV s x).bottom = fun z => if z = s.top x then x else s.bottom z := rfl

/-- `relinkV`'s `top_` map (the write location reads the just-updated
`bottom_` field, hence the nested conditional). -/
theorem relinkV_top (s : DLX) (x : NodeId) :
    (relinkV s x).top = fun z =>
      if z = (if x = s.top x then x else s.bottom x) then x else s.top z := rfl

/-- `relinkH`'s `left_` map. -/
theorem relinkH_left (s : DLX) (c : NodeId) :
    (relinkH s c).left = fun z => if z = s.right c then c else s.left z := rfl

/-- `relinkH`'s `right_` map. -/
theorem relinkH_right (s : DLX) (c : NodeId) :
    (relinkH s c).right = fun z =>
      if z = (if c = s.right c then c else s.left c) then c else s.right z := rfl

theorem unlinkV_bottom_app (s : DLX) (x z : NodeId) :
    (unlinkV s x).bottom z = if z = s.top x then s.bottom x else s.bottom z :=
  congrFun (unlinkV_bottom s x) z

theorem unlinkV_top_app (s : DLX) (x z : NodeId) :
    (unlinkV s x).top z = if z = s.bottom x then s.top x else s.top z :=
  congrFun (unlinkV_top s x) z

theorem unlinkH_right_app (s : DLX) (c z : NodeId) :
    (unlinkH s c).right z = if z = s.left c then s.right c else s.right z :=
  congrFun (unlinkH_right s c) z

theorem unlinkH_left_app (s : DLX) (c z : NodeId) :
    (unlinkH s c).left z = if z = s.right c then s.left c else s.left z :=
  congrFun (unlinkH_left s c) z

theorem relinkV_bottom_app (s : DLX) (x z : NodeId) :
    (relinkV s x).bottom z = if z = s.top x then x else s.bottom z :=
  congrFun (relinkV_bottom s x) z

theorem relinkV_top_app (s : DLX) (x z : NodeId) :
    (relinkV s x).top z =
      if z = (if x = s.top x then x else s.bottom x) then x else s.top z :=
  congrFun (relinkV_top s x) z

theorem relinkH_left_app (s : DLX) (c z : NodeId) :
    (relinkH s c).left z = if z = s.right c then c else s.left z :=
  congrFun (relinkH_left s c) z

theorem relinkH_right_app (s : DLX) (c z : NodeId) :
    (relinkH s c).right z =
      if z = (if c = s.right c then c else s.left c) then c else s.right z :=
  congrFun (relinkH_right s c) z

theorem unlinkV_top_self (s : DLX) (x : NodeId) :
    (unlinkV s x).top x = s.top x := by
  rw [unlinkV_top_app]
  exact ite_self _

theorem unlinkV_bottom_self (s : DLX) (x : NodeId) :
    (unlinkV s x).bottom x = s.bottom x := by
  rw [unlinkV_bottom_app]
  exact ite_self _

theorem unlinkH_right_self (s : DLX) (c : NodeId) :
    (unlinkH s c).right c = s.right c := by
  rw [unlinkH_right_app]
  exact ite_self _

theorem unlinkH_left_self (s : DLX) (c : NodeId) :
    (unlinkH s c).left c = s.left c := by
  rw [unlinkH_left_app]
  exact ite_self _

/-- The dancing property, vertically: relinking a node immediately after
unlinking it restores the state exactly, provided the vertical pointers were
symmetric at that node. -/
theorem roundtripV (s : DLX) (x : NodeId) (h : okV s x) :
    relinkV (unlinkV s x) x = s := by
  obtain ⟨h1, h2⟩ := h
  ext z
  · rfl
  · rfl
  · rw [relinkV_top_app, unlinkV_top_self, unlinkV_bottom_self]
    simp only [unlinkV_top_app]
    by_cases hxa : x = s.top x
    · have hbx : s.bottom x = x := by
        conv_lhs => rw [hxa]
        exact h1
      rw [if_pos hxa, hbx]
      by_cases hz : z = x
      · rw [if_pos hz, hz]
        exact hxa
      · rw [if_neg hz, if_neg hz]
    · rw [if_neg hxa]
      by_cases hz : z = s.bottom x
      · rw [if_pos hz, hz]
        exact h2.symm
      · rw [if_neg hz, if_neg hz]
  · rw [relinkV_bottom_app, unlinkV_top_self]
    simp only [unlinkV_bottom_app]
    by_cases hz : z = s.top x
    · rw [if_pos hz, hz]
      exact h1.symm
    · rw [if_neg hz, if_neg hz]

/-- The dancing property, horizontally. -/
theorem roundtripH (s : DLX) (c : NodeId) (h : okH s c) :
    relinkH (unlinkH s c) c = s := by
  obtain ⟨h1, h2⟩ := h
  ext z
  · rw [relinkH_left_app, unlinkH_right_self]
    simp only [unlinkH_left_app]
    by_cases hz : z = s.right c
    · rw [if_pos hz, hz]
      exact h2.symm
    · rw [if_neg hz, if_neg hz]
  · rw [relinkH_right_app, unlinkH_right_self, unlinkH_left_self]
    simp only [unlinkH_right_app]
    by_cases hxa : c = s.right c
    · have hbx : s.left c = c := by
        conv_lhs => rw [hxa]
        exact h2
      rw [if_pos hxa, hbx]
      by_cases hz : z = c
      · rw [if_pos hz, hz]
        exact hxa
      · rw [if_neg hz, if_neg hz]
    · rw [if_neg hxa]
      by_cases hz : z = s.left c
      · rw [if_pos hz, hz]
        exact h1.symm
      · rw [if_neg hz, if_neg hz]
  · rfl
  · rfl

/-- Unlinking `x` keeps the vertical symmetry of every other vertically
symmetric node. -/
theorem okV_unlinkV (s : DLX) (x y : NodeId) (hx : okV s x) (hy : okV s y)
    (hne : y ≠ x) : okV (unlinkV s x) y := by
  obtain ⟨hx1, hx2⟩ := hx
  obtain ⟨hy1, hy2⟩ := hy
  simp only [okV, unlinkV_top_app, unlinkV_bottom_app]
  constructor
  · by_cases hyb : y = s.bottom x
    · simp only [if_pos hyb, if_pos rfl]
      exact hyb.symm
    · simp only [if_neg hyb]
      by_cases hta : s.top y = s.top x
      · exfalso
        apply hne
        rw [← hy1, hta, hx1]
      · simp only [if_neg hta, hy1]
  · by_cases hyt : y = s.top x
    · simp only [if_pos hyt, if_pos rfl]
      exact hyt.symm
    · simp only [if_neg hyt]
      by_cases hba : s.bottom y = s.bottom x
      · exfalso
        apply hne
        rw [← hy2, hba, hx2]
      · simp only [if_neg hba, hy2]

theorem unlinkSeq_append (s : DLX) (A B : List NodeId) :
    unlinkSeq s (A ++ B) = unlinkSeq (unlinkSeq s A) B := by
  induction A generalizing s with
  | nil => rfl
  | cons x xs ih =>
    simp only [List.cons_append, unlinkSeq]
    exact ih (unlinkV s x)

theorem relinkSeq_append (s : DLX) (A B : List NodeId) :
    relinkSeq s (A ++ B) = relinkSeq (relinkSeq s A) B := by
  induction A generalizing s with
  | nil => rfl
  | cons x xs ih =>
    simp only [List.cons_append, relinkSeq]
    exact ih (relinkV s x)

theorem unlinkSeq_left (s : DLX) (X : List NodeId) :
    (unlinkSeq s X).left = s.left := by
  induction X generalizing s with
  | nil => rfl
  | cons x xs ih => simp only [unlinkSeq]; rw [ih, unlinkV_left]

theorem unlinkSeq_right (s : DLX) (X : List NodeId) :
    (unlinkSeq s X).right = s.right := by
  induction X generalizing s with
  | nil => rfl
  | cons x xs ih => simp only [unlinkSeq]; rw [ih, unlinkV_right]

theorem relinkSeq_left (s : DLX) (X : List NodeId) :
    (relinkSeq s X).left = s.left := by
  induction X generalizing s with
  | nil => rfl
  | cons x xs ih => simp only [relinkSeq]; rw [ih, relinkV_left]

theorem relinkSeq_right (s : DLX) (X : List NodeId) :
    (relinkSeq s X).right = s.right := by
  induction X generalizing s with
  | nil => rfl
  | cons x xs ih => simp only [relinkSeq]; rw [ih, relinkV_right]

/-!
## Chain lemmas
-/

theorem follows_start (nxt : NodeId → NodeId) (stop cur : NodeId)
    (L : List NodeId) (h : follows nxt stop cur L) :
    cur = (L.head?.getD stop) := by
  cases L with
  | nil => exact h
  | cons x xs => exact h.1

theorem follows_ne_stop (nxt : NodeId → NodeId) (stop cur : NodeId)
    (L : List NodeId) (h : follows nxt stop cur L) :
    ∀ x ∈ L, x ≠ stop := by
  induction L generalizing cur with
  | nil => intro x hx; cases hx
  | cons y ys ih =>
    intro x hx
    rcases List.mem_cons.mp hx with h1 | h2
    · exact h1 ▸ h.2.1
    · exact ih (nxt y) h.2.2 x h2

/-- The pointwise successor along a chain: the element after `x`, or `stop`
when `x` is last. -/
theorem follows_next_at (nxt : NodeId → NodeId) (stop cur : NodeId)
    (A B : List NodeId) (x : NodeId)
    (h : follows nxt stop cur (A ++ x :: B)) :
    nxt x = (B.head?.getD stop) := by
  induction A generalizing cur with
  | nil =>
    have h3 := h.2.2
    exact follows_start nxt stop (nxt x) B h3
  | cons a as ih => exact ih (nxt a) h.2.2

theorem follows_suffix (nxt : NodeId → NodeId) (stop cur : NodeId)
    (A B : List NodeId) (h : follows nxt stop cur (A ++ B)) :
    follows nxt stop (A.getLast?.elim cur nxt) B := by
  induction A generalizing cur with
  | nil => exact h
  | cons a as ih =>
    have h3 := ih (nxt a) h.2.2
    cases as with
    | nil => exact h3
    | cons a2 as2 =>
      rw [List.getLast?_cons_cons]
      rw [show (a2 :: as2 : List NodeId).getLast? =
        (a2 :: as2 : List NodeId).getLast? from rfl] at h3
      cases hl : (a2 :: as2 : List NodeId).getLast? with
      | none => exact absurd hl (by simp)
      | some y => rw [hl] at h3; exact h3

/-- A chain only reads `nxt` at its listed elements, so pointwise agreement
there transfers it between states. -/
theorem follows_congr (nxt nxt' : NodeId → NodeId) (stop : NodeId)
    (L : List NodeId) :
    ∀ cur, (∀ x ∈ L, nxt x = nxt' x) →
      follows nxt stop cur L → follows nxt' stop cur L := by
  induction L with
  | nil => intro cur _ h; exact h
  | cons x xs ih =>
    intro cur hag h
    refine ⟨h.1, h.2.1, ?_⟩
    rw [← hag x (List.mem_cons_self x xs)]
    exact ih (nxt x) (fun y hy => hag y (List.mem_cons_of_mem x hy)) h.2.2

/-- Chains are deterministic: the same start yields the same node list. -/
theorem follows_unique (nxt : NodeId → NodeId) (stop cur : NodeId)
    (L1 L2 : List NodeId) (h1 : follows nxt stop cur L1)
    (h2 : follows nxt stop cur L2) : L1 = L2 := by
  induction L1 generalizing cur L2 with
  | nil =>
    cases L2 with
    | nil => rfl
    | cons y ys => exact absurd (h1 ▸ h2.1.symm) (Ne.symm h2.2.1 ∘ Eq.symm)
  | cons x xs ih =>
    cases L2 with
    | nil => exact absurd (h2 ▸ h1.1.symm) (Ne.symm h1.2.1 ∘ Eq.symm)
    | cons y ys =>
      have hxy : x = y := h1.1.symm.trans h2.1
      subst hxy
      rw [ih (nxt x) ys h1.2.2 h2.2.2]

theorem nextAfter_eq {α : Type} [DecidableEq α] (A B : List α) (x : α)
    (hx : x ∉ A) : nextAfter (A ++ x :: B) x = B.head? := by
  induction A with
  | nil =>
    cases B with
    | nil => rfl
    | cons b t => simp [nextAfter]
  | cons a as ih =>
    have hax : ¬a = x := fun h => hx (h ▸ List.mem_cons_self a as)
    rw [List.cons_append]
    cases hcons : as ++ x :: B with
    | nil => exact absurd hcons (by simp)
    | cons y ys =>
      show (if a = x then some y else nextAfter (y :: ys) x) = B.head?
      rw [if_neg hax, ← hcons]
      exact ih (fun h => hx (List.mem_cons_of_mem a h))

theorem prevBefore_not_mem {α : Type} [DecidableEq α] (l : List α) (x : α)
    (hx : x ∉ l) : prevBefore l x = none := by
  induction l with
  | nil => rfl
  | cons a t ih =>
    cases t with
    | nil => rfl
    | cons b t2 =>
      show (if b = x then some a else prevBefore (b :: t2) x) = none
      rw [if_neg (fun h => hx (by simp [h]))]
      exact ih (fun h => hx (List.mem_cons_of_mem a h))

theorem prevBefore_eq {α : Type} [DecidableEq α] (A B : List α) (x : α)
    (hnd : (A ++ x :: B).Nodup) : prevBefore (A ++ x :: B) x = A.getLast? := by
  induction A with
  | nil =>
    cases B with
    | nil => rfl
    | cons b t =>
      have hx : x ∉ b :: t := (List.nodup_cons.mp hnd).1
      have hbx : ¬b = x := fun h => hx (h ▸ List.mem_cons_self b t)
      show (if b = x then some x else prevBefore (b :: t) x) = none
      rw [if_neg hbx]
      exact prevBefore_not_mem _ _ hx
  | cons a as ih =>
    cases as with
    | nil =>
      show (if x = x then some a else prevBefore (x :: B) x) = some a
      rw [if_pos rfl]
    | cons a2 as2 =>
      have h2x : ¬a2 = x := by
        intro h
        subst h
        have := (List.nodup_cons.mp ((List.nodup_cons.mp hnd).2)).1
        exact this (by simp)
      show (if a2 = x then some a else prevBefore (a2 :: as2 ++ x :: B) x) = _
      rw [if_neg h2x]
      rw [List.getLast?_cons_cons]
      exact ih (List.nodup_cons.mp hnd).2

theorem colRows_nodup (p : Params) (c : Nat) : (colRows p c).Nodup :=
  (List.nodup_range _).filter _

theorem mem_colRows (p : Params) (c : Nat) (r : Nat) :
    r ∈ colRows p c ↔ r < p.MAX_ROWS ∧
      (colOf p r 0 = c ∨ colOf p r 1 = c ∨ colOf p r 2 = c ∨ colOf p r 3 = c) := by
  simp only [colRows, List.mem_filter, List.mem_range, Bool.or_eq_true,
    decide_eq_true_eq]
  tauto

theorem famOf_colOf (p : Params) (r c : Nat)
    (h : colOf p r 0 = c ∨ colOf p r 1 = c ∨ colOf p r 2 = c ∨ colOf p r 3 = c) :
    colOf p r (famOf p r c) = c := by
  unfold famOf
  by_cases h0 : colOf p r 0 = c
  · rw [if_pos h0]; exact h0
  · rw [if_neg h0]
    by_cases h1 : colOf p r 1 = c
    · rw [if_pos h1]; exact h1
    · rw [if_neg h1]
      by_cases h2 : colOf p r 2 = c
      · rw [if_pos h2]; exact h2
      · rw [if_neg h2]
        tauto

namespace ValidP

theorem cbd_pos {p : Params} (v : ValidP p) : 0 < p.CBD := by
  rcases Nat.eq_zero_or_pos p.CBD with h | h
  · exfalso
    have hm := v.mul_eq
    rw [h, Nat.mul_zero] at hm
    have := v.n_pos
    omega
  · exact h

end ValidP

theorem iOf_lt {p : Params} (v : ValidP p) (r : Nat) (hr : r < p.MAX_ROWS) :
    iOf p r < p.N := by
  have h2 : 0 < p.N ^ 2 := pow_pos v.n_pos 2
  rw [iOf, Nat.div_lt_iff_lt_mul h2, Nat.mul_comm]
  rw [Params.MAX_ROWS, Params.COL_OFFSET] at hr
  exact hr

theorem jOf_lt {p : Params} (v : ValidP p) (r : Nat) : jOf p r < p.N :=
  Nat.mod_lt _ v.n_pos

theorem kOf_lt {p : Params} (v : ValidP p) (r : Nat) : kOf p r < p.N :=
  Nat.mod_lt _ v.n_pos

theorem boxIdx_lt {p : Params} (v : ValidP p) (i j : Nat) (hi : i < p.N)
    (hj : j < p.N) : boxIdx p i j < p.N := by
  have hc := v.cbd_pos
  have hr := v.rbd_pos
  have hmul := v.mul_eq
  have ha : i / p.RBD < p.CBD := by
    rw [Nat.div_lt_iff_lt_mul hr]
    calc i < p.N := hi
    _ = p.RBD * p.CBD := hmul.symm
    _ = p.CBD * p.RBD := Nat.mul_comm _ _
  have hb : j / p.CBD < p.RBD := by
    rw [Nat.div_lt_iff_lt_mul hc]
    calc j < p.N := hj
    _ = p.RBD * p.CBD := hmul.symm
  calc boxIdx p i j = i / p.RBD + j / p.CBD * p.CBD := rfl
  _ < p.CBD + j / p.CBD * p.CBD := by omega
  _ = (j / p.CBD + 1) * p.CBD := by ring
  _ ≤ p.RBD * p.CBD := Nat.mul_le_mul_right _ hb
  _ = p.N := hmul

/-- The node of family `f` in a placement row sits in the `f`-th band of
`COL_OFFSET_` many columns: the four families occupy disjoint column
ranges. -/
theorem colOf_band {p : Params} (v : ValidP p) (r : Nat) (hr : r < p.MAX_ROWS)
    (f : Fin 4) :
    f.val * p.COL_OFFSET ≤ colOf p r f ∧
      colOf p r f < (f.val + 1) * p.COL_OFFSET := by
  have hi := iOf_lt v r hr
  have hj := jOf_lt v r
  have hk := kOf_lt v r
  have hb := boxIdx_lt v (iOf p r) (jOf p r) hi hj
  have key : ∀ a b : Nat, a < p.N → b < p.N → a * p.N + b < p.COL_OFFSET := by
    intro a b ha hbb
    rw [Params.COL_OFFSET, pow_two]
    calc a * p.N + b < a * p.N + p.N := by omega
    _ = (a + 1) * p.N := by ring
    _ ≤ p.N * p.N := Nat.mul_le_mul_right _ ha
  have hce : p.CELL_OFFSET = p.COL_OFFSET * 2 := rfl
  have hbo : p.BOX_OFFSET = p.COL_OFFSET * 3 := rfl
  fin_cases f
  · have := key _ _ hi hk
    show 0 * p.COL_OFFSET ≤ iOf p r * p.N + kOf p r ∧
      iOf p r * p.N + kOf p r < (0 + 1) * p.COL_OFFSET
    omega
  · have := key _ _ hj hk
    show 1 * p.COL_OFFSET ≤ p.COL_OFFSET + (jOf p r * p.N + kOf p r) ∧
      p.COL_OFFSET + (jOf p r * p.N + kOf p r) < (1 + 1) * p.COL_OFFSET
    omega
  · have := key _ _ hi hj
    show 2 * p.COL_OFFSET ≤ p.CELL_OFFSET + (iOf p r * p.N + jOf p r) ∧
      p.CELL_OFFSET + (iOf p r * p.N + jOf p r) < (2 + 1) * p.COL_OFFSET
    omega
  · have := key _ _ hb hk
    show 3 * p.COL_OFFSET ≤
        p.BOX_OFFSET + (boxIdx p (iOf p r) (jOf p r) * p.N + kOf p r) ∧
      p.BOX_OFFSET + (boxIdx p (iOf p r) (jOf p r) * p.N + kOf p r) <
        (3 + 1) * p.COL_OFFSET
    omega

theorem colOf_lt_MAX_COLS {p : Params} (v : ValidP p) (r : Nat)
    (hr : r < p.MAX_ROWS) (f : Fin 4) : colOf p r f < p.MAX_COLS := by
  have h := (colOf_band v r hr f).2
  have hf : f.val + 1 ≤ 4 := by omega
  rw [Params.MAX_COLS]
  calc colOf p r f < (f.val + 1) * p.COL_OFFSET := h
  _ ≤ 4 * p.COL_OFFSET := Nat.mul_le_mul_right _ hf
  _ = p.COL_OFFSET * 4 := Nat.mul_comm _ _

/-- Family injectivity: within one placement row the four nodes sit in four
distinct columns. -/
theorem colOf_f_inj {p : Params} (v : ValidP p) (r : Nat)
    (hr : r < p.MAX_ROWS) (f f' : Fin 4) (h : colOf p r f = colOf p r f') :
    f = f' := by
  have hb1 := colOf_band v r hr f
  have hb2 := colOf_band v r hr f'
  have hval : f.val = f'.val := by
    rcases Nat.lt_or_ge f.val f'.val with hlt | hge
    · exfalso
      have : colOf p r f < colOf p r f' := by
        calc colOf p r f < (f.val + 1) * p.COL_OFFSET := hb1.2
        _ ≤ f'.val * p.COL_OFFSET := Nat.mul_le_mul_right _ hlt
        _ ≤ colOf p r f' := hb2.1
      omega
    · rcases Nat.lt_or_ge f'.val f.val with hlt2 | hge2
      · exfalso
        have : colOf p r f' < colOf p r f := by
          calc colOf p r f' < (f'.val + 1) * p.COL_OFFSET := hb2.2
          _ ≤ f.val * p.COL_OFFSET := Nat.mul_le_mul_right _ hlt2
          _ ≤ colOf p r f := hb1.1
        omega
      · omega
  exact Fin.ext hval

/-- `famOf` inverts `colOf` on the placement rows of the matrix. -/
theorem famOf_eq {p : Params} (v : ValidP p) (r : Nat) (hr : r < p.MAX_ROWS)
    (f : Fin 4) : famOf p r (colOf p r f) = f := by
  have hinj := colOf_f_inj v r hr
  unfold famOf
  by_cases h0 : colOf p r 0 = colOf p r f
  · rw [if_pos h0]; exact hinj 0 f h0
  · rw [if_neg h0]
    by_cases h1 : colOf p r 1 = colOf p r f
    · rw [if_pos h1]; exact hinj 1 f h1
    · rw [if_neg h1]
      by_cases h2 : colOf p r 2 = colOf p r f
      · rw [if_pos h2]; exact hinj 2 f h2
      · rw [if_neg h2]
        have h3 : colOf p r 3 = colOf p r f := by
          fin_cases f
          · exact absurd rfl h0
          · exact absurd rfl h1
          · exact absurd rfl h2
          · rfl
        exact hinj 3 f h3

theorem mem_colRows_self (p : Params) (r : Nat) (hr : r < p.MAX_ROWS)
    (f : Fin 4) : r ∈ colRows p (colOf p r f) := by
  rw [mem_colRows]
  refine ⟨hr, ?_⟩
  fin_cases f
  · exact Or.inl rfl
  · exact Or.inr (Or.inl rfl)
  · exact Or.inr (Or.inr (Or.inl rfl))
  · exact Or.inr (Or.inr (Or.inr rfl))

/-- Every row of `colRows p c` is a matrix row. -/
theorem colRows_lt (p : Params) (c : Nat) (r : Nat) (h : r ∈ colRows p c) :
    r < p.MAX_ROWS := ((mem_colRows p c r).mp h).1

/-- In a circular doubly linked list described by a forward chain and its
reversed backward chain, the two pointer maps invert each other at the anchor
and at every member. -/
theorem cycle_ok (nxt prv : NodeId → NodeId) (h : NodeId) (M : List NodeId)
    (hb : follows nxt h (nxt h) M) (ht : follows prv h (prv h) M.reverse) :
    (nxt (prv h) = h ∧ prv (nxt h) = h) ∧
      ∀ x ∈ M, nxt (prv x) = x ∧ prv (nxt x) = x := by
  constructor
  · cases hM : M with
    | nil =>
      subst hM
      have h1 : nxt h = h := hb
      have h2 : prv h = h := ht
      rw [h1, h2, h1]
      exact ⟨rfl, rfl⟩
    | cons m M2 =>
      constructor
      · -- nxt (prv h) = h : prv h is the last of M, whose nxt is h
        have hlast : prv h = M.getLast (by rw [hM]; simp) := by
          have := follows_start prv h (prv h) M.reverse ht
          rw [this]
          rw [List.head?_reverse]
          rw [List.getLast?_eq_getLast M (by rw [hM]; simp)]
          rfl
        rw [hlast]
        have hsplit : M = M.dropLast ++ [M.getLast (by rw [hM]; simp)] :=
          (List.dropLast_append_getLast _).symm
        have := follows_next_at nxt h (nxt h) M.dropLast [] _ (by rw [← hsplit]; exact hb)
        rw [this]
        rfl
      · -- prv (nxt h) = h : nxt h is the head of M, whose prv is h
        subst hM
        have hstart : nxt h = m := hb.1
        rw [hstart]
        have hsplit : (m :: M2).reverse = M2.reverse ++ m :: [] := by simp
        have := follows_next_at prv h (prv h) M2.reverse [] m (by rw [← hsplit]; exact ht)
        rw [this]
        rfl
  · intro x hx
    obtain ⟨A, B, hAB⟩ := List.append_of_mem hx
    constructor
    · -- nxt (prv x) = x
      have hrev : M.reverse = B.reverse ++ x :: A.reverse := by
        rw [hAB]; simp
      have hprv := follows_next_at prv h (prv h) B.reverse A.reverse x
        (by rw [← hrev]; exact ht)
      cases hA : A.reverse with
      | nil =>
        rw [hA] at hprv
        have hA2 : A = [] := by
          cases A with
          | nil => rfl
          | cons a as => simp at hA
        subst hA2
        simp only [List.head?_nil, Option.getD_none] at hprv
        rw [hprv]
        have := follows_start nxt h (nxt h) M hb
        rw [this, hAB]
        simp
      | cons b Br =>
        rw [hA] at hprv
        simp only [List.head?_cons, Option.getD_some] at hprv
        rw [hprv]
        -- b is the last of A; M = A.dropLast ++ b :: x :: B
        have hA3 : A = Br.reverse ++ [b] := by
          have : A.reverse.reverse = (b :: Br).reverse := by rw [hA]
          simpa using this
        have hM2 : M = Br.reverse ++ b :: (x :: B) := by
          rw [hAB, hA3]
          simp
        have := follows_next_at nxt h (nxt h) Br.reverse (x :: B) b
          (by rw [← hM2]; exact hb)
        rw [this]
        rfl
    · -- prv (nxt x) = x
      have hnxt := follows_next_at nxt h (nxt h) A B x (by rw [← hAB]; exact hb)
      cases hB : B with
      | nil =>
        rw [hB] at hnxt
        simp only [List.head?_nil, Option.getD_none] at hnxt
        rw [hnxt]
        have := follows_start prv h (prv h) M.reverse ht
        rw [this, hAB, hB]
        simp
      | cons b Br =>
        rw [hB] at hnxt
        simp only [List.head?_cons, Option.getD_some] at hnxt
        rw [hnxt]
        have hrev2 : M.reverse = Br.reverse ++ b :: (x :: A.reverse) := by
          rw [hAB, hB]
          simp
        have := follows_next_at prv h (prv h) Br.reverse (x :: A.reverse) b
          (by rw [← hrev2]; exact ht)
        rw [this]
        rfl

theorem nodup_middle_not_left {α : Type} (A B : List α) (x : α)
    (h : (A ++ x :: B).Nodup) : x ∉ A := by
  have h2 := List.nodup_middle.mp h
  have := (List.nodup_cons.mp h2).1
  intro hx
  exact this (List.mem_append.mpr (Or.inl hx))

theorem nodup_middle_not_right {α : Type} (A B : List α) (x : α)
    (h : (A ++ x :: B).Nodup) : x ∉ B := by
  have h2 := List.nodup_middle.mp h
  have := (List.nodup_cons.mp h2).1
  intro hx
  exact this (List.mem_append.mpr (Or.inr hx))

/-- The `bottom_` chain of a column of the freshly built matrix follows
`colRows` in order (suffix version for the induction). -/
theorem initBottom_chain (p : Params) (c : Nat) :
    ∀ (B A : List Nat), colRows p c = A ++ B →
      follows (initBottom p) (NodeId.header c)
        (B.head?.elim (NodeId.header c) (colNode p c))
        (B.map (colNode p c)) := by
  intro B
  induction B with
  | nil => intro A _; exact rfl
  | cons r B' ih =>
    intro A hsplit
    have hmem : r ∈ colRows p c := by
      rw [hsplit]
      exact List.mem_append.mpr (Or.inr (List.mem_cons_self r B'))
    have hfc : colOf p r (famOf p r c) = c :=
      famOf_colOf p r c ((mem_colRows p c r).mp hmem).2
    refine ⟨rfl, by simp [colNode], ?_⟩
    have hnd : (A ++ r :: B').Nodup := hsplit ▸ colRows_nodup p c
    have hstep : initBottom p (colNode p c r) =
        B'.head?.elim (NodeId.header c) (colNode p c) := by
      show (match nextAfter (colRows p (colOf p r (famOf p r c))) r with
        | some r' => colNode p (colOf p r (famOf p r c)) r'
        | none => NodeId.header (colOf p r (famOf p r c))) = _
      rw [hfc, hsplit, nextAfter_eq A B' r (nodup_middle_not_left A B' r hnd)]
      cases B'.head? with
      | none => rfl
      | some r' => rfl
    rw [hstep]
    exact ih (A ++ [r]) (by rw [hsplit]; simp)

/-- The `top_` chain of a column of the freshly built matrix follows
`colRows` in reverse order (prefix version for the induction). -/
theorem initTop_chain (p : Params) (c : Nat) :
    ∀ (Arev B : List Nat), colRows p c = Arev.reverse ++ B →
      follows (initTop p) (NodeId.header c)
        (Arev.head?.elim (NodeId.header c) (colNode p c))
        (Arev.map (colNode p c)) := by
  intro Arev
  induction Arev with
  | nil => intro B _; exact rfl
  | cons r Arev' ih =>
    intro B hsplit
    have hsplit2 : colRows p c = Arev'.reverse ++ r :: B := by
      rw [hsplit]
      simp
    have hmem : r ∈ colRows p c := by
      rw [hsplit2]
      exact List.mem_append.mpr (Or.inr (List.mem_cons_self r B))
    have hfc : colOf p r (famOf p r c) = c :=
      famOf_colOf p r c ((mem_colRows p c r).mp hmem).2
    refine ⟨rfl, by simp [colNode], ?_⟩
    have hnd : (Arev'.reverse ++ r :: B).Nodup := hsplit2 ▸ colRows_nodup p c
    have hstep : initTop p (colNode p c r) =
        Arev'.head?.elim (NodeId.header c) (colNode p c) := by
      show (match prevBefore (colRows p (colOf p r (famOf p r c))) r with
        | some r' => colNode p (colOf p r (famOf p r c)) r'
        | none => NodeId.header (colOf p r (famOf p r c))) = _
      rw [hfc, hsplit2, prevBefore_eq Arev'.reverse B r hnd,
        List.getLast?_reverse]
      cases Arev'.head? with
      | none => rfl
      | some r' => rfl
    rw [hstep]
    exact ih (r :: B) hsplit2

/-- The live vertical cycle of every column of the freshly built matrix is
exactly `colRows`. -/
theorem initState_colRepr (p : Params) (c : Nat) :
    colRepr (initState p) (NodeId.header c) (colNode p c) (colRows p c) := by
  constructor
  · have h := initBottom_chain p c (colRows p c) [] rfl
    have hstart : initBottom p (NodeId.header c) =
        (colRows p c).head?.elim (NodeId.header c) (colNode p c) := by
      show (match (colRows p c).head? with
        | none => NodeId.header c
        | some r => colNode p c r) = _
      cases (colRows p c).head? with
      | none => rfl
      | some r => rfl
    show follows (initBottom p) _ (initBottom p (NodeId.header c)) _
    rw [hstart]
    exact h
  · have h := initTop_chain p c (colRows p c).reverse [] (by simp)
    have hstart : initTop p (NodeId.header c) =
        (colRows p c).reverse.head?.elim (NodeId.header c) (colNode p c) := by
      show (match (colRows p c).getLast? with
        | none => NodeId.header c
        | some r => colNode p c r) = _
      rw [← List.head?_reverse]
      cases (colRows p c).reverse.head? with
      | none => rfl
      | some r => rfl
    show follows (initTop p) _ (initTop p (NodeId.header c)) _
    rw [hstart]
    exact h

/-- The `right_` chain of headers of the freshly built matrix
(suffix version). -/
theorem initRight_chain (p : Params) :
    ∀ len c, c + len = p.MAX_COLS →
      follows (initRight p) NodeId.root
        (if len = 0 then NodeId.root else NodeId.header c)
        ((List.range' c len).map NodeId.header) := by
  intro len
  induction len with
  | zero => intro c _; exact rfl
  | succ len ih =>
    intro c hc
    rw [List.range'_succ, if_neg (Nat.succ_ne_zero len)]
    refine ⟨rfl, by simp, ?_⟩
    have hstep : initRight p (NodeId.header c) =
        (if len = 0 then NodeId.root else NodeId.header (c + 1)) := by
      show (if c + 1 < p.MAX_COLS then NodeId.header (c + 1)
        else if c < p.MAX_COLS then NodeId.root else NodeId.header c) = _
      cases len with
      | zero =>
        rw [if_neg (by omega), if_pos (by omega), if_pos rfl]
      | succ len2 =>
        rw [if_pos (by omega), if_neg (by omega)]
    rw [hstep]
    cases len with
    | zero => exact rfl
    | succ len2 => exact ih (c + 1) (by omega)

/-- The `left_` chain of headers of the freshly built matrix
(prefix version). -/
theorem initLeft_chain (p : Params) :
    ∀ len, len ≤ p.MAX_COLS →
      follows (initLeft p) NodeId.root
        (if len = 0 then NodeId.root else NodeId.header (len - 1))
        (((List.range len).reverse).map NodeId.header) := by
  intro len
  induction len with
  | zero => intro _; exact rfl
  | succ len ih =>
    intro hlen
    rw [List.range_succ, if_neg (Nat.succ_ne_zero len)]
    rw [show ((List.range len) ++ [len]).reverse =
      len :: (List.range len).reverse by simp]
    have hred : len + 1 - 1 = len := rfl
    rw [hred]
    refine ⟨rfl, by simp, ?_⟩
    have hstep : initLeft p (NodeId.header len) =
        (if len = 0 then NodeId.root else NodeId.header (len - 1)) := by
      show (if len = 0 then NodeId.root
        else if len < p.MAX_COLS then NodeId.header (len - 1)
        else NodeId.header len) = _
      by_cases h0 : len = 0
      · rw [if_pos h0, if_pos h0]
      · rw [if_neg h0, if_neg h0, if_pos (by omega)]
    rw [hstep]
    exact ih (by omega)

/-- The horizontal header cycle of the freshly built matrix: root, then the
headers of all `MAX_COLS_` columns in order. -/
theorem initState_hfollows (p : Params) :
    follows (initState p).right NodeId.root ((initState p).right NodeId.root)
      ((List.range p.MAX_COLS).map NodeId.header) := by
  have h := initRight_chain p p.MAX_COLS 0 (by omega)
  rw [List.range_eq_range']
  have hstart : initRight p NodeId.root =
      (if p.MAX_COLS = 0 then NodeId.root else NodeId.header 0) := rfl
  show follows (initRight p) _ (initRight p NodeId.root) _
  rw [hstart]
  exact h

/-- The reversed horizontal header cycle. -/
theorem initState_hfollowsL (p : Params) :
    follows (initState p).left NodeId.root ((initState p).left NodeId.root)
      (((List.range p.MAX_COLS).map NodeId.header).reverse) := by
  have h := initLeft_chain p p.MAX_COLS (le_refl _)
  rw [← List.map_reverse]
  have hstart : initLeft p NodeId.root =
      (if p.MAX_COLS = 0 then NodeId.root
        else NodeId.header (p.MAX_COLS - 1)) := rfl
  show follows (initLeft p) _ (initLeft p NodeId.root) _
  rw [hstart]
  exact h

/-- Vertical pointer symmetry holds at every header of the fresh matrix. -/
theorem initState_okV_header (p : Params) (c : Nat) :
    okV (initState p) (NodeId.header c) := by
  obtain ⟨hb, ht⟩ := initState_colRepr p c
  rw [List.map_reverse] at ht
  have := (cycle_ok (initState p).bottom (initState p).top (NodeId.header c)
    ((colRows p c).map (colNode p c)) hb ht).1
  exact ⟨this.1, this.2⟩

/-- Vertical pointer symmetry holds at every matrix node of the fresh
matrix. -/
theorem initState_okV_node {p : Params} (v : ValidP p) (r : Nat)
    (hr : r < p.MAX_ROWS) (f : Fin 4) :
    okV (initState p) (NodeId.node r f) := by
  obtain ⟨hb, ht⟩ := initState_colRepr p (colOf p r f)
  rw [List.map_reverse] at ht
  have hcn : colNode p (colOf p r f) r = NodeId.node r f := by
    rw [colNode, famOf_eq v r hr f]
  have hmem : NodeId.node r f ∈
      (colRows p (colOf p r f)).map (colNode p (colOf p r f)) := by
    rw [← hcn]
    exact List.mem_map_of_mem _ (mem_colRows_self p r hr f)
  have := (cycle_ok (initState p).bottom (initState p).top
    (NodeId.header (colOf p r f))
    ((colRows p (colOf p r f)).map (colNode p (colOf p r f))) hb ht).2 _ hmem
  exact ⟨this.1, this.2⟩

theorem initState_okV_root (p : Params) : okV (initState p) NodeId.root :=
  ⟨rfl, rfl⟩

/-- Horizontal pointer symmetry holds at the root of the fresh matrix. -/
theorem initState_okH_root (p : Params) : okH (initState p) NodeId.root := by
  have := (cycle_ok (initState p).right (initState p).left NodeId.root
    ((List.range p.MAX_COLS).map NodeId.header)
    (initState_hfollows p) (initState_hfollowsL p)).1
  exact ⟨this.1, this.2⟩

/-- Horizontal pointer symmetry holds at every live header of the fresh
matrix. -/
theorem initState_okH_header (p : Params) (c : Nat) (hc : c < p.MAX_COLS) :
    okH (initState p) (NodeId.header c) := by
  have hmem : NodeId.header c ∈ (List.range p.MAX_COLS).map NodeId.header :=
    List.mem_map_of_mem _ (List.mem_range.mpr hc)
  have := (cycle_ok (initState p).right (initState p).left NodeId.root
    ((List.range p.MAX_COLS).map NodeId.header)
    (initState_hfollows p) (initState_hfollowsL p)).2 _ hmem
  exact ⟨this.1, this.2⟩

/-- Horizontal pointer symmetry holds at every matrix node of the fresh
matrix: each placement row is a four-cycle. -/
theorem initState_okH_node (p : Params) (r : Nat) (f : Fin 4) :
    okH (initState p) (NodeId.node r f) := by
  constructor
  · show NodeId.node r (f - 1 + 1) = NodeId.node r f
    rw [sub_add_cancel]
  · show NodeId.node r (f + 1 - 1) = NodeId.node r f
    rw [add_sub_cancel_right]

theorem getLast_getD_mem {α : Type} (l : List α) (h : α) :
    l.getLast?.getD h ∈ h :: l := by
  cases hl : l.getLast? with
  | none => exact List.mem_cons_self _ _
  | some a =>
    simp only [Option.getD_some]
    exact List.mem_cons_of_mem _ (List.mem_of_mem_getLast? (by rw [hl]; exact rfl))

theorem head_getD_mem {α : Type} (l : List α) (h : α) :
    l.head?.getD h ∈ h :: l := by
  cases hl : l.head? with
  | none => exact List.mem_cons_self _ _
  | some a =>
    simp only [Option.getD_some]
    exact List.mem_cons_of_mem _ (List.mem_of_mem_head? hl)

/-- Bypassing one element of a chain: updating the predecessor of `x` to
point at `x`'s successor removes exactly `x` from the chain.  The updated
map is given pointwise by `hupd`. -/
theorem follows_bypass (nxt nxt' : NodeId → NodeId) (h x : NodeId)
    (MB : List NodeId) :
    ∀ (MA : List NodeId) (cur : NodeId),
      follows nxt h cur (MA ++ x :: MB) →
      (MA ++ x :: MB).Nodup →
      (∀ z, nxt' z = if z = (MA.getLast?.getD h) then nxt x else nxt z) →
      follows nxt' h (if MA = [] then nxt x else cur) (MA ++ MB) := by
  intro MA
  induction MA with
  | nil =>
    intro cur hf hnd hupd
    simp only [List.nil_append, if_pos rfl]
    have h3 := hf.2.2
    apply follows_congr nxt nxt' h MB (nxt x)
    · intro z hz
      rw [hupd z, List.getLast?_nil]
      exact (if_neg (follows_ne_stop nxt h (nxt x) MB h3 z hz)).symm
    · exact h3
  | cons a MA' ih =>
    intro cur hf hnd hupd
    have hne : (a :: MA') ≠ ([] : List NodeId) := by simp
    rw [if_neg hne]
    have hcur : cur = a := hf.1
    have hah : a ≠ h := hf.2.1
    refine ⟨hcur, hah, ?_⟩
    cases hMA : MA' with
    | nil =>
      subst hMA
      have hloc : ((a :: ([] : List NodeId)).getLast?.getD h) = a := rfl
      have hstep : nxt' a = nxt x := by
        rw [hupd a, hloc, if_pos rfl]
      rw [hstep]
      have h3 : follows nxt h (nxt a) (x :: MB) := hf.2.2
      have h4 : follows nxt h (nxt x) MB := h3.2.2
      show follows nxt' h (nxt x) MB
      apply follows_congr nxt nxt' h MB (nxt x)
      · intro z hz
        have hOther : a ∉ x :: MB := (List.nodup_cons.mp hnd).1
        rw [hupd z, hloc]
        exact (if_neg (fun he : z = a =>
          hOther (he ▸ List.mem_cons_of_mem x hz))).symm
      · exact h4
    | cons a2 M2 =>
      subst hMA
      have hloc : ((a :: a2 :: M2).getLast?.getD h) =
          ((a2 :: M2).getLast?.getD h) := by
        rw [List.getLast?_cons_cons]
      have hnotin : a ∉ (a2 :: M2) ++ x :: MB := (List.nodup_cons.mp hnd).1
      have hax : ¬a = ((a2 :: M2).getLast?.getD h) := by
        intro he
        have hmem := getLast_getD_mem (a2 :: M2) h
        rw [← he] at hmem
        rcases List.mem_cons.mp hmem with h1 | h2
        · exact hah h1
        · exact hnotin (List.mem_append.mpr (Or.inl h2))
      have hstep : nxt' a = nxt a := by
        rw [hupd a, hloc, if_neg hax]
      rw [hstep]
      have hupd' : ∀ z, nxt' z =
          if z = ((a2 :: M2).getLast?.getD h) then nxt x else nxt z := by
        intro z
        rw [hupd z, hloc]
      have := ih (nxt a) hf.2.2 (List.nodup_cons.mp hnd).2 hupd'
      rw [if_neg (by simp)] at this
      exact this

/-- Unlinking one node of a live column removes exactly its row from the
column's doubly linked cycle. -/
theorem colRepr_unlink (u : DLX) (h : NodeId) (cn : Nat → NodeId)
    (A B : List Nat) (rr : Nat)
    (hrep : colRepr u h cn (A ++ rr :: B))
    (hnd : ((A ++ rr :: B).map cn).Nodup) :
    colRepr (unlinkV u (cn rr)) h cn (A ++ B) ∧
    u.top (cn rr) = ((A.map cn).getLast?.getD h) ∧
    u.bottom (cn rr) = ((B.map cn).head?.getD h) := by
  obtain ⟨hb, ht⟩ := hrep
  have hmapsplit : (A ++ rr :: B).map cn = A.map cn ++ cn rr :: B.map cn := by
    simp
  rw [hmapsplit] at hb
  have hndb : (A.map cn ++ cn rr :: B.map cn).Nodup := by
    rw [← hmapsplit]
    exact hnd
  have hrevsplit : (A ++ rr :: B).reverse.map cn =
      B.reverse.map cn ++ cn rr :: A.reverse.map cn := by
    simp
  rw [hrevsplit] at ht
  have hndt : (B.reverse.map cn ++ cn rr :: A.reverse.map cn).Nodup := by
    rw [← hrevsplit, List.map_reverse]
    exact List.nodup_reverse.mpr hnd
  -- pointwise neighbours of the unlinked node
  have hpt : u.top (cn rr) = ((A.map cn).getLast?.getD h) := by
    have := follows_next_at u.top h (u.top h) (B.reverse.map cn)
      (A.reverse.map cn) (cn rr) ht
    rw [this, List.map_reverse, List.head?_reverse]
  have hpb : u.bottom (cn rr) = ((B.map cn).head?.getD h) := by
    have := follows_next_at u.bottom h (u.bottom h) (A.map cn)
      (B.map cn) (cn rr) hb
    rw [this]
  have hchainelts := follows_ne_stop u.bottom h (u.bottom h) _ hb
  have hchainT := follows_ne_stop u.top h (u.top h) _ ht
  refine ⟨⟨?_, ?_⟩, hpt, hpb⟩
  · -- new bottom chain
    have hupd : ∀ z, (unlinkV u (cn rr)).bottom z =
        if z = ((A.map cn).getLast?.getD h) then u.bottom (cn rr)
        else u.bottom z := by
      intro z
      rw [unlinkV_bottom_app, hpt]
    have hby := follows_bypass u.bottom (unlinkV u (cn rr)).bottom h (cn rr)
      (B.map cn) (A.map cn) (u.bottom h) hb hndb hupd
    have hstart : (unlinkV u (cn rr)).bottom h =
        (if A.map cn = [] then u.bottom (cn rr) else u.bottom h) := by
      rw [hupd h]
      by_cases hA : A.map cn = []
      · rw [if_pos hA, hA, List.getLast?_nil, Option.getD_none, if_pos rfl]
      · rw [if_neg hA, if_neg ?hne]
        case hne =>
          intro he
          have : (A.map cn).getLast?.getD h ∈ A.map cn := by
            cases hA2 : (A.map cn) with
            | nil => exact absurd hA2 hA
            | cons w ws =>
              rw [List.getLast?_eq_getLast _ (by simp)]
              exact List.getLast_mem _
          rw [← he] at this
          exact hchainelts h (List.mem_append.mpr (Or.inl this)) rfl
    show follows (unlinkV u (cn rr)).bottom h ((unlinkV u (cn rr)).bottom h)
      ((A ++ B).map cn)
    rw [hstart, show ((A ++ B).map cn) = A.map cn ++ B.map cn by simp]
    exact hby
  · -- new top chain
    have hupd : ∀ z, (unlinkV u (cn rr)).top z =
        if z = ((B.reverse.map cn).getLast?.getD h) then u.top (cn rr)
        else u.top z := by
      intro z
      rw [unlinkV_top_app, hpb]
      rw [← show (B.reverse.map cn).getLast?.getD h = ((B.map cn).head?.getD h) by
        rw [List.map_reverse, List.getLast?_reverse]]
    have hby := follows_bypass u.top (unlinkV u (cn rr)).top h (cn rr)
      (A.reverse.map cn) (B.reverse.map cn) (u.top h) ht hndt hupd
    have hstart : (unlinkV u (cn rr)).top h =
        (if B.reverse.map cn = [] then u.top (cn rr) else u.top h) := by
      rw [hupd h]
      by_cases hB : B.reverse.map cn = []
      · rw [if_pos hB, hB, List.getLast?_nil, Option.getD_none, if_pos rfl]
      · rw [if_neg hB, if_neg ?hne2]
        case hne2 =>
          intro he
          have : (B.reverse.map cn).getLast?.getD h ∈ B.reverse.map cn := by
            cases hB2 : (B.reverse.map cn) with
            | nil => exact absurd hB2 hB
            | cons w ws =>
              rw [List.getLast?_eq_getLast _ (by simp)]
              exact List.getLast_mem _
          rw [← he] at this
          exact hchainT h (List.mem_append.mpr (Or.inl this)) rfl
    show follows (unlinkV u (cn rr)).top h ((unlinkV u (cn rr)).top h)
      ((A ++ B).reverse.map cn)
    rw [hstart, show ((A ++ B).reverse.map cn) =
      B.reverse.map cn ++ A.reverse.map cn by simp]
    exact hby

theorem coverRowLoop_left (rn cur : NodeId) (fuel : Nat) :
    ∀ s : DLX, (coverRowLoop s rn cur fuel).left = s.left := by
  induction fuel generalizing cur with
  | zero => intro s; rfl
  | succ f ih =>
    intro s
    show (if cur = rn then s else _).left = s.left
    by_cases h : cur = rn
    · rw [if_pos h]
    · rw [if_neg h]
      rw [ih _ _]
      rfl

theorem coverRowLoop_right (rn cur : NodeId) (fuel : Nat) :
    ∀ s : DLX, (coverRowLoop s rn cur fuel).right = s.right := by
  induction fuel generalizing cur with
  | zero => intro s; rfl
  | succ f ih =>
    intro s
    show (if cur = rn then s else _).right = s.right
    by_cases h : cur = rn
    · rw [if_pos h]
    · rw [if_neg h]
      rw [ih _ _]
      rfl

theorem coverColLoop_left (c cur : NodeId) (fuel : Nat) :
    ∀ s : DLX, (coverColLoop s c cur fuel).left = s.left := by
  induction fuel generalizing cur with
  | zero => intro s; rfl
  | succ f ih =>
    intro s
    show (if cur = c then s else _).left = s.left
    by_cases h : cur = c
    · rw [if_pos h]
    · rw [if_neg h]
      rw [ih _ _, coverRowLoop_left]

theorem coverColLoop_right (c cur : NodeId) (fuel : Nat) :
    ∀ s : DLX, (coverColLoop s c cur fuel).right = s.right := by
  induction fuel generalizing cur with
  | zero => intro s; rfl
  | succ f ih =>
    intro s
    show (if cur = c then s else _).right = s.right
    by_cases h : cur = c
    · rw [if_pos h]
    · rw [if_neg h]
      rw [ih _ _, coverRowLoop_right]

theorem uncoverRowLoop_left (rn cur : NodeId) (fuel : Nat) :
    ∀ s : DLX, (uncoverRowLoop s rn cur fuel).left = s.left := by
  induction fuel generalizing cur with
  | zero => intro s; rfl
  | succ f ih =>
    intro s
    show (if cur = rn then s else _).left = s.left
    by_cases h : cur = rn
    · rw [if_pos h]
    · rw [if_neg h]
      rw [ih _ _]
      rfl

theorem uncoverRowLoop_right (rn cur : NodeId) (fuel : Nat) :
    ∀ s : DLX, (uncoverRowLoop s rn cur fuel).right = s.right := by
  induction fuel generalizing cur with
  | zero => intro s; rfl
  | succ f ih =>
    intro s
    show (if cur = rn then s else _).right = s.right
    by_cases h : cur = rn
    · rw [if_pos h]
    · rw [if_neg h]
      rw [ih _ _]
      rfl

theorem uncoverColLoop_left (c cur : NodeId) (fuel : Nat) :
    ∀ s : DLX, (uncoverColLoop s c cur fuel).left = s.left := by
  induction fuel generalizing cur with
  | zero => intro s; rfl
  | succ f ih =>
    intro s
    show (if cur = c then s else _).left = s.left
    by_cases h : cur = c
    · rw [if_pos h]
    · rw [if_neg h]
      rw [ih _ _, uncoverRowLoop_left]

theorem uncoverColLoop_right (c cur : NodeId) (fuel : Nat) :
    ∀ s : DLX, (uncoverColLoop s c cur fuel).right = s.right := by
  induction fuel generalizing cur with
  | zero => intro s; rfl
  | succ f ih =>
    intro s
    show (if cur = c then s else _).right = s.right
    by_cases h : cur = c
    · rw [if_pos h]
    · rw [if_neg h]
      rw [ih _ _, uncoverRowLoop_right]

/-- `cover`'s inner loop along a `right_` chain performs exactly the unlink
sequence of the chain (`right_` pointers are never modified by vertical
unlinks, so the traversal is stable). -/
theorem coverRowLoop_eq (rn : NodeId) (P : List NodeId) :
    ∀ (s : DLX) (cur : NodeId) (fuel : Nat),
      follows s.right rn cur P → P.length < fuel →
      coverRowLoop s rn cur fuel = unlinkSeq s P := by
  induction P with
  | nil =>
    intro s cur fuel hf hfuel
    cases fuel with
    | zero => omega
    | succ f =>
      show (if cur = rn then s else _) = s
      rw [if_pos (show cur = rn from hf)]
  | cons x P' ih =>
    intro s cur fuel hf hfuel
    cases fuel with
    | zero => omega
    | succ f =>
      obtain ⟨hcur, hne, hrest⟩ := hf
      subst hcur
      show (if cur = rn then s else
        coverRowLoop (unlinkV s cur) rn ((unlinkV s cur).right cur) f) = _
      rw [if_neg hne]
      show _ = unlinkSeq (unlinkV s cur) P'
      rw [show (unlinkV s cur).right = s.right from rfl]
      exact ih (unlinkV s cur) (s.right cur) f hrest
        (by simp at hfuel ⊢; omega)

/-- `uncover`'s inner loop along a `left_` chain performs exactly the relink
sequence of the chain. -/
theorem uncoverRowLoop_eq (rn : NodeId) (Q : List NodeId) :
    ∀ (s : DLX) (cur : NodeId) (fuel : Nat),
      follows s.left rn cur Q → Q.length < fuel →
      uncoverRowLoop s rn cur fuel = relinkSeq s Q := by
  induction Q with
  | nil =>
    intro s cur fuel hf hfuel
    cases fuel with
    | zero => omega
    | succ f =>
      show (if cur = rn then s else _) = s
      rw [if_pos (show cur = rn from hf)]
  | cons x Q' ih =>
    intro s cur fuel hf hfuel
    cases fuel with
    | zero => omega
    | succ f =>
      obtain ⟨hcur, hne, hrest⟩ := hf
      subst hcur
      show (if cur = rn then s else
        uncoverRowLoop (relinkV s cur) rn ((relinkV s cur).left cur) f) = _
      rw [if_neg hne]
      show _ = relinkSeq (relinkV s cur) Q'
      rw [show (relinkV s cur).left = s.left from rfl]
      exact ih (relinkV s cur) (s.left cur) f hrest
        (by simp at hfuel ⊢; omega)

theorem fin4_facts : ∀ f : Fin 4,
    f + 1 ≠ f ∧ f + 2 ≠ f ∧ f + 3 ≠ f ∧
    f + 1 + 1 = f + 2 ∧ f + 2 + 1 = f + 3 ∧ f + 3 + 1 = f ∧
    f - 1 = f + 3 ∧ f + 3 - 1 = f + 2 ∧ f + 2 - 1 = f + 1 ∧
    f + 1 - 1 = f := by decide

/-- The `right_` chain around a placement-row node visits its three partners
and returns. -/
theorem partners_follows (s : DLX)
    (hrowR : ∀ r f, s.right (NodeId.node r f) = NodeId.node r (f + 1))
    (r : Nat) (f : Fin 4) :
    follows s.right (NodeId.node r f) (s.right (NodeId.node r f))
      (partnersR r f) := by
  obtain ⟨h1, h2, h3, h4, h5, h6, _⟩ := fin4_facts f
  refine ⟨hrowR r f, by simp [h1], ?_⟩
  rw [hrowR r (f + 1), h4]
  refine ⟨rfl, by simp [h2], ?_⟩
  rw [hrowR r (f + 2), h5]
  refine ⟨rfl, by simp [h3], ?_⟩
  rw [hrowR r (f + 3), h6]
  exact rfl

/-- The `left_` chain around a placement-row node visits its three partners
in reverse order. -/
theorem partnersL_follows (s : DLX)
    (hrowL : ∀ r f, s.left (NodeId.node r f) = NodeId.node r (f - 1))
    (r : Nat) (f : Fin 4) :
    follows s.left (NodeId.node r f) (s.left (NodeId.node r f))
      ((partnersR r f).reverse) := by
  obtain ⟨h1, h2, h3, _, _, _, h7, h8, h9, h10⟩ := fin4_facts f
  show follows s.left _ _ [NodeId.node r (f + 3), NodeId.node r (f + 2),
    NodeId.node r (f + 1)]
  rw [hrowL r f, h7]
  refine ⟨rfl, by simp [h3], ?_⟩
  rw [hrowL r (f + 3), h8]
  refine ⟨rfl, by simp [h2], ?_⟩
  rw [hrowL r (f + 2), h9]
  refine ⟨rfl, by simp [h1], ?_⟩
  rw [hrowL r (f + 1), h10]
  exact rfl

/-- Unlinking a header from the horizontal header cycle removes exactly that
header. -/
theorem hchain_unlink (s : DLX) (A B : List NodeId) (c : NodeId)
    (hR : follows s.right NodeId.root (s.right NodeId.root) (A ++ c :: B))
    (hL : follows s.left NodeId.root (s.left NodeId.root)
      (B.reverse ++ c :: A.reverse))
    (hnd : (A ++ c :: B).Nodup) :
    (follows (unlinkH s c).right NodeId.root
      ((unlinkH s c).right NodeId.root) (A ++ B)) ∧
    (follows (unlinkH s c).left NodeId.root
      ((unlinkH s c).left NodeId.root) (B.reverse ++ A.reverse)) ∧
    s.left c = (A.getLast?.getD NodeId.root) ∧
    s.right c = (B.head?.getD NodeId.root) := by
  have hndL : (B.reverse ++ c :: A.reverse).Nodup := by
    have : (B.reverse ++ c :: A.reverse) = (A ++ c :: B).reverse := by simp
    rw [this]
    exact List.nodup_reverse.mpr hnd
  have hpl : s.left c = (A.getLast?.getD NodeId.root) := by
    have := follows_next_at s.left NodeId.root (s.left NodeId.root)
      B.reverse A.reverse c hL
    rw [this, List.head?_reverse]
  have hpr : s.right c = (B.head?.getD NodeId.root) := by
    have := follows_next_at s.right NodeId.root (s.right NodeId.root)
      A B c hR
    rw [this]
  have hcheR := follows_ne_stop s.right NodeId.root (s.right NodeId.root) _ hR
  have hcheL := follows_ne_stop s.left NodeId.root (s.left NodeId.root) _ hL
  refine ⟨?_, ?_, hpl, hpr⟩
  · have hupd : ∀ z, (unlinkH s c).right z =
        if z = (A.getLast?.getD NodeId.root) then s.right c else s.right z := by
      intro z
      rw [unlinkH_right_app, hpl]
    have hby := follows_bypass s.right (unlinkH s c).right NodeId.root c
      B A (s.right NodeId.root) hR hnd hupd
    have hstart : (unlinkH s c).right NodeId.root =
        (if A = [] then s.right c else s.right NodeId.root) := by
      rw [hupd NodeId.root]
      by_cases hA : A = []
      · rw [if_pos hA, hA, List.getLast?_nil, Option.getD_none, if_pos rfl]
      · rw [if_neg hA, if_neg ?hne]
        case hne =>
          intro he
          have : A.getLast?.getD NodeId.root ∈ A := by
            cases hA2 : A with
            | nil => exact absurd hA2 hA
            | cons w ws =>
              rw [List.getLast?_eq_getLast _ (by simp)]
              exact List.getLast_mem _
          rw [← he] at this
          exact hcheR NodeId.root (List.mem_append.mpr (Or.inl this)) rfl
    rw [hstart]
    exact hby
  · have hupd : ∀ z, (unlinkH s c).left z =
        if z = (B.reverse.getLast?.getD NodeId.root) then s.left c
        else s.left z := by
      intro z
      rw [unlinkH_left_app, hpr, ← show B.reverse.getLast?.getD NodeId.root =
        B.head?.getD NodeId.root by rw [List.getLast?_reverse]]
    have hby := follows_bypass s.left (unlinkH s c).left NodeId.root c
      A.reverse B.reverse (s.left NodeId.root) hL hndL hupd
    have hstart : (unlinkH s c).left NodeId.root =
        (if B.reverse = [] then s.left c else s.left NodeId.root) := by
      rw [hupd NodeId.root]
      by_cases hB : B.reverse = []
      · rw [if_pos hB, hB, List.getLast?_nil, Option.getD_none, if_pos rfl]
      · rw [if_neg hB, if_neg ?hne2]
        case hne2 =>
          intro he
          have : B.reverse.getLast?.getD NodeId.root ∈ B.reverse := by
            cases hB2 : B.reverse with
            | nil => exact absurd hB2 hB
            | cons w ws =>
              rw [List.getLast?_eq_getLast _ (by simp)]
              exact List.getLast_mem _
          rw [← he] at this
          exact hcheL NodeId.root (List.mem_append.mpr (Or.inl this)) rfl
    rw [hstart]
    exact hby

/-- A column representation only reads the `top_`/`bottom_` fields at the
header and at the chain's nodes, so pointwise agreement there transfers it. -/
theorem colRepr_transfer (u u' : DLX) (h : NodeId) (cn : Nat → NodeId)
    (L : List Nat) (hrep : colRepr u h cn L)
    (agh : u'.top h = u.top h ∧ u'.bottom h = u.bottom h)
    (agn : ∀ rr ∈ L, u'.top (cn rr) = u.top (cn rr) ∧
      u'.bottom (cn rr) = u.bottom (cn rr)) :
    colRepr u' h cn L := by
  obtain ⟨hb, ht⟩ := hrep
  constructor
  · rw [agh.2]
    apply follows_congr u.bottom u'.bottom h (L.map cn) (u.bottom h)
    · intro z hz
      obtain ⟨rr, hrr, hz2⟩ := List.mem_map.mp hz
      rw [← hz2]
      exact (agn rr hrr).2.symm
    · exact hb
  · rw [agh.1]
    apply follows_congr u.top u'.top h (L.reverse.map cn) (u.top h)
    · intro z hz
      obtain ⟨rr, hrr, hz2⟩ := List.mem_map.mp hz
      rw [← hz2]
      exact (agn rr (List.mem_reverse.mp hrr)).1.symm
    · exact ht

/-- `unlinkV` leaves the vertical pointers of every node other than the
unlinked node's two neighbours untouched. -/
theorem unlinkV_agree (u : DLX) (x z : NodeId)
    (hzt : z ≠ u.bottom x) (hzb : z ≠ u.top x) :
    (unlinkV u x).top z = u.top z ∧ (unlinkV u x).bottom z = u.bottom z := by
  rw [unlinkV_top_app, unlinkV_bottom_app, if_neg hzt, if_neg hzb]
  exact ⟨rfl, rfl⟩

/-- Nodes of distinct columns are distinct. -/
theorem colNode_ne {p : Params} (d d' : Nat) (hne : d ≠ d')
    (rr rr' : Nat) (h1 : rr ∈ colRows p d) (h2 : rr' ∈ colRows p d') :
    colNode p d rr ≠ colNode p d' rr' := by
  intro he
  rw [colNode, colNode] at he
  injection he with hr hf
  subst hr
  have e1 : colOf p rr (famOf p rr d) = d :=
    famOf_colOf p rr d ((mem_colRows p d rr).mp h1).2
  have e2 : colOf p rr (famOf p rr d') = d' :=
    famOf_colOf p rr d' ((mem_colRows p d' rr).mp h2).2
  apply hne
  rw [← e1, hf, e2]

theorem nodup_split_filter {α : Type} [DecidableEq α] (A B : List α) (x : α)
    (hnd : (A ++ x :: B).Nodup) :
    (A ++ x :: B).filter (fun q => decide (q ≠ x)) = A ++ B := by
  rw [List.filter_append, List.filter_cons]
  have hx : (decide (x ≠ x) = true) = False := by simp
  rw [if_neg (by simp)]
  have hA : A.filter (fun q => decide (q ≠ x)) = A :=
    List.filter_eq_self.mpr fun a ha => by
      simp only [decide_eq_true_eq]
      exact fun he => (nodup_middle_not_left A B x hnd) (he ▸ ha)
  have hB : B.filter (fun q => decide (q ≠ x)) = B :=
    List.filter_eq_self.mpr fun a ha => by
      simp only [decide_eq_true_eq]
      exact fun he => (nodup_middle_not_right A B x hnd) (he ▸ ha)
  rw [hA, hB]

theorem filter_not_mem_append {α : Type} [DecidableEq α] (l D : List α)
    (x : α) :
    (l.filter fun q => decide (q ∉ D)).filter (fun q => decide (q ≠ x)) =
      l.filter fun q => decide (q ∉ D ++ [x]) := by
  rw [List.filter_filter]
  apply List.filter_congr
  intro a _
  by_cases h1 : a ∈ D <;> by_cases h2 : a = x <;>
    simp [h1, h2, List.mem_append]

theorem fin4_surj : ∀ f g : Fin 4,
    f = g ∨ f = g + 1 ∨ f = g + 2 ∨ f = g + 3 := by decide

theorem unlinkV_tb_congr (a b : DLX) (hT : a.top = b.top)
    (hB : a.bottom = b.bottom) (x : NodeId) :
    (unlinkV a x).top = (unlinkV b x).top ∧
    (unlinkV a x).bottom = (unlinkV b x).bottom := by
  rw [unlinkV_top, unlinkV_bottom, unlinkV_top, unlinkV_bottom, hT, hB]
  exact ⟨rfl, rfl⟩

theorem unlinkSeq_tb_congr (X : List NodeId) :
    ∀ a b : DLX, a.top = b.top → a.bottom = b.bottom →
      (unlinkSeq a X).top = (unlinkSeq b X).top ∧
      (unlinkSeq a X).bottom = (unlinkSeq b X).bottom := by
  induction X with
  | nil => intro a b hT hB; exact ⟨hT, hB⟩
  | cons x xs ih =>
    intro a b hT hB
    have h1 := unlinkV_tb_congr a b hT hB x
    exact ih (unlinkV a x) (unlinkV b x) h1.1 h1.2

theorem fin4_distinct : ∀ f : Fin 4,
    f + 1 ≠ f + 2 ∧ f + 1 ≠ f + 3 ∧ f + 2 ≠ f + 3 := by decide

theorem header_ne_colNode (p : Params) (d d' q : Nat) :
    NodeId.header d ≠ colNode p d' q := by
  rw [colNode]
  intro he
  exact NodeId.noConfusion he

theorem colNode_ne_header (p : Params) (d q d' : Nat) :
    colNode p d q ≠ NodeId.header d' := by
  rw [colNode]
  intro he
  exact NodeId.noConfusion he

theorem header_inj_ne (d d' : Nat) (h : d ≠ d') :
    NodeId.header d ≠ NodeId.header d' := by
  intro he
  injection he with h2
  exact h h2

/-- If two states agree on all vertical pointers away from column `dKill`,
they agree at the header and every node of any other column `d`. -/
theorem agree_on_col {p : Params} {u u' : DLX} {dKill : Nat} (d : Nat)
    (hne : d ≠ dKill)
    (Ag : ∀ z : NodeId, (∀ q ∈ colRows p dKill, z ≠ colNode p dKill q) →
      z ≠ NodeId.header dKill →
      u'.top z = u.top z ∧ u'.bottom z = u.bottom z) :
    (u'.top (NodeId.header d) = u.top (NodeId.header d) ∧
      u'.bottom (NodeId.header d) = u.bottom (NodeId.header d)) ∧
    ∀ q ∈ colRows p d,
      u'.top (colNode p d q) = u.top (colNode p d q) ∧
      u'.bottom (colNode p d q) = u.bottom (colNode p d q) := by
  constructor
  · exact Ag _ (fun q _ => header_ne_colNode p d dKill q)
      (header_inj_ne d dKill hne)
  · intro q hq
    exact Ag _ (fun q' hq' => colNode_ne d dKill hne q q' hq hq')
      (colNode_ne_header p d q dKill)

/-- A column representation survives an update that only touches another
column's vertical pointers. -/
theorem colRepr_transfer_col {p : Params} {u u' : DLX} {dKill d : Nat}
    {L : List Nat} (hne : d ≠ dKill)
    (hsub : ∀ q ∈ L, q ∈ colRows p d)
    (hrep : colRepr u (NodeId.header d) (colNode p d) L)
    (Ag : ∀ z : NodeId, (∀ q ∈ colRows p dKill, z ≠ colNode p dKill q) →
      z ≠ NodeId.header dKill →
      u'.top z = u.top z ∧ u'.bottom z = u.bottom z) :
    colRepr u' (NodeId.header d) (colNode p d) L := by
  obtain ⟨agh, agn⟩ := agree_on_col d hne Ag
  exact colRepr_transfer u u' _ _ L hrep agh fun rr hrr => agn rr (hsub rr hrr)

theorem colNode_injective (p : Params) (d : Nat) :
    Function.Injective (colNode p d) := by
  intro a b hab
  rw [colNode, colNode] at hab
  injection hab

/-- Unlinking the node of row `r` in one of its partner columns shrinks that
column's cycle by exactly row `r` and touches no vertical pointer outside
that column. -/
theorem partner_step {p : Params} (v : ValidP p) (V : Nat → List Nat)
    (Done : List Nat) (r : Nat) (g : Fin 4)
    (hrlt : r < p.MAX_ROWS)
    (hsubV : List.Sublist (V (colOf p r g)) (colRows p (colOf p r g)))
    (hrV : r ∈ V (colOf p r g))
    (hrDone : r ∉ Done)
    (u : DLX)
    (hrep : colRepr u (NodeId.header (colOf p r g)) (colNode p (colOf p r g))
      ((V (colOf p r g)).filter fun q => decide (q ∉ Done))) :
    colRepr (unlinkV u (NodeId.node r g)) (NodeId.header (colOf p r g))
      (colNode p (colOf p r g))
      ((V (colOf p r g)).filter fun q => decide (q ∉ Done ++ [r])) ∧
    ∀ z : NodeId,
      (∀ q ∈ colRows p (colOf p r g), z ≠ colNode p (colOf p r g) q) →
      z ≠ NodeId.header (colOf p r g) →
      (unlinkV u (NodeId.node r g)).top z = u.top z ∧
      (unlinkV u (NodeId.node r g)).bottom z = u.bottom z := by
  have hW : r ∈ (V (colOf p r g)).filter fun q => decide (q ∉ Done) :=
    List.mem_filter.mpr ⟨hrV, by simpa using hrDone⟩
  obtain ⟨A, B, hAB⟩ := List.append_of_mem hW
  have hndW : ((V (colOf p r g)).filter fun q => decide (q ∉ Done)).Nodup :=
    ((colRows_nodup p _).sublist hsubV).filter _
  have hWsub : ∀ q ∈ (V (colOf p r g)).filter fun q => decide (q ∉ Done),
      q ∈ colRows p (colOf p r g) :=
    fun q hq => hsubV.subset (List.mem_filter.mp hq).1
  have hcn : colNode p (colOf p r g) r = NodeId.node r g := by
    rw [colNode, famOf_eq v r hrlt g]
  have hndsplit : (A ++ r :: B).Nodup := hAB ▸ hndW
  have hndmap : ((A ++ r :: B).map (colNode p (colOf p r g))).Nodup :=
    hndsplit.map (colNode_injective p _)
  rw [hAB] at hrep
  obtain ⟨hrep', hpt, hpb⟩ := colRepr_unlink u
    (NodeId.header (colOf p r g)) (colNode p (colOf p r g)) A B r hrep hndmap
  rw [hcn] at hrep' hpt hpb
  constructor
  · have hlist : ((V (colOf p r g)).filter fun q =>
        decide (q ∉ Done ++ [r])) = A ++ B := by
      rw [← filter_not_mem_append (V (colOf p r g)) Done r, hAB,
        nodup_split_filter A B r hndsplit]
    rw [hlist]
    exact hrep'
  · intro z hz1 hz2
    have hBsub : ∀ q ∈ B, q ∈ colRows p (colOf p r g) := fun q hq =>
      hWsub q (hAB ▸ List.mem_append.mpr (Or.inr (List.mem_cons_of_mem r hq)))
    have hAsub : ∀ q ∈ A, q ∈ colRows p (colOf p r g) := fun q hq =>
      hWsub q (hAB ▸ List.mem_append.mpr (Or.inl hq))
    apply unlinkV_agree
    · rw [hpb]
      have hmem := head_getD_mem (B.map (colNode p (colOf p r g)))
        (NodeId.header (colOf p r g))
      rcases List.mem_cons.mp hmem with h1 | h2
      · rw [h1]
        exact hz2
      · obtain ⟨q, hq, hq2⟩ := List.mem_map.mp h2
        rw [← hq2]
        exact hz1 q (hBsub q hq)
    · rw [hpt]
      have hmem := getLast_getD_mem (A.map (colNode p (colOf p r g)))
        (NodeId.header (colOf p r g))
      rcases List.mem_cons.mp hmem with h1 | h2
      · rw [h1]
        exact hz2
      · obtain ⟨q, hq, hq2⟩ := List.mem_map.mp h2
        rw [← hq2]
        exact hz1 q (hAsub q hq)

/-- One iteration of `cover`'s outer loop (lines 366-374): unlinking the
three partner nodes of the next live row `r` of column `c` advances the
mid-loop invariant from `Done` to `Done ++ [r]`. -/
theorem coverMid_step {p : Params} (v : ValidP p) {s : DLX} {H : List Nat}
    {V : Nat → List Nat} (inv : Inv p s H V) {c : Nat} (hcH : c ∈ H)
    {u : DLX} {Done R' : List Nat} {r : Nat}
    (mid : CoverMid p s H V c u Done (r :: R')) :
    CoverMid p s H V c (unlinkSeq u (partnersR r (famOf p r c)))
      (Done ++ [r]) R' := by
  obtain ⟨hsplit, hform, agH0, agN0, mrep⟩ := mid
  have hrVc : r ∈ V c := by
    rw [hsplit]
    exact List.mem_append.mpr (Or.inr (List.mem_cons_self r R'))
  have hrCR : r ∈ colRows p c := (inv.vsub c).subset hrVc
  have hrlt : r < p.MAX_ROWS := colRows_lt p c r hrCR
  have hcEq : colOf p r (famOf p r c) = c :=
    famOf_colOf p r c ((mem_colRows p c r).mp hrCR).2
  have hVcnd : (V c).Nodup := (colRows_nodup p c).sublist (inv.vsub c)
  have hrDone : r ∉ Done := nodup_middle_not_left Done R' r
    (by rw [← hsplit]; exact hVcnd)
  have hdist : ∀ g g' : Fin 4, g ≠ g' → colOf p r g ≠ colOf p r g' :=
    fun g g' hg he => hg (colOf_f_inj v r hrlt g g' he)
  have hdc : ∀ g : Fin 4, g ≠ famOf p r c → colOf p r g ≠ c := by
    intro g hg he
    exact hg (colOf_f_inj v r hrlt g (famOf p r c) (he.trans hcEq.symm))
  have hlive : ∀ g : Fin 4, colOf p r g ∈ H ∧ r ∈ V (colOf p r g) :=
    fun g => inv.live c hcH r hrVc g
  have hff := fin4_facts (famOf p r c)
  have hfd := fin4_distinct (famOf p r c)
  have hfsub : ∀ (d : Nat) (D : List Nat) (q : Nat),
      q ∈ (V d).filter (fun q => decide (q ∉ D)) → q ∈ colRows p d :=
    fun d D q hq => (inv.vsub d).subset (List.mem_filter.mp hq).1
  -- step 1: unlink node r (fc+1) from column d1 = colOf p r (fc+1)
  obtain ⟨rep1, Ag1⟩ := partner_step v V Done r (famOf p r c + 1) hrlt
    (inv.vsub _) (hlive _).2 hrDone u
    (mrep _ (hlive (famOf p r c + 1)).1 (hdc _ hff.1))
  -- step 2: the base representation of d2 survives step 1, then unlink
  have rep2in := colRepr_transfer_col (hdist _ _ (Ne.symm hfd.1))
    (hfsub _ _) (mrep _ (hlive (famOf p r c + 2)).1 (hdc _ hff.2.1)) Ag1
  obtain ⟨rep2, Ag2⟩ := partner_step v V Done r (famOf p r c + 2) hrlt
    (inv.vsub _) (hlive _).2 hrDone _ rep2in
  -- step 3
  have rep3in1 := colRepr_transfer_col (hdist _ _ (Ne.symm hfd.2.1))
    (hfsub _ _) (mrep _ (hlive (famOf p r c + 3)).1 (hdc _ hff.2.2.1)) Ag1
  have rep3in2 := colRepr_transfer_col (hdist _ _ (Ne.symm hfd.2.2))
    (hfsub _ _) rep3in1 Ag2
  obtain ⟨rep3, Ag3⟩ := partner_step v V Done r (famOf p r c + 3) hrlt
    (inv.vsub _) (hlive _).2 hrDone _ rep3in2
  -- column c is untouched by all three unlinks
  have A1 := agree_on_col c (Ne.symm (hdc _ hff.1)) Ag1
  have A2 := agree_on_col c (Ne.symm (hdc _ hff.2.1)) Ag2
  have A3 := agree_on_col c (Ne.symm (hdc _ hff.2.2.1)) Ag3
  have hP : unlinkSeq u (partnersR r (famOf p r c)) =
      unlinkV (unlinkV (unlinkV u (NodeId.node r (famOf p r c + 1)))
        (NodeId.node r (famOf p r c + 2)))
        (NodeId.node r (famOf p r c + 3)) := rfl
  refine ⟨?_, ?_, ?_, ?_, ?_⟩
  · rw [hsplit, List.append_assoc]
    rfl
  · have hcs : coverSeq p c (Done ++ [r]) =
        coverSeq p c Done ++ partnersR r (famOf p r c) := by
      simp [coverSeq, List.flatMap_append]
    have hcongr := unlinkSeq_tb_congr (partnersR r (famOf p r c)) u
      (unlinkSeq s (coverSeq p c Done)) hform.1 hform.2
    rw [hcs, unlinkSeq_append]
    exact ⟨hcongr.1, hcongr.2⟩
  · rw [hP]
    exact ⟨(A3.1.1.trans (A2.1.1.trans A1.1.1)).trans agH0.1,
      (A3.1.2.trans (A2.1.2.trans A1.1.2)).trans agH0.2⟩
  · rw [hP]
    intro rr hrr
    exact ⟨((A3.2 rr hrr).1.trans ((A2.2 rr hrr).1.trans
        (A1.2 rr hrr).1)).trans (agN0 rr hrr).1,
      ((A3.2 rr hrr).2.trans ((A2.2 rr hrr).2.trans
        (A1.2 rr hrr).2)).trans (agN0 rr hrr).2⟩
  · rw [hP]
    intro d hdH hdnec
    by_cases hd1 : d = colOf p r (famOf p r c + 1)
    · subst hd1
      exact colRepr_transfer_col (hdist _ _ hfd.2.1) (hfsub _ _)
        (colRepr_transfer_col (hdist _ _ hfd.1) (hfsub _ _) rep1 Ag2) Ag3
    by_cases hd2 : d = colOf p r (famOf p r c + 2)
    · subst hd2
      exact colRepr_transfer_col (hdist _ _ hfd.2.2) (hfsub _ _) rep2 Ag3
    by_cases hd3 : d = colOf p r (famOf p r c + 3)
    · subst hd3
      exact rep3
    -- a column not meeting row r: its live set does not contain r
    have hrnot : r ∉ V d := by
      intro hrd
      have hrCRd : r ∈ colRows p d := (inv.vsub d).subset hrd
      have hdEq : colOf p r (famOf p r d) = d :=
        famOf_colOf p r d ((mem_colRows p d r).mp hrCRd).2
      rcases fin4_surj (famOf p r d) (famOf p r c) with h | h | h | h
      · exact hdnec (by rw [← hdEq, h]; exact hcEq)
      · exact hd1 (by rw [← hdEq, h])
      · exact hd2 (by rw [← hdEq, h])
      · exact hd3 (by rw [← hdEq, h])
    have hfe : ((V d).filter fun q => decide (q ∉ Done ++ [r])) =
        (V d).filter fun q => decide (q ∉ Done) := by
      apply List.filter_congr
      intro a ha
      have hane : a ≠ r := fun he => hrnot (he ▸ ha)
      apply decide_eq_decide.mpr
      simp [List.mem_append, hane]
    rw [hfe]
    exact colRepr_transfer_col hd3 (hfsub _ _)
      (colRepr_transfer_col hd2 (hfsub _ _)
        (colRepr_transfer_col hd1 (hfsub _ _)
          (mrep d hdH hdnec) Ag1) Ag2) Ag3

/-- `cover`'s outer loop (lines 368-375), run from a mid-loop state with the
remaining rows `R` ahead of the cursor, performs exactly the unlink sequence
of `R` and lands in the completed mid-loop invariant. -/
theorem coverColLoop_eq {p : Params} (v : ValidP p) {s : DLX} {H : List Nat}
    {V : Nat → List Nat} (inv : Inv p s H V) {c : Nat} (hcH : c ∈ H) :
    ∀ (R Done : List Nat) (u : DLX) (cur : NodeId) (fuel : Nat),
      CoverMid p s H V c u Done R →
      (∀ (r' : Nat) (f : Fin 4),
        u.right (NodeId.node r' f) = NodeId.node r' (f + 1)) →
      follows s.bottom (NodeId.header c) cur (R.map (colNode p c)) →
      R.length + 3 < fuel →
      coverColLoop u (NodeId.header c) cur fuel =
        unlinkSeq u (coverSeq p c R) ∧
      CoverMid p s H V c (coverColLoop u (NodeId.header c) cur fuel)
        (Done ++ R) [] := by
  intro R
  induction R with
  | nil =>
    intro Done u cur fuel mid hrowR hfol hfuel
    cases fuel with
    | zero => omega
    | succ f =>
      have hq : coverColLoop u (NodeId.header c) cur (f + 1) = u := by
        show (if cur = NodeId.header c then u else _) = u
        rw [if_pos (show cur = NodeId.header c from hfol)]
      rw [hq]
      refine ⟨rfl, ?_⟩
      rw [List.append_nil]
      exact mid
  | cons r R' ih =>
    intro Done u cur fuel mid hrowR hfol hfuel
    cases fuel with
    | zero => omega
    | succ f =>
      have hcur : cur = colNode p c r := hfol.1
      subst hcur
      have hrVc : r ∈ V c := by
        rw [mid.hsplit]
        exact List.mem_append.mpr (Or.inr (List.mem_cons_self r R'))
      have hrCR : r ∈ colRows p c := (inv.vsub c).subset hrVc
      have hne : colNode p c r ≠ NodeId.header c := colNode_ne_header p c r c
      have hpf : follows u.right (colNode p c r)
          (u.right (colNode p c r)) (partnersR r (famOf p r c)) :=
        partners_follows u hrowR r (famOf p r c)
      have hinner : coverRowLoop u (colNode p c r)
          (u.right (colNode p c r)) f =
          unlinkSeq u (partnersR r (famOf p r c)) :=
        coverRowLoop_eq (colNode p c r) (partnersR r (famOf p r c)) u
          (u.right (colNode p c r)) f hpf
          (by simp only [partnersR, List.length_cons, List.length_nil]
              at hfuel ⊢; omega)
      have hstep : coverColLoop u (NodeId.header c) (colNode p c r) (f + 1) =
          coverColLoop (unlinkSeq u (partnersR r (famOf p r c)))
            (NodeId.header c)
            ((unlinkSeq u (partnersR r (famOf p r c))).bottom (colNode p c r))
            f := by
        show (if colNode p c r = NodeId.header c then u else _) = _
        rw [if_neg hne, hinner]
      have mid' := coverMid_step v inv hcH mid
      have hnext : (unlinkSeq u (partnersR r (famOf p r c))).bottom
          (colNode p c r) = s.bottom (colNode p c r) := (mid'.agN r hrCR).2
      have hrowR' : ∀ (r' : Nat) (f' : Fin 4),
          (unlinkSeq u (partnersR r (famOf p r c))).right (NodeId.node r' f') =
          NodeId.node r' (f' + 1) := by
        intro r' f'
        rw [unlinkSeq_right]
        exact hrowR r' f'
      have hfol' : follows s.bottom (NodeId.header c)
          ((unlinkSeq u (partnersR r (famOf p r c))).bottom (colNode p c r))
          (R'.map (colNode p c)) := by
        rw [hnext]
        exact hfol.2.2
      have hrec := ih (Done ++ [r]) (unlinkSeq u (partnersR r (famOf p r c)))
        ((unlinkSeq u (partnersR r (famOf p r c))).bottom (colNode p c r)) f
        mid' hrowR' hfol' (by simp at hfuel ⊢; omega)
      have hcs : coverSeq p c (r :: R') =
          partnersR r (famOf p r c) ++ coverSeq p c R' := by
        simp [coverSeq]
      constructor
      · rw [hstep, hrec.1, hcs, unlinkSeq_append]
      · rw [hstep]
        have := hrec.2
        rw [List.append_assoc] at this
        exact this

/-- Relinking in exactly reverse order undoes a whole sequence of vertical
unlinks (the order discipline the spec describes for `uncover`). -/
theorem seqRoundtrip (s : DLX) (X : List NodeId) (hok : ∀ x ∈ X, okV s x)
    (hnd : X.Nodup) : relinkSeq (unlinkSeq s X) X.reverse = s := by
  induction X generalizing s with
  | nil => rfl
  | cons x xs ih =>
    simp only [unlinkSeq, List.reverse_cons]
    rw [relinkSeq_append]
    obtain ⟨hxn, hnd'⟩ := List.nodup_cons.mp hnd
    have h1 : relinkSeq (unlinkSeq (unlinkV s x) xs) xs.reverse = unlinkV s x := by
      apply ih
      · intro y hy
        exact okV_unlinkV s x y (hok x (List.mem_cons_self x xs))
          (hok y (List.mem_cons_of_mem x hy)) (fun he => hxn (he ▸ hy))
      · exact hnd'
    rw [h1]
    show relinkV (unlinkV s x) x = s
    exact roundtripV s x (hok x (List.mem_cons_self x xs))

/-- Along any chain, the successor of a member is the stop node or another
position of the chain. -/
theorem follows_mem_next (nxt : NodeId → NodeId) (stop cur : NodeId)
    (L : List NodeId) (h : follows nxt stop cur L) (x : NodeId) (hx : x ∈ L) :
    nxt x ∈ stop :: L := by
  obtain ⟨A, B, hAB⟩ := List.append_of_mem hx
  rw [hAB] at h
  rw [follows_next_at nxt stop cur A B x h]
  have hm := head_getD_mem B stop
  rcases List.mem_cons.mp hm with h1 | h1
  · rw [h1]
    exact List.mem_cons_self _ _
  · apply List.mem_cons_of_mem
    rw [hAB]
    exact List.mem_append.mpr (Or.inr (List.mem_cons_of_mem _ h1))

/-- In an `Inv` state the horizontal successor of a live header is the root
or another header, never a matrix node. -/
theorem right_header_no_node {p : Params} {s : DLX} {H : List Nat}
    {V : Nat → List Nat} (inv : Inv p s H V) {c : Nat} (hcH : c ∈ H)
    (r : Nat) (f : Fin 4) :
    s.right (NodeId.header c) ≠ NodeId.node r f := by
  have hmem : NodeId.header c ∈ H.map NodeId.header :=
    List.mem_map_of_mem _ hcH
  have h2 := follows_mem_next s.right NodeId.root (s.right NodeId.root)
    (H.map NodeId.header) inv.hchainR _ hmem
  intro he
  rw [he] at h2
  rcases List.mem_cons.mp h2 with h3 | h3
  · exact NodeId.noConfusion h3
  · obtain ⟨d, _, h4⟩ := List.mem_map.mp h3
    exact NodeId.noConfusion h4

/-- In an `Inv` state the horizontal predecessor of a live header is the
root or another header, never a matrix node. -/
theorem left_header_no_node {p : Params} {s : DLX} {H : List Nat}
    {V : Nat → List Nat} (inv : Inv p s H V) {c : Nat} (hcH : c ∈ H)
    (r : Nat) (f : Fin 4) :
    s.left (NodeId.header c) ≠ NodeId.node r f := by
  have hmem : NodeId.header c ∈ (H.map NodeId.header).reverse :=
    List.mem_reverse.mpr (List.mem_map_of_mem _ hcH)
  have h2 := follows_mem_next s.left NodeId.root (s.left NodeId.root)
    ((H.map NodeId.header).reverse) inv.hchainL _ hmem
  intro he
  rw [he] at h2
  rcases List.mem_cons.mp h2 with h3 | h3
  · exact NodeId.noConfusion h3
  · obtain ⟨d, _, h4⟩ := List.mem_map.mp (List.mem_reverse.mp h3)
    exact NodeId.noConfusion h4

/-- Unlinking a live header horizontally leaves every matrix row's `right_`
cycle intact. -/
theorem unlinkH_rowR {p : Params} {s : DLX} {H : List Nat}
    {V : Nat → List Nat} (inv : Inv p s H V) {c : Nat} (hcH : c ∈ H)
    (r' : Nat) (f' : Fin 4) :
    (unlinkH s (NodeId.header c)).right (NodeId.node r' f') =
      NodeId.node r' (f' + 1) := by
  rw [unlinkH_right_app,
    if_neg fun he => left_header_no_node inv hcH r' f' he.symm]
  exact inv.rowR r' f'

/-- Unlinking a live header horizontally leaves every matrix row's `left_`
cycle intact. -/
theorem unlinkH_rowL {p : Params} {s : DLX} {H : List Nat}
    {V : Nat → List Nat} (inv : Inv p s H V) {c : Nat} (hcH : c ∈ H)
    (r' : Nat) (f' : Fin 4) :
    (unlinkH s (NodeId.header c)).left (NodeId.node r' f') =
      NodeId.node r' (f' - 1) := by
  rw [unlinkH_left_app,
    if_neg fun he => right_header_no_node inv hcH r' f' he.symm]
  exact inv.rowL r' f'

theorem node_ne_of_fin (r : Nat) (f g : Fin 4) (h : f ≠ g) :
    NodeId.node r f ≠ NodeId.node r g := by
  intro he
  injection he with h1 h2
  exact h h2

theorem partnersR_nodup (r : Nat) (f : Fin 4) : (partnersR r f).Nodup := by
  have h := fin4_distinct f
  show ((NodeId.node r (f + 1)) :: (NodeId.node r (f + 2)) ::
    [NodeId.node r (f + 3)]).Nodup
  rw [List.nodup_cons, List.nodup_cons]
  refine ⟨?_, ?_, List.nodup_singleton _⟩
  · intro hmem
    rcases List.mem_cons.mp hmem with h1 | h1
    · exact node_ne_of_fin r _ _ h.1 h1
    · rcases List.mem_cons.mp h1 with h2 | h2
      · exact node_ne_of_fin r _ _ h.2.1 h2
      · cases h2
  · intro hmem
    rcases List.mem_cons.mp hmem with h1 | h1
    · exact node_ne_of_fin r _ _ h.2.2 h1
    · cases h1

/-- A represented column cycle gives vertical pointer symmetry at its header
and at each of its member nodes. -/
theorem colRepr_okV {u : DLX} {h : NodeId} {cn : Nat → NodeId}
    {L : List Nat} (hrep : colRepr u h cn L) :
    okV u h ∧ ∀ r ∈ L, okV u (cn r) := by
  have hb := hrep.1
  have ht : follows u.top h (u.top h) ((L.map cn).reverse) := by
    rw [← List.map_reverse]
    exact hrep.2
  have hco := cycle_ok u.bottom u.top h (L.map cn) hb ht
  constructor
  · exact hco.1
  · intro r hr
    exact hco.2 (cn r) (List.mem_map_of_mem _ hr)

/-- Before the outer loop of `cover` starts, the mid-loop invariant holds
with no row processed: only the header's horizontal unlink has happened and
vertical pointers are untouched. -/
theorem coverMid_zero {p : Params} {s : DLX} {H : List Nat}
    {V : Nat → List Nat} (inv : Inv p s H V) (c : Nat) :
    CoverMid p s H V c (unlinkH s (NodeId.header c)) [] (V c) := by
  refine ⟨rfl, ⟨rfl, rfl⟩, ⟨rfl, rfl⟩, fun rr _ => ⟨rfl, rfl⟩, ?_⟩
  intro d hdH _
  have hfe : ((V d).filter fun q => decide (q ∉ ([] : List Nat))) = V d :=
    List.filter_eq_self.mpr fun a _ => by simp
  rw [hfe]
  exact inv.vrep d hdH

/-- `ExactCoverSolver::cover` on a live column header performs exactly the
header unlink followed by the unlink sequence of all its live rows' partner
nodes, ending in the completed mid-loop state. -/
theorem cover_eq {p : Params} (v : ValidP p) {s : DLX} {H : List Nat}
    {V : Nat → List Nat} (inv : Inv p s H V) {c : Nat} (hcH : c ∈ H)
    (fuel : Nat) (hfuel : (V c).length + 3 < fuel) :
    cover p s (NodeId.header c) fuel =
      unlinkSeq (unlinkH s (NodeId.header c)) (coverSeq p c (V c)) ∧
    CoverMid p s H V c (cover p s (NodeId.header c) fuel) (V c) [] := by
  have h0 := coverColLoop_eq v inv hcH (V c) []
    (unlinkH s (NodeId.header c))
    ((unlinkH s (NodeId.header c)).bottom (NodeId.header c)) fuel
    (coverMid_zero inv c)
    (fun r' f' => unlinkH_rowR inv hcH r' f')
    (inv.vrep c hcH).1 hfuel
  exact ⟨h0.1, h0.2⟩

/-- The mid-loop invariant of `cover` holds at every split of the column's
live rows, with the state expressed as the corresponding unlink prefix. -/
theorem coverMid_split {p : Params} (v : ValidP p) {s : DLX} {H : List Nat}
    {V : Nat → List Nat} (inv : Inv p s H V) {c : Nat} (hcH : c ∈ H) :
    ∀ (D R : List Nat), V c = D ++ R →
      CoverMid p s H V c
        (unlinkSeq (unlinkH s (NodeId.header c)) (coverSeq p c D)) D R := by
  intro D
  induction D using List.reverseRecOn with
  | nil =>
    intro R hsplit
    have hR : R = V c := by simpa using hsplit.symm
    subst hR
    exact coverMid_zero inv c
  | append_singleton D r ih =>
    intro R hsplit
    have hsplit' : V c = D ++ (r :: R) := by
      rw [hsplit, List.append_assoc]
      rfl
    have step := coverMid_step v inv hcH (ih (r :: R) hsplit')
    have heq : unlinkSeq
        (unlinkSeq (unlinkH s (NodeId.header c)) (coverSeq p c D))
        (partnersR r (famOf p r c)) =
        unlinkSeq (unlinkH s (NodeId.header c)) (coverSeq p c (D ++ [r])) := by
      rw [← unlinkSeq_append]
      congr 1
      simp [coverSeq, List.flatMap_append]
    rw [heq] at step
    exact step

/-- `uncover`'s outer loop (lines 384-391), started from the state in which
the rows `Done` of column `c` have been unlinked, relinks them all in
reverse order and returns exactly to the pre-loop state. -/
theorem uncoverColLoop_eq_master {p : Params} (v : ValidP p) {s : DLX}
    {H : List Nat} {V : Nat → List Nat} (inv : Inv p s H V) {c : Nat}
    (hcH : c ∈ H) :
    ∀ (Done R : List Nat), V c = Done ++ R →
    ∀ (cur : NodeId) (fuel : Nat),
      follows s.top (NodeId.header c) cur
        (Done.reverse.map (colNode p c)) →
      Done.length + 3 < fuel →
      uncoverColLoop
        (unlinkSeq (unlinkH s (NodeId.header c)) (coverSeq p c Done))
        (NodeId.header c) cur fuel =
      unlinkH s (NodeId.header c) := by
  intro Done
  induction Done using List.reverseRecOn with
  | nil =>
    intro R hsplit cur fuel hfol hfuel
    cases fuel with
    | zero => omega
    | succ f =>
      have hc : cur = NodeId.header c := hfol
      show (if cur = NodeId.header c then _ else _) = _
      rw [if_pos hc]
      rfl
  | append_singleton D r ih =>
    intro R hsplit cur fuel hfol hfuel
    cases fuel with
    | zero => exact absurd hfuel (Nat.not_lt_zero _)
    | succ f =>
      have hsplit' : V c = D ++ (r :: R) := by
        rw [hsplit, List.append_assoc]
        rfl
      have hrVc : r ∈ V c := by
        rw [hsplit']
        exact List.mem_append.mpr (Or.inr (List.mem_cons_self r R))
      have hrCR : r ∈ colRows p c := (inv.vsub c).subset hrVc
      have hrlt : r < p.MAX_ROWS := colRows_lt p c r hrCR
      have hcEq : colOf p r (famOf p r c) = c :=
        famOf_colOf p r c ((mem_colRows p c r).mp hrCR).2
      have hVcnd : (V c).Nodup := (colRows_nodup p c).sublist (inv.vsub c)
      have hrD : r ∉ D := nodup_middle_not_left D R r
        (by rw [← hsplit']; exact hVcnd)
      have mid := coverMid_split v inv hcH D (r :: R) hsplit'
      have hrev : ((D ++ [r]).reverse.map (colNode p c)) =
          colNode p c r :: D.reverse.map (colNode p c) := by simp
      rw [hrev] at hfol
      have hcur : cur = colNode p c r := hfol.1
      subst hcur
      have hne : colNode p c r ≠ NodeId.header c := colNode_ne_header p c r c
      have hwt : unlinkSeq (unlinkH s (NodeId.header c))
          (coverSeq p c (D ++ [r])) =
          unlinkSeq (unlinkSeq (unlinkH s (NodeId.header c))
            (coverSeq p c D)) (partnersR r (famOf p r c)) := by
        rw [← unlinkSeq_append]
        congr 1
        simp [coverSeq, List.flatMap_append]
      have hrowL : ∀ (r' : Nat) (f' : Fin 4),
          (unlinkSeq (unlinkH s (NodeId.header c))
            (coverSeq p c (D ++ [r]))).left (NodeId.node r' f') =
          NodeId.node r' (f' - 1) := by
        intro r' f'
        rw [unlinkSeq_left]
        exact unlinkH_rowL inv hcH r' f'
      have hokg : ∀ g : Fin 4, g ≠ famOf p r c →
          okV (unlinkSeq (unlinkH s (NodeId.header c)) (coverSeq p c D))
            (NodeId.node r g) := by
        intro g hg
        have hlive := inv.live c hcH r hrVc g
        have hdgne : colOf p r g ≠ c := fun he =>
          hg (colOf_f_inj v r hrlt g (famOf p r c) (he.trans hcEq.symm))
        have rep := mid.mrep (colOf p r g) hlive.1 hdgne
        have hmem : r ∈ (V (colOf p r g)).filter fun q => decide (q ∉ D) :=
          List.mem_filter.mpr ⟨hlive.2, by simpa using hrD⟩
        have hok := (colRepr_okV rep).2 r hmem
        have hcn : colNode p (colOf p r g) r = NodeId.node r g := by
          rw [colNode, famOf_eq v r hrlt g]
        rw [hcn] at hok
        exact hok
      have hff := fin4_facts (famOf p r c)
      have hok : ∀ x ∈ partnersR r (famOf p r c),
          okV (unlinkSeq (unlinkH s (NodeId.header c)) (coverSeq p c D)) x := by
        intro x hx
        rcases List.mem_cons.mp hx with h1 | h1
        · rw [h1]; exact hokg _ hff.1
        rcases List.mem_cons.mp h1 with h2 | h2
        · rw [h2]; exact hokg _ hff.2.1
        rcases List.mem_cons.mp h2 with h3 | h3
        · rw [h3]; exact hokg _ hff.2.2.1
        · cases h3
      have hpf := partnersL_follows
        (unlinkSeq (unlinkH s (NodeId.header c)) (coverSeq p c (D ++ [r])))
        hrowL r (famOf p r c)
      have hinner : uncoverRowLoop
          (unlinkSeq (unlinkH s (NodeId.header c)) (coverSeq p c (D ++ [r])))
          (colNode p c r)
          ((unlinkSeq (unlinkH s (NodeId.header c))
            (coverSeq p c (D ++ [r]))).left (colNode p c r)) f =
          unlinkSeq (unlinkH s (NodeId.header c)) (coverSeq p c D) := by
        rw [uncoverRowLoop_eq (colNode p c r)
          ((partnersR r (famOf p r c)).reverse)
          (unlinkSeq (unlinkH s (NodeId.header c)) (coverSeq p c (D ++ [r])))
          ((unlinkSeq (unlinkH s (NodeId.header c))
            (coverSeq p c (D ++ [r]))).left (colNode p c r)) f hpf
          (by simp only [partnersR, List.reverse_cons, List.reverse_nil,
                List.length_append, List.length_cons, List.length_nil,
                List.nil_append]
              simp only [List.length_append, List.length_cons] at hfuel
              omega)]
        rw [hwt]
        exact seqRoundtrip
          (unlinkSeq (unlinkH s (NodeId.header c)) (coverSeq p c D))
          (partnersR r (famOf p r c)) hok (partnersR_nodup r (famOf p r c))
      have hnext : (unlinkSeq (unlinkH s (NodeId.header c))
          (coverSeq p c D)).top (colNode p c r) =
          s.top (colNode p c r) := (mid.agN r hrCR).1
      show (if colNode p c r = NodeId.header c then
          unlinkSeq (unlinkH s (NodeId.header c)) (coverSeq p c (D ++ [r]))
        else
          uncoverColLoop
            (uncoverRowLoop (unlinkSeq (unlinkH s (NodeId.header c))
                (coverSeq p c (D ++ [r]))) (colNode p c r)
              ((unlinkSeq (unlinkH s (NodeId.header c))
                (coverSeq p c (D ++ [r]))).left (colNode p c r)) f)
            (NodeId.header c)
            ((uncoverRowLoop (unlinkSeq (unlinkH s (NodeId.header c))
                (coverSeq p c (D ++ [r]))) (colNode p c r)
              ((unlinkSeq (unlinkH s (NodeId.header c))
                (coverSeq p c (D ++ [r]))).left (colNode p c r)) f).top
              (colNode p c r))
            f) = unlinkH s (NodeId.header c)
      rw [if_neg hne, hinner, hnext]
      exact ih (r :: R) hsplit' (s.top (colNode p c r)) f hfol.2.2
        (by simp only [List.length_append, List.length_cons,
              List.length_nil] at hfuel
            omega)

/-- Claim C3's engine fact: `uncover(c)` right after `cover(c)` restores the
matrix pointerwise, for any live column of any state satisfying the
representation invariant. -/
theorem cover_uncover {p : Params} (v : ValidP p) {s : DLX} {H : List Nat}
    {V : Nat → List Nat} (inv : Inv p s H V) {c : Nat} (hcH : c ∈ H)
    (fuel fuel' : Nat) (hfuel : (V c).length + 3 < fuel)
    (hfuel' : (V c).length + 3 < fuel') :
    uncover p (cover p s (NodeId.header c) fuel) (NodeId.header c) fuel' =
      s := by
  obtain ⟨hcov, midF⟩ := cover_eq v inv hcH fuel hfuel
  have hstart : (cover p s (NodeId.header c) fuel).top (NodeId.header c) =
      s.top (NodeId.header c) := midF.agH.1
  have hloop := uncoverColLoop_eq_master v inv hcH (V c) []
    (by rw [List.append_nil]) (s.top (NodeId.header c)) fuel'
    (inv.vrep c hcH).2 hfuel'
  show relinkH (uncoverColLoop (cover p s (NodeId.header c) fuel)
    (NodeId.header c)
    ((cover p s (NodeId.header c) fuel).top (NodeId.header c)) fuel')
    (NodeId.header c) = s
  rw [hstart, hcov, hloop]
  apply roundtripH
  have hco := cycle_ok s.right s.left NodeId.root (H.map NodeId.header)
    inv.hchainR inv.hchainL
  exact hco.2 _ (List.mem_map_of_mem _ hcH)

/-- `cover` preserves the representation invariant: covering live column `c`
removes `c` from the header ring and removes `c`'s rows from every other
live column's cycle. -/
theorem cover_Inv {p : Params} (v : ValidP p) {s : DLX} {H : List Nat}
    {V : Nat → List Nat} (inv : Inv p s H V) {c : Nat} (hcH : c ∈ H)
    (fuel : Nat) (hfuel : (V c).length + 3 < fuel) :
    Inv p (cover p s (NodeId.header c) fuel) (H.erase c)
      (fun d => (V d).filter fun r => decide (r ∉ V c)) := by
  obtain ⟨hcov, midF⟩ := cover_eq v inv hcH fuel hfuel
  have hR : (cover p s (NodeId.header c) fuel).right =
      (unlinkH s (NodeId.header c)).right :=
    coverColLoop_right (NodeId.header c)
      ((unlinkH s (NodeId.header c)).bottom (NodeId.header c)) fuel
      (unlinkH s (NodeId.header c))
  have hL : (cover p s (NodeId.header c) fuel).left =
      (unlinkH s (NodeId.header c)).left :=
    coverColLoop_left (NodeId.header c)
      ((unlinkH s (NodeId.header c)).bottom (NodeId.header c)) fuel
      (unlinkH s (NodeId.header c))
  obtain ⟨H1, H2, hHsplit⟩ := List.append_of_mem hcH
  have hcH1 : c ∉ H1 := nodup_middle_not_left H1 H2 c (hHsplit ▸ inv.hnd)
  have herase : H.erase c = H1 ++ H2 := by
    rw [hHsplit, List.erase_append_right _ hcH1, List.erase_cons_head]
  have hmapsplit : H.map NodeId.header =
      H1.map NodeId.header ++ NodeId.header c :: H2.map NodeId.header := by
    rw [hHsplit, List.map_append, List.map_cons]
  have hmaprev : (H.map NodeId.header).reverse =
      (H2.map NodeId.header).reverse ++ NodeId.header c ::
        (H1.map NodeId.header).reverse := by
    rw [hmapsplit, List.reverse_append, List.reverse_cons, List.append_assoc,
      List.singleton_append]
  have hndmap : (H.map NodeId.header).Nodup :=
    inv.hnd.map fun a b hab => by injection hab
  have hsurg := hchain_unlink s (H1.map NodeId.header) (H2.map NodeId.header)
    (NodeId.header c) (by rw [← hmapsplit]; exact inv.hchainR)
    (by rw [← hmaprev]; exact inv.hchainL)
    (by rw [← hmapsplit]; exact hndmap)
  refine ⟨?_, inv.hnd.erase c, ?_, ?_, ?_, ?_, ?_, ?_, ?_⟩
  · intro d hd
    exact inv.hcols d (List.mem_of_mem_erase hd)
  · intro d
    exact List.Sublist.trans (List.filter_sublist _) (inv.vsub d)
  · rw [hR, herase, List.map_append]
    exact hsurg.1
  · rw [hL, herase, List.map_append, List.reverse_append]
    exact hsurg.2.1
  · intro d hd
    have hdH := List.mem_of_mem_erase hd
    have hdc : d ≠ c := (List.Nodup.mem_erase_iff inv.hnd).mp hd |>.1
    exact midF.mrep d hdH hdc
  · intro d hd r hr f
    have hdH := List.mem_of_mem_erase hd
    obtain ⟨hrVd, hrVc⟩ := List.mem_filter.mp hr
    have hrVc' : r ∉ V c := by simpa using hrVc
    have hlive := inv.live d hdH r hrVd f
    have hne : colOf p r f ≠ c := by
      intro he
      exact hrVc' (he ▸ hlive.2)
    constructor
    · exact (List.Nodup.mem_erase_iff inv.hnd).mpr ⟨hne, hlive.1⟩
    · exact List.mem_filter.mpr ⟨hlive.2, by simpa using hrVc'⟩
  · intro r f
    rw [hR]
    exact unlinkH_rowR inv hcH r f
  · intro r f
    rw [hL]
    exact unlinkH_rowL inv hcH r f

/-- The fully-built matrix produced by `init` satisfies the dancing-links
representation invariant with every column and every placement row live. -/
theorem initState_Inv {p : Params} (v : ValidP p) :
    Inv p (initState p) (List.range p.MAX_COLS) (colRows p) := by
  refine ⟨?_, List.nodup_range _, fun c => List.Sublist.refl _,
    initState_hfollows p, initState_hfollowsL p, ?_, ?_, ?_, ?_⟩
  · intro c hc
    exact List.mem_range.mp hc
  · intro c _
    exact initState_colRepr p c
  · intro c _ r hr f
    have hrlt : r < p.MAX_ROWS := colRows_lt p c r hr
    exact ⟨List.mem_range.mpr (colOf_lt_MAX_COLS v r hrlt f),
      mem_colRows_self p r hrlt f⟩
  · intro r f
    rfl
  · intro r f
    rfl

theorem colRows_length_le (p : Params) (c : Nat) :
    (colRows p c).length ≤ p.MAX_ROWS := by
  have h := List.length_filter_le
    (fun r => decide (colOf p r 0 = c) || decide (colOf p r 1 = c) ||
      decide (colOf p r 2 = c) || decide (colOf p r 3 = c))
    (List.range p.MAX_ROWS)
  rw [List.length_range] at h
  exact h

/-- C3: for every column header `c` of the fully-built matrix, applying
`uncover(c)` immediately after `cover(c)` restores the matrix to a state
structurally identical to the state before the cover — every node has the
same `left_`, `right_`, `top_` and `bottom_` adjacency as before (here:
the two states are equal as pointer maps).  `fuel` only has to dominate the
loops' true trip counts, which are bounded by the matrix's `MAX_ROWS_`. -/
theorem claim_C3_cover_uncover_roundtrip (p : Params) (v : ValidP p)
    (c : Nat) (hc : c < p.MAX_COLS) (fuel fuel' : Nat)
    (hfuel : p.MAX_ROWS + 3 < fuel) (hfuel' : p.MAX_ROWS + 3 < fuel') :
    uncover p (cover p (initState p) (NodeId.header c) fuel)
      (NodeId.header c) fuel' = initState p := by
  have hlen := colRows_length_le p c
  exact cover_uncover v (initState_Inv v) (List.mem_range.mpr hc) fuel fuel'
    (by omega) (by omega)

/-- Witness for C3 at the standard 9×9 parameters, column 0. -/
theorem claim_C3_cover_uncover_roundtrip_witness :
    ValidP ⟨9, 3, 3⟩ ∧ 0 < Params.MAX_COLS ⟨9, 3, 3⟩ ∧
    Params.MAX_ROWS ⟨9, 3, 3⟩ + 3 < 1000 ∧
    uncover ⟨9, 3, 3⟩ (cover ⟨9, 3, 3⟩ (initState ⟨9, 3, 3⟩)
      (NodeId.header 0) 1000) (NodeId.header 0) 1000 =
      initState ⟨9, 3, 3⟩ := by
  have hv : ValidP ⟨9, 3, 3⟩ := ⟨by decide, by decide, by decide⟩
  exact ⟨hv, by decide, by decide,
    claim_C3_cover_uncover_roundtrip ⟨9, 3, 3⟩ hv 0 (by decide) 1000 1000
      (by decide) (by decide)⟩

/-- All four pointer symmetries hold at every allocated node of the fresh
matrix. -/
theorem initState_ok_all {p : Params} (v : ValidP p) :
    ∀ x, realNode p x → okH (initState p) x ∧ okV (initState p) x := by
  intro x hx
  cases x with
  | root => exact ⟨initState_okH_root p, initState_okV_root p⟩
  | header d => exact ⟨initState_okH_header p d hx, initState_okV_header p d⟩
  | node r f => exact ⟨initState_okH_node p r f, initState_okV_node v r hx f⟩

/-- C7, corrected.  The spec claims `node.left_->right_ == node` (and the
three symmetric identities) for every node after every cover and after every
uncover.  That is false immediately after a `cover`: the covered header `c`
keeps its own `left_`/`right_` pointers, but its neighbours now bypass it,
so `c->left_->right_ == c` fails (third conjunct).  What does hold is: the
symmetry is complete on the fresh matrix (first conjunct), and it is fully
restored once the matching `uncover` runs (second conjunct). -/
theorem claim_C7_pointer_symmetry (p : Params) (v : ValidP p)
    (c : Nat) (hc : c < p.MAX_COLS) (fuel fuel' : Nat)
    (hfuel : p.MAX_ROWS + 3 < fuel) (hfuel' : p.MAX_ROWS + 3 < fuel') :
    (∀ x, realNode p x → okH (initState p) x ∧ okV (initState p) x) ∧
    (∀ x, realNode p x →
      okH (uncover p (cover p (initState p) (NodeId.header c) fuel)
        (NodeId.header c) fuel') x ∧
      okV (uncover p (cover p (initState p) (NodeId.header c) fuel)
        (NodeId.header c) fuel') x) ∧
    ¬ okH (cover p (initState p) (NodeId.header c) fuel)
      (NodeId.header c) := by
  have hlen := colRows_length_le p c
  have hru := cover_uncover v (initState_Inv v) (List.mem_range.mpr hc)
    fuel fuel' (by omega) (by omega)
  refine ⟨initState_ok_all v, ?_, ?_⟩
  · rw [hru]
    exact initState_ok_all v
  · intro hok
    have h1 := hok.1
    have hL : (cover p (initState p) (NodeId.header c) fuel).left =
        (unlinkH (initState p) (NodeId.header c)).left :=
      coverColLoop_left (NodeId.header c)
        ((unlinkH (initState p) (NodeId.header c)).bottom (NodeId.header c))
        fuel (unlinkH (initState p) (NodeId.header c))
    have hR : (cover p (initState p) (NodeId.header c) fuel).right =
        (unlinkH (initState p) (NodeId.header c)).right :=
      coverColLoop_right (NodeId.header c)
        ((unlinkH (initState p) (NodeId.header c)).bottom (NodeId.header c))
        fuel (unlinkH (initState p) (NodeId.header c))
    rw [hL, hR, unlinkH_left_app, ite_self, unlinkH_right_app,
      if_pos rfl] at h1
    have h2 : initRight p (NodeId.header c) = NodeId.header c := h1
    simp only [initRight] at h2
    by_cases hc1 : c + 1 < p.MAX_COLS
    · rw [if_pos hc1] at h2
      injection h2 with h3
      omega
    · rw [if_neg hc1, if_pos hc] at h2
      exact NodeId.noConfusion h2

set_option maxRecDepth 1000000 in
set_option maxHeartbeats 4000000 in
/-- C2 (refuted — code bug).  The public `solve` is claimed to restore the
matrix to its pristine fully-uncovered state whenever it returns.  The clue
insertion loop, however, has two early `return` statements (lines 205-208
for an out-of-range value, lines 214-218 for a `find` miss) that do not
undo the covers already applied for earlier clues: the restore loop at
lines 242-254 is skipped.  For the 9×9 input grid with the valid clue 1 at
cell (0,0) followed by the out-of-range value 10 at cell (0,1), the call
returns (reporting an invalid puzzle), yet `root_->right_` still bypasses
the column-0 header that the first clue covered, so the matrix is not
pristine and a subsequent solve call on the same instance starts from a
corrupted matrix. -/
theorem claim_C2_restore_bug :
    (solveEC ⟨9, 3, 3⟩ (initState ⟨9, 3, 3⟩)
      (fun i j => if i = 0 ∧ j = 0 then 1 else
        if i = 0 ∧ j = 1 then 10 else 0) 1000).2 =
      some SolveReport.invalidPuzzle ∧
    ((solveEC ⟨9, 3, 3⟩ (initState ⟨9, 3, 3⟩)
      (fun i j => if i = 0 ∧ j = 0 then 1 else
        if i = 0 ∧ j = 1 then 10 else 0) 1000).1.dlx).right NodeId.root =
      NodeId.header 1 ∧
    (initState ⟨9, 3, 3⟩).right NodeId.root = NodeId.header 0 ∧
    (solveEC ⟨9, 3, 3⟩ (initState ⟨9, 3, 3⟩)
      (fun i j => if i = 0 ∧ j = 0 then 1 else
        if i = 0 ∧ j = 1 then 10 else 0) 1000).1.dlx ≠
      initState ⟨9, 3, 3⟩ := by
  have h1 : ((solveEC ⟨9, 3, 3⟩ (initState ⟨9, 3, 3⟩)
      (fun i j => if i = 0 ∧ j = 0 then 1 else
        if i = 0 ∧ j = 1 then 10 else 0) 1000).1.dlx).right NodeId.root =
      NodeId.header 1 := by decide
  have h2 : (initState ⟨9, 3, 3⟩).right NodeId.root = NodeId.header 0 := by
    decide
  refine ⟨by decide, h1, h2, ?_⟩
  intro he
  rw [he, h2] at h1
  injection h1 with h3
  exact Nat.noConfusion h3

/-- The static index maps invert `row = i * COL_OFFSET_ + j * GRID_SIZE_ + k`
(line 103) on in-range triples. -/
theorem rowIdx_decomp {p : Params} (v : ValidP p) (i j k : Nat)
    (hi : i < p.N) (hj : j < p.N) (hk : k < p.N) :
    iOf p (rowIdx p i j k) = i ∧ jOf p (rowIdx p i j k) = j ∧
    kOf p (rowIdx p i j k) = k ∧ rowIdx p i j k < p.MAX_ROWS := by
  have hN := v.n_pos
  have hsq : 0 < p.N ^ 2 := pow_pos hN 2
  have hjk : j * p.N + k < p.N ^ 2 := by
    have h1 : (j + 1) * p.N ≤ p.N * p.N :=
      Nat.mul_le_mul_right _ (by omega)
    rw [Nat.add_mul, Nat.one_mul] at h1
    rw [pow_two]
    omega
  have hrw : rowIdx p i j k = p.N ^ 2 * i + (j * p.N + k) := by
    rw [rowIdx]
    ring
  refine ⟨?_, ?_, ?_, ?_⟩
  · rw [iOf, hrw, Nat.mul_add_div hsq, Nat.div_eq_of_lt hjk, Nat.add_zero]
  · rw [jOf, hrw]
    rw [show p.N ^ 2 * i + (j * p.N + k) = p.N * (p.N * i + j) + k by ring]
    rw [Nat.mul_add_div hN, Nat.div_eq_of_lt hk, Nat.add_zero]
    rw [Nat.mul_add_mod, Nat.mod_eq_of_lt hj]
  · rw [kOf, hrw]
    rw [show p.N ^ 2 * i + (j * p.N + k) = p.N * (p.N * i + j) + k by ring]
    rw [Nat.mul_add_mod, Nat.mod_eq_of_lt hk]
  · rw [hrw, Params.MAX_ROWS, Params.COL_OFFSET]
    have h3 : p.N ^ 2 * i + p.N ^ 2 ≤ p.N ^ 2 * p.N := by
      rw [show p.N ^ 2 * i + p.N ^ 2 = p.N ^ 2 * (i + 1) by ring]
      exact Nat.mul_le_mul_left _ (by omega)
    omega

/-- The box-index formula `i / ROW_BOX_DIV_ + j / COL_BOX_DIV_ * COL_BOX_DIV_`
(line 113) takes every value below `N` on in-range cells. -/
theorem box_surj {p : Params} (v : ValidP p) (b : Nat) (hb : b < p.N) :
    ∃ i j, i < p.N ∧ j < p.N ∧ boxIdx p i j = b := by
  have hrbd := v.rbd_pos
  have hcbd : 0 < p.CBD := v.cbd_pos
  have hmul := v.mul_eq
  refine ⟨b % p.CBD * p.RBD, b / p.CBD * p.CBD, ?_, ?_, ?_⟩
  · have h1 : b % p.CBD < p.CBD := Nat.mod_lt _ hcbd
    have h2 : b % p.CBD * p.RBD ≤ (p.CBD - 1) * p.RBD :=
      Nat.mul_le_mul_right _ (by omega)
    have h3 : (p.CBD - 1) * p.RBD = p.CBD * p.RBD - p.RBD := by
      rw [Nat.sub_mul, Nat.one_mul]
    have h4 : p.CBD * p.RBD = p.N := by
      rw [Nat.mul_comm]
      exact hmul
    omega
  · have h1 : b / p.CBD < p.RBD := by
      rw [Nat.div_lt_iff_lt_mul hcbd]
      rw [← hmul] at hb
      exact hb
    have h2 : b / p.CBD * p.CBD ≤ (p.RBD - 1) * p.CBD :=
      Nat.mul_le_mul_right _ (by omega)
    have h3 : (p.RBD - 1) * p.CBD = p.RBD * p.CBD - p.CBD := by
      rw [Nat.sub_mul, Nat.one_mul]
    omega
  · rw [boxIdx, Nat.mul_div_cancel _ hrbd, Nat.mul_div_cancel _ hcbd]
    exact Nat.mod_add_div' b p.CBD

/-- For valid parameters no constraint column is empty: every column below
`MAX_COLS_` has at least one candidate placement row, so the emptiness check
of `init` (lines 158-161) never fires. -/
theorem colRows_ne_nil {p : Params} (v : ValidP p) (c : Nat)
    (hc : c < p.MAX_COLS) : colRows p c ≠ [] := by
  have hN := v.n_pos
  have hMC : p.MAX_COLS = p.N ^ 2 * 4 := rfl
  rw [hMC] at hc
  suffices h : ∃ r, r ∈ colRows p c by
    obtain ⟨r, hr⟩ := h
    intro he
    rw [he] at hr
    cases hr
  rcases Nat.lt_or_ge c (p.N ^ 2) with h0 | h0
  · have hi : c / p.N < p.N := by
      rw [Nat.div_lt_iff_lt_mul hN]
      rw [pow_two] at h0
      exact h0
    have hk : c % p.N < p.N := Nat.mod_lt _ hN
    obtain ⟨hI, hJ, hK, hlt⟩ := rowIdx_decomp v (c / p.N) 0 (c % p.N) hi hN hk
    refine ⟨rowIdx p (c / p.N) 0 (c % p.N), ?_⟩
    rw [mem_colRows]
    refine ⟨hlt, Or.inl ?_⟩
    show iOf p (rowIdx p (c / p.N) 0 (c % p.N)) * p.N +
      kOf p (rowIdx p (c / p.N) 0 (c % p.N)) = c
    rw [hI, hK, Nat.div_add_mod']
  rcases Nat.lt_or_ge c (p.N ^ 2 * 2) with h1 | h1
  · set c' := c - p.N ^ 2 with hc'
    have hc'lt : c' < p.N ^ 2 := by omega
    have hj : c' / p.N < p.N := by
      rw [Nat.div_lt_iff_lt_mul hN]
      rw [pow_two] at hc'lt
      exact hc'lt
    have hk : c' % p.N < p.N := Nat.mod_lt _ hN
    obtain ⟨hI, hJ, hK, hlt⟩ := rowIdx_decomp v 0 (c' / p.N) (c' % p.N) hN hj hk
    refine ⟨rowIdx p 0 (c' / p.N) (c' % p.N), ?_⟩
    rw [mem_colRows]
    refine ⟨hlt, Or.inr (Or.inl ?_)⟩
    show p.COL_OFFSET + (jOf p (rowIdx p 0 (c' / p.N) (c' % p.N)) * p.N +
      kOf p (rowIdx p 0 (c' / p.N) (c' % p.N))) = c
    rw [hJ, hK, Nat.div_add_mod', Params.COL_OFFSET]
    omega
  rcases Nat.lt_or_ge c (p.N ^ 2 * 3) with h2 | h2
  · set c' := c - p.N ^ 2 * 2 with hc'
    have hc'lt : c' < p.N ^ 2 := by omega
    have hi : c' / p.N < p.N := by
      rw [Nat.div_lt_iff_lt_mul hN]
      rw [pow_two] at hc'lt
      exact hc'lt
    have hj : c' % p.N < p.N := Nat.mod_lt _ hN
    obtain ⟨hI, hJ, hK, hlt⟩ := rowIdx_decomp v (c' / p.N) (c' % p.N) 0 hi hj hN
    refine ⟨rowIdx p (c' / p.N) (c' % p.N) 0, ?_⟩
    rw [mem_colRows]
    refine ⟨hlt, Or.inr (Or.inr (Or.inl ?_))⟩
    show p.CELL_OFFSET + (iOf p (rowIdx p (c' / p.N) (c' % p.N) 0) * p.N +
      jOf p (rowIdx p (c' / p.N) (c' % p.N) 0)) = c
    rw [hI, hJ, Nat.div_add_mod', Params.CELL_OFFSET, Params.COL_OFFSET]
    omega
  · set c' := c - p.N ^ 2 * 3 with hc'
    have hc'lt : c' < p.N ^ 2 := by omega
    have hb : c' / p.N < p.N := by
      rw [Nat.div_lt_iff_lt_mul hN]
      rw [pow_two] at hc'lt
      exact hc'lt
    have hk : c' % p.N < p.N := Nat.mod_lt _ hN
    obtain ⟨i, j, hi, hj, hbox⟩ := box_surj v (c' / p.N) hb
    obtain ⟨hI, hJ, hK, hlt⟩ := rowIdx_decomp v i j (c' % p.N) hi hj hk
    refine ⟨rowIdx p i j (c' % p.N), ?_⟩
    rw [mem_colRows]
    refine ⟨hlt, Or.inr (Or.inr (Or.inr ?_))⟩
    show p.BOX_OFFSET + (boxIdx p (iOf p (rowIdx p i j (c' % p.N)))
      (jOf p (rowIdx p i j (c' % p.N))) * p.N +
      kOf p (rowIdx p i j (c' % p.N))) = c
    rw [hI, hJ, hK, hbox, Nat.div_add_mod', Params.BOX_OFFSET,
      Params.COL_OFFSET]
    omega

/-- For any supported size (valid parameters) `init` succeeds: the size
dispatch matches and no column is empty. -/
theorem initOk_some {gridSize : Int} {p : Params}
    (hs : sizeParams gridSize = some p) (v : ValidP p) :
    initOk gridSize = true := by
  simp only [initOk, hs]
  apply List.all_eq_true.mpr
  intro c hc
  exact decide_eq_true (colRows_ne_nil v c (List.mem_range.mp hc))

/-- C5: `init(grid_size)` returns true exactly for the four supported sizes
9, 10, 12 and 16 (each with its fixed box-division pair, recorded by
`sizeParams`); in that case the matrix has `N³` placement rows whose four
nodes form a horizontal 4-cycle, `4·N²` constraint columns, and no
constraint column is empty — while the emptiness check would make `init`
return false if a column had no candidate rows. -/
theorem claim_C5_init_contract (gridSize : Int) :
    (initOk gridSize = true ↔
      gridSize = 9 ∨ gridSize = 10 ∨ gridSize = 12 ∨ gridSize = 16) ∧
    ∀ p, sizeParams gridSize = some p →
      p.MAX_ROWS = p.N ^ 3 ∧ p.MAX_COLS = 4 * p.N ^ 2 ∧
      (∀ (r : Nat) (f : Fin 4),
        (initState p).right (NodeId.node r f) = NodeId.node r (f + 1) ∧
        (initState p).right ((initState p).right ((initState p).right
          ((initState p).right (NodeId.node r f)))) = NodeId.node r f) ∧
      (∀ c, c < p.MAX_COLS → colRows p c ≠ []) := by
  have hvOf : ∀ p, sizeParams gridSize = some p → ValidP p := by
    intro p hp
    rw [sizeParams] at hp
    by_cases h9 : gridSize = 9
    · rw [if_pos h9] at hp
      injection hp with hp2
      exact hp2 ▸ ⟨by decide, by decide, by decide⟩
    rw [if_neg h9] at hp
    by_cases h10 : gridSize = 10
    · rw [if_pos h10] at hp
      injection hp with hp2
      exact hp2 ▸ ⟨by decide, by decide, by decide⟩
    rw [if_neg h10] at hp
    by_cases h12 : gridSize = 12
    · rw [if_pos h12] at hp
      injection hp with hp2
      exact hp2 ▸ ⟨by decide, by decide, by decide⟩
    rw [if_neg h12] at hp
    by_cases h16 : gridSize = 16
    · rw [if_pos h16] at hp
      injection hp with hp2
      exact hp2 ▸ ⟨by decide, by decide, by decide⟩
    rw [if_neg h16] at hp
    cases hp
  constructor
  · constructor
    · intro h
      by_contra hno
      push_neg at hno
      obtain ⟨h9, h10, h12, h16⟩ := hno
      have hs : sizeParams gridSize = none := by
        rw [sizeParams, if_neg h9, if_neg h10, if_neg h12, if_neg h16]
      simp only [initOk, hs] at h
      exact Bool.noConfusion h
    · intro h
      rcases h with h | h | h | h <;> subst h
      · exact initOk_some
          (show sizeParams 9 = some ⟨9, 3, 3⟩ by decide)
          ⟨by decide, by decide, by decide⟩
      · exact initOk_some
          (show sizeParams 10 = some ⟨10, 5, 2⟩ by decide)
          ⟨by decide, by decide, by decide⟩
      · exact initOk_some
          (show sizeParams 12 = some ⟨12, 3, 4⟩ by decide)
          ⟨by decide, by decide, by decide⟩
      · exact initOk_some
          (show sizeParams 16 = some ⟨16, 4, 4⟩ by decide)
          ⟨by decide, by decide, by decide⟩
  · intro p hp
    have v := hvOf p hp
    refine ⟨?_, ?_, ?_, ?_⟩
    · rw [Params.MAX_ROWS, Params.COL_OFFSET]
      ring
    · rw [Params.MAX_COLS, Params.COL_OFFSET]
      ring
    · intro r f
      obtain ⟨_, _, _, h4, h5, h6, _⟩ := fin4_facts f
      refine ⟨rfl, ?_⟩
      show NodeId.node r (f + 1 + 1 + 1 + 1) = NodeId.node r f
      rw [h4, h5, h6]
    · intro c hc
      exact colRows_ne_nil v c hc

/-- Witness for C5 at grid size 9 (supported) and 8 (unsupported). -/
theorem claim_C5_init_contract_witness :
    sizeParams 9 = some ⟨9, 3, 3⟩ ∧
    (Params.MAX_ROWS ⟨9, 3, 3⟩ = 9 ^ 3 ∧
     Params.MAX_COLS ⟨9, 3, 3⟩ = 4 * 9 ^ 2 ∧
     (∀ (r : Nat) (f : Fin 4),
        (initState ⟨9, 3, 3⟩).right (NodeId.node r f) =
          NodeId.node r (f + 1) ∧
        (initState ⟨9, 3, 3⟩).right ((initState ⟨9, 3, 3⟩).right
          ((initState ⟨9, 3, 3⟩).right ((initState ⟨9, 3, 3⟩).right
            (NodeId.node r f)))) = NodeId.node r f) ∧
     (∀ c, c < Params.MAX_COLS ⟨9, 3, 3⟩ → colRows ⟨9, 3, 3⟩ c ≠ [])) ∧
    initOk 9 = true ∧ initOk 8 = false := by
  refine ⟨by decide, ?_, ?_, by decide⟩
  · exact (claim_C5_init_contract 9).2 ⟨9, 3, 3⟩ (by decide)
  · exact (claim_C5_init_contract 9).1.mpr (Or.inl rfl)

/-- Cells untouched by any stack node keep their value through `output`
(lines 268-273). -/
theorem output_skip (p : Params) :
    ∀ (L : List NodeId) (g : Int → Int → Int) (a b : Int),
      (∀ n ∈ L, ¬(a = rowI p n ∧ b = colI p n)) →
      (output p L g).2 a b = g a b := by
  intro L
  induction L with
  | nil => intro g a b _; rfl
  | cons n t ih =>
    intro g a b hab
    have hn := hab n (List.mem_cons_self n t)
    calc (output p (n :: t) g).2 a b
        = (fun x y => if x = rowI p n ∧ y = colI p n then valI p n + 1
            else g x y) a b :=
          ih _ a b fun m hm => hab m (List.mem_cons_of_mem n hm)
      _ = g a b := by simp only [if_neg hn]

/-- `output` pops the stack top-first, so among all stack nodes naming the
same cell the deepest one wins; if nothing deeper than `n` names `n`'s cell,
the written value is `n`'s. -/
theorem output_last_write (p : Params) (a b : Int) :
    ∀ (A B : List NodeId) (n : NodeId) (g : Int → Int → Int),
      a = rowI p n → b = colI p n →
      (∀ m ∈ B, ¬(a = rowI p m ∧ b = colI p m)) →
      (output p (A ++ n :: B) g).2 a b = valI p n + 1 := by
  intro A
  induction A with
  | nil =>
    intro B n g ha hb hB
    have h0 : (output p ([] ++ n :: B) g).2 a b =
        (output p B (fun x y => if x = rowI p n ∧ y = colI p n
          then valI p n + 1 else g x y)).2 a b := rfl
    rw [h0, output_skip p B _ a b hB]
    show (if a = rowI p n ∧ b = colI p n then valI p n + 1 else g a b) = _
    rw [if_pos ⟨ha, hb⟩]
  | cons m t ih =>
    intro B n g ha hb hB
    show (output p (t ++ n :: B) _).2 a b = _
    exact ih B n _ ha hb hB

/-- A hit of `find`'s inner loop matches the requested triple
(lines 405-410). -/
theorem findColLoop_spec (p : Params) (s : DLX) (h : NodeId) (i j v : Int) :
    ∀ (fuel : Nat) (cur n : NodeId),
      findColLoop p s h i j v cur fuel = some n →
      rowI p n = i ∧ colI p n = j ∧ valI p n = v := by
  intro fuel
  induction fuel with
  | zero => intro cur n hn; cases hn
  | succ f ih =>
    intro cur n hn
    simp only [findColLoop] at hn
    by_cases h1 : cur = h
    · rw [if_pos h1] at hn
      cases hn
    rw [if_neg h1] at hn
    by_cases h2 : rowI p cur = i ∧ colI p cur = j ∧ valI p cur = v
    · rw [if_pos h2] at hn
      injection hn with hn2
      rw [← hn2]
      exact h2
    · rw [if_neg h2] at hn
      exact ih _ n hn

/-- A hit of `find` matches the requested triple (lines 396-417). -/
theorem find_spec (p : Params) (s : DLX) (i j v : Int) :
    ∀ (fuel : Nat) (cur n : NodeId),
      findLoop p s i j v cur fuel = some n →
      rowI p n = i ∧ colI p n = j ∧ valI p n = v := by
  intro fuel
  induction fuel with
  | zero => intro cur n hn; cases hn
  | succ f ih =>
    intro cur n hn
    simp only [findLoop] at hn
    by_cases h1 : cur = NodeId.root
    · rw [if_pos h1] at hn
      cases hn
    rw [if_neg h1] at hn
    cases hcl : findColLoop p s cur i j v (s.bottom cur) f with
    | some m =>
      rw [hcl] at hn
      injection hn with hn2
      rw [← hn2]
      exact findColLoop_spec p s cur i j v f (s.bottom cur) m hcl
    | none =>
      rw [hcl] at hn
      exact ih _ n hn

/-- Unfolded form of one row attempt (structure-eta normal form). -/
theorem rowAttempt_eq (p : Params) (slv : EC → Nat → EC × Bool)
    (cur : NodeId) (ec : EC) (lf : Nat) :
    rowAttempt p slv cur ec lf =
      (let res := slv (pushState p cur ec lf) lf
       let ec2 : EC := { dlx := res.1.dlx, runningSol := res.1.runningSol,
                         solved := res.2,
                         totalCompetition := res.1.totalCompetition }
       let ec3 := if ec2.solved then ec2
         else { ec2 with runningSol := ec2.runningSol.tail }
       { ec3 with dlx := uncoverRowCols p lf ec3.dlx cur
                           (ec3.dlx.right cur) lf }) := rfl

/-- The stack discipline of one row attempt: on success the attempt leaves
the tried row (and the sub-search's rows) pushed; on failure the stack is
exactly as before (line 308's pop). -/
theorem rowAttempt_stack (p : Params) (slv : EC → Nat → EC × Bool)
    (hslv : ∀ (ec2 : EC) (lf2 : Nat), ec2.solved = false →
      ((slv ec2 lf2).2 = true →
        ∃ S, (slv ec2 lf2).1.runningSol = S ++ ec2.runningSol) ∧
      ((slv ec2 lf2).2 = false →
        (slv ec2 lf2).1.runningSol = ec2.runningSol))
    (cur : NodeId) (ec : EC) (lf : Nat) (hec : ec.solved = false) :
    ((rowAttempt p slv cur ec lf).solved = true →
      ∃ S, (rowAttempt p slv cur ec lf).runningSol = S ++ ec.runningSol) ∧
    ((rowAttempt p slv cur ec lf).solved = false →
      (rowAttempt p slv cur ec lf).runningSol = ec.runningSol) := by
  have key : ∀ (r1 : EC) (r2 : Bool),
      slv (pushState p cur ec lf) lf = (r1, r2) →
      (r2 = true → ∃ S, r1.runningSol = S ++ cur :: ec.runningSol) →
      (r2 = false → r1.runningSol = cur :: ec.runningSol) →
      ((rowAttempt p slv cur ec lf).solved = true →
        ∃ S, (rowAttempt p slv cur ec lf).runningSol =
          S ++ ec.runningSol) ∧
      ((rowAttempt p slv cur ec lf).solved = false →
        (rowAttempt p slv cur ec lf).runningSol = ec.runningSol) := by
    intro r1 r2 hq h2 h3
    have hra : rowAttempt p slv cur ec lf =
        (let ec2 : EC := { dlx := r1.dlx,
                           runningSol := r1.runningSol,
                           solved := r2,
                           totalCompetition := r1.totalCompetition }
         let ec3 := if ec2.solved then ec2
           else { ec2 with runningSol := ec2.runningSol.tail }
         { ec3 with dlx := uncoverRowCols p lf ec3.dlx cur
                             (ec3.dlx.right cur) lf }) := by
      rw [rowAttempt_eq, hq]
    cases r2 with
    | true =>
      have hsol : (rowAttempt p slv cur ec lf).solved = true := by
        rw [hra]
        rfl
      have hrun : (rowAttempt p slv cur ec lf).runningSol =
          r1.runningSol := by
        rw [hra]
        rfl
      constructor
      · intro _
        obtain ⟨S, hS⟩ := h2 rfl
        refine ⟨S ++ [cur], ?_⟩
        rw [hrun, hS, List.append_assoc]
        rfl
      · intro h
        rw [hsol] at h
        exact Bool.noConfusion h
    | false =>
      have hsol : (rowAttempt p slv cur ec lf).solved = false := by
        rw [hra]
        rfl
      have hrun : (rowAttempt p slv cur ec lf).runningSol =
          r1.runningSol.tail := by
        rw [hra]
        rfl
      constructor
      · intro h
        rw [hsol] at h
        exact Bool.noConfusion h
      · intro _
        rw [hrun, h3 rfl]
        rfl
  have hslv2 := hslv (pushState p cur ec lf) lf hec
  exact key _ _ rfl hslv2.1 hslv2.2

/-- The row loop exits immediately once the solved flag is set. -/
theorem solveRowsLoop_exit (p : Params) (slv : EC → Nat → EC × Bool)
    (c : NodeId) : ∀ (lf : Nat) (ec : EC) (cur : NodeId),
    ec.solved = true → solveRowsLoop p slv c ec cur lf = ec := by
  intro lf ec cur hec
  cases lf with
  | zero => rfl
  | succ f =>
    show (if cur = c ∨ ec.solved = true then ec else _) = ec
    rw [if_pos (Or.inr hec)]

/-- The stack discipline of the whole row loop. -/
theorem solveRowsLoop_stack (p : Params) (slv : EC → Nat → EC × Bool)
    (hslv : ∀ (ec2 : EC) (lf2 : Nat), ec2.solved = false →
      ((slv ec2 lf2).2 = true →
        ∃ S, (slv ec2 lf2).1.runningSol = S ++ ec2.runningSol) ∧
      ((slv ec2 lf2).2 = false →
        (slv ec2 lf2).1.runningSol = ec2.runningSol))
    (c : NodeId) : ∀ (lf : Nat) (ec : EC) (cur : NodeId),
      ec.solved = false →
      ((solveRowsLoop p slv c ec cur lf).solved = true →
        ∃ S, (solveRowsLoop p slv c ec cur lf).runningSol =
          S ++ ec.runningSol) ∧
      ((solveRowsLoop p slv c ec cur lf).solved = false →
        (solveRowsLoop p slv c ec cur lf).runningSol = ec.runningSol) := by
  intro lf
  induction lf with
  | zero =>
    intro ec cur hec
    constructor
    · intro h
      rw [show (solveRowsLoop p slv c ec cur 0).solved = ec.solved from rfl,
        hec] at h
      exact Bool.noConfusion h
    · intro _
      rfl
  | succ f ih =>
    intro ec cur hec
    by_cases hexit : cur = c ∨ ec.solved = true
    · have hq : solveRowsLoop p slv c ec cur (f + 1) = ec := by
        show (if cur = c ∨ ec.solved = true then ec else _) = ec
        rw [if_pos hexit]
      rw [hq]
      constructor
      · intro h
        rw [hec] at h
        exact Bool.noConfusion h
      · intro _
        rfl
    · have hq : solveRowsLoop p slv c ec cur (f + 1) =
          solveRowsLoop p slv c (rowAttempt p slv cur ec f)
            ((rowAttempt p slv cur ec f).dlx.bottom cur) f := by
        show (if cur = c ∨ ec.solved = true then ec else _) = _
        rw [if_neg hexit]
      rw [hq]
      obtain ⟨haT, haF⟩ := rowAttempt_stack p slv hslv cur ec f hec
      by_cases hras : (rowAttempt p slv cur ec f).solved = true
      · have hex := solveRowsLoop_exit p slv c f (rowAttempt p slv cur ec f)
          ((rowAttempt p slv cur ec f).dlx.bottom cur) hras
        rw [hex]
        constructor
        · intro _
          exact haT hras
        · intro h
          rw [hras] at h
          exact Bool.noConfusion h
      · have hras' : (rowAttempt p slv cur ec f).solved = false :=
          Bool.eq_false_iff.mpr hras
        have hrun := haF hras'
        obtain ⟨hT', hF'⟩ := ih (rowAttempt p slv cur ec f)
          ((rowAttempt p slv cur ec f).dlx.bottom cur) hras'
        constructor
        · intro h
          obtain ⟨S, hS⟩ := hT' h
          exact ⟨S, by rw [hS, hrun]⟩
        · intro h
          rw [hF' h, hrun]

/-- The stack discipline of the recursive search: a failing call leaves
`running_sol_` untouched, a successful one only pushes; and when the
member flag ends `true` the call also returned `true`. -/
theorem solveRec_stack (p : Params) :
    ∀ (recFuel : Nat) (ec : EC) (lf : Nat), ec.solved = false →
      ((solveRec p recFuel ec lf).1.solved = true →
        (solveRec p recFuel ec lf).2 = true) ∧
      ((solveRec p recFuel ec lf).2 = true →
        ∃ S, (solveRec p recFuel ec lf).1.runningSol =
          S ++ ec.runningSol) ∧
      ((solveRec p recFuel ec lf).2 = false →
        (solveRec p recFuel ec lf).1.runningSol = ec.runningSol) := by
  intro recFuel
  induction recFuel with
  | zero =>
    intro ec lf hec
    refine ⟨?_, ?_, ?_⟩
    · intro h
      rw [show (solveRec p 0 ec lf).1.solved = ec.solved from rfl, hec] at h
      exact Bool.noConfusion h
    · intro h
      exact Bool.noConfusion h
    · intro _
      rfl
  | succ rf ih =>
    intro ec lf hec
    have hslv : ∀ (ec2 : EC) (lf2 : Nat), ec2.solved = false →
        ((solveRec p rf ec2 lf2).2 = true →
          ∃ S, (solveRec p rf ec2 lf2).1.runningSol =
            S ++ ec2.runningSol) ∧
        ((solveRec p rf ec2 lf2).2 = false →
          (solveRec p rf ec2 lf2).1.runningSol = ec2.runningSol) :=
      fun ec2 lf2 h2 => ⟨(ih ec2 lf2 h2).2.1, (ih ec2 lf2 h2).2.2⟩
    by_cases hemp : emptyB ec.dlx = true
    · have hq : solveRec p (rf + 1) ec lf = (ec, true) := by
        show (if emptyB ec.dlx = true then (ec, true) else _) = _
        rw [if_pos hemp]
      rw [hq]
      refine ⟨fun _ => rfl, ?_, ?_⟩
      · intro _
        exact ⟨[], (List.nil_append _).symm⟩
      · intro h
        exact Bool.noConfusion h
    · cases hpick : pickNextCol ec.dlx lf with
      | none =>
        have hq : solveRec p (rf + 1) ec lf = (ec, false) := by
          show (if emptyB ec.dlx = true then (ec, true) else _) = _
          rw [if_neg hemp, hpick]
        rw [hq]
        refine ⟨?_, ?_, fun _ => rfl⟩
        · intro h
          rw [show (ec, false).1.solved = ec.solved from rfl, hec] at h
          exact Bool.noConfusion h
        · intro h
          exact Bool.noConfusion h
      | some pr =>
        obtain ⟨nextCol, cnt⟩ := pr
        by_cases hcnt : cnt < 1
        · have hq : solveRec p (rf + 1) ec lf = (ec, false) := by
            show (if emptyB ec.dlx = true then (ec, true) else _) = _
            rw [if_neg hemp, hpick]
            show (if cnt < 1 then (ec, false) else _) = _
            rw [if_pos hcnt]
          rw [hq]
          refine ⟨?_, ?_, fun _ => rfl⟩
          · intro h
            rw [show (ec, false).1.solved = ec.solved from rfl, hec] at h
            exact Bool.noConfusion h
          · intro h
            exact Bool.noConfusion h
        · have hq : solveRec p (rf + 1) ec lf =
              (({ solveRowsLoop p (solveRec p rf) nextCol
                  { dlx := cover p ec.dlx nextCol lf,
                    runningSol := ec.runningSol, solved := ec.solved,
                    totalCompetition := ec.totalCompetition + cnt }
                  (ec.dlx.bottom nextCol) lf with
                  dlx := (uncover p (solveRowsLoop p (solveRec p rf) nextCol
                    { dlx := cover p ec.dlx nextCol lf,
                      runningSol := ec.runningSol, solved := ec.solved,
                      totalCompetition := ec.totalCompetition + cnt }
                    (ec.dlx.bottom nextCol) lf).dlx nextCol lf) }),
                (solveRowsLoop p (solveRec p rf) nextCol
                  { dlx := cover p ec.dlx nextCol lf,
                    runningSol := ec.runningSol, solved := ec.solved,
                    totalCompetition := ec.totalCompetition + cnt }
                  (ec.dlx.bottom nextCol) lf).solved) := by
            show (if emptyB ec.dlx = true then (ec, true) else _) = _
            rw [if_neg hemp, hpick]
            show (if cnt < 1 then (ec, false) else _) = _
            rw [if_neg hcnt]
          rw [hq]
          obtain ⟨hT, hF⟩ := solveRowsLoop_stack p (solveRec p rf) hslv
            nextCol lf
            { dlx := cover p ec.dlx nextCol lf,
              runningSol := ec.runningSol, solved := ec.solved,
              totalCompetition := ec.totalCompetition + cnt }
            (ec.dlx.bottom nextCol) hec
          refine ⟨fun h => h, ?_, ?_⟩
          · intro h
            exact hT h
          · intro h
            exact hF h

theorem mem_cells (p : Params) (i j : Nat) :
    (i, j) ∈ cells p ↔ i < p.N ∧ j < p.N := by
  rw [cells]
  constructor
  · intro h
    obtain ⟨a, ha, hb⟩ := List.mem_flatMap.mp h
    obtain ⟨b, hb2, heq⟩ := List.mem_map.mp hb
    injection heq with e1 e2
    subst e1
    subst e2
    exact ⟨List.mem_range.mp ha, List.mem_range.mp hb2⟩
  · intro h
    exact List.mem_flatMap.mpr ⟨i, List.mem_range.mpr h.1,
      List.mem_map.mpr ⟨j, List.mem_range.mpr h.2, rfl⟩⟩

theorem cells_nodup (p : Params) : (cells p).Nodup := by
  have h : cells p = (List.range p.N).product (List.range p.N) := rfl
  rw [h]
  exact List.Nodup.product (List.nodup_range _) (List.nodup_range _)

/-- What the clue-insertion loop does when it completes without an early
return: it pushes one node per non-zero cell, in scan order, and `find`
guarantees each pushed node's static fields match its clue triple
(`value_` is the zero-based `val - 1`, line 212). -/
theorem insertClues_spec (p : Params) (g : Int → Int → Int) (fuel : Nat) :
    ∀ (cl : List (Nat × Nat)) (s : DLX) (pz rs : List NodeId),
      (insertClues p g fuel s pz rs cl).2.2.2 = none →
      ∃ ns : List ((Nat × Nat) × NodeId),
        ns.map Prod.fst = cl.filter (fun c => decide (g c.1 c.2 ≠ 0)) ∧
        (insertClues p g fuel s pz rs cl).2.2.1 =
          (ns.map Prod.snd).reverse ++ rs ∧
        ∀ x ∈ ns, rowI p x.2 = (x.1.1 : Int) ∧
          colI p x.2 = (x.1.2 : Int) ∧ valI p x.2 = g x.1.1 x.1.2 - 1 := by
  intro cl
  induction cl with
  | nil =>
    intro s pz rs _
    exact ⟨[], rfl, rfl, fun x hx => absurd hx (List.not_mem_nil x)⟩
  | cons c rest ih =>
    obtain ⟨i, j⟩ := c
    intro s pz rs hnone
    by_cases hrange : g i j > (p.N : Int) ∨ g i j < 0
    · exfalso
      have heq : insertClues p g fuel s pz rs ((i, j) :: rest) =
          (s, pz, rs, some SolveReport.invalidPuzzle) := by
        show (if g i j > (p.N : Int) ∨ g i j < 0 then
            (s, pz, rs, some SolveReport.invalidPuzzle) else _) = _
        rw [if_pos hrange]
      rw [heq] at hnone
      cases hnone
    by_cases hval : g i j ≠ 0
    · cases hfind : find p s (i : Int) (j : Int) (g i j - 1) fuel with
      | none =>
        exfalso
        have heq : insertClues p g fuel s pz rs ((i, j) :: rest) =
            (s, pz, rs, some (SolveReport.repeatedValue i j (g i j))) := by
          show (if g i j > (p.N : Int) ∨ g i j < 0 then
              (s, pz, rs, some SolveReport.invalidPuzzle) else _) = _
          rw [if_neg hrange]
          show (if g i j ≠ 0 then _ else _) = _
          rw [if_pos hval, hfind]
        rw [heq] at hnone
        cases hnone
      | some n =>
        have heq : insertClues p g fuel s pz rs ((i, j) :: rest) =
            insertClues p g fuel
              (coverRowCols p fuel (cover p s (colHeaderOf p n) fuel) n
                ((cover p s (colHeaderOf p n) fuel).right n) fuel)
              (n :: pz) (n :: rs) rest := by
          show (if g i j > (p.N : Int) ∨ g i j < 0 then
              (s, pz, rs, some SolveReport.invalidPuzzle) else _) = _
          rw [if_neg hrange]
          show (if g i j ≠ 0 then _ else _) = _
          rw [if_pos hval, hfind]
        rw [heq] at hnone ⊢
        obtain ⟨ns', hfst, hrs, hfields⟩ := ih _ _ _ hnone
        refine ⟨((i, j), n) :: ns', ?_, ?_, ?_⟩
        · show (i, j) :: ns'.map Prod.fst = _
          rw [hfst, List.filter_cons, if_pos (by simpa using hval)]
        · rw [hrs]
          show _ = ((n :: ns'.map Prod.snd).reverse) ++ rs
          rw [List.reverse_cons, List.append_assoc]
          rfl
        · intro x hx
          rcases List.mem_cons.mp hx with h1 | h1
          · subst h1
            exact find_spec p s (i : Int) (j : Int) (g i j - 1) fuel
              (s.right NodeId.root) n hfind
          · exact hfields x h1
    · have heq : insertClues p g fuel s pz rs ((i, j) :: rest) =
          insertClues p g fuel s pz rs rest := by
        show (if g i j > (p.N : Int) ∨ g i j < 0 then
            (s, pz, rs, some SolveReport.invalidPuzzle) else _) = _
        rw [if_neg hrange]
        show (if g i j ≠ 0 then _ else _) = _
        rw [if_neg hval]
      rw [heq] at hnone ⊢
      obtain ⟨ns', hfst, hrs, hfields⟩ := ih _ _ _ hnone
      refine ⟨ns', ?_, hrs, hfields⟩
      rw [hfst, List.filter_cons, if_neg (by simpa using hval)]

/-- C4: for every input grid and every cell `(i, j)` with a non-zero value,
if the solver reports the puzzle solved then the grid written by `output`
holds that same value at `(i, j)`.  The clue's node is pushed before every
search node and `output` pops top-first, so the clue's write lands last at
its cell; distinct clues name distinct cells, and `find` ties the node's
static fields to the clue triple. -/
theorem claim_C4_clue_preservation (p : Params) (s0 : DLX)
    (g gout : Int → Int → Int) (fuel : Nat) (i j : Nat)
    (hi : i < p.N) (hj : j < p.N) (hnz : g i j ≠ 0)
    (hsolved : isSolved (solveEC p s0 g fuel).1 = true) :
    (output p (solveEC p s0 g fuel).1.runningSol gout).2
      (i : Int) (j : Int) = g i j := by
  cases hins : insertClues p g fuel s0 [] [] (cells p) with
  | mk s' rest3 =>
    obtain ⟨pz, rs, rep⟩ := rest3
    cases rep with
    | some e =>
      exfalso
      have hq : solveEC p s0 g fuel =
          ({ dlx := s', runningSol := rs, solved := false,
             totalCompetition := 0 }, some e) := by
        simp only [solveEC, hins]
      rw [hq] at hsolved
      exact Bool.noConfusion hsolved
    | none =>
      have hq : solveEC p s0 g fuel =
          (let res := solveRec p fuel
            { dlx := s', runningSol := rs, solved := false,
              totalCompetition := 0 } fuel
           ({ res.1 with dlx := restoreClues p fuel res.1.dlx pz },
            if res.2 = true then none
            else some SolveReport.notSolvable)) := by
        simp only [solveEC, hins]
      have hst := solveRec_stack p fuel
        { dlx := s', runningSol := rs, solved := false,
          totalCompetition := 0 } fuel rfl
      have hsolved' : (solveRec p fuel
          { dlx := s', runningSol := rs, solved := false,
            totalCompetition := 0 } fuel).1.solved = true := by
        rw [hq] at hsolved
        exact hsolved
      obtain ⟨S, hS⟩ := hst.2.1 (hst.1 hsolved')
      have hrepnone : (insertClues p g fuel s0 [] [] (cells p)).2.2.2 =
          none := by rw [hins]
      obtain ⟨ns, hfst, hrs, hfields⟩ :=
        insertClues_spec p g fuel (cells p) s0 [] [] hrepnone
      have hrs0 : (insertClues p g fuel s0 [] [] (cells p)).2.2.1 = rs := by
        rw [hins]
      rw [hrs0, List.append_nil] at hrs
      have hmemf : (i, j) ∈
          List.filter (fun c => decide (g c.1 c.2 ≠ 0)) (cells p) :=
        List.mem_filter.mpr ⟨(mem_cells p i j).mpr ⟨hi, hj⟩,
          by simpa using hnz⟩
      rw [← hfst] at hmemf
      obtain ⟨x, hxns, hxfst⟩ := List.mem_map.mp hmemf
      obtain ⟨A2, B2, hsplit⟩ := List.append_of_mem hxns
      have hndns : (ns.map Prod.fst).Nodup := by
        rw [hfst]
        exact (cells_nodup p).filter _
      have hfinal : (solveEC p s0 g fuel).1.runningSol =
          (S ++ (B2.map Prod.snd).reverse) ++ x.2 ::
            (A2.map Prod.snd).reverse := by
        rw [hq]
        show (solveRec p fuel
          { dlx := s', runningSol := rs, solved := false,
            totalCompetition := 0 } fuel).1.runningSol = _
        rw [hS, hrs, hsplit, List.map_append, List.map_cons,
          List.reverse_append, List.reverse_cons]
        simp only [List.append_assoc, List.singleton_append]
      have hafter : ∀ m ∈ (A2.map Prod.snd).reverse,
          ¬((i : Int) = rowI p m ∧ (j : Int) = colI p m) := by
        intro m hm
        rw [List.mem_reverse] at hm
        obtain ⟨y, hy, hy2⟩ := List.mem_map.mp hm
        have hyfields := hfields y
          (by rw [hsplit]; exact List.mem_append.mpr (Or.inl hy))
        rintro ⟨hrm, hcm⟩
        have hyx : y.1 ≠ x.1 := by
          intro he
          have hnotin : x.1 ∉ A2.map Prod.fst := by
            have h2 := hndns
            rw [hsplit, List.map_append, List.map_cons] at h2
            exact nodup_middle_not_left _ _ _ h2
          exact hnotin (List.mem_map.mpr ⟨y, hy, he⟩)
        apply hyx
        obtain ⟨hr1, hc1, _⟩ := hyfields
        rw [← hy2, hr1] at hrm
        rw [← hy2, hc1] at hcm
        have h1 : y.1.1 = i := by exact_mod_cast hrm.symm
        have h2 : y.1.2 = j := by exact_mod_cast hcm.symm
        have hy1 : y.1 = (y.1.1, y.1.2) := rfl
        rw [hxfst, hy1, h1, h2]
      obtain ⟨hrx, hcx, hvx⟩ := hfields x hxns
      rw [hfinal]
      have hout := output_last_write p (i : Int) (j : Int)
        (S ++ (B2.map Prod.snd).reverse) ((A2.map Prod.snd).reverse) x.2
        gout (by rw [hrx, hxfst]) (by rw [hcx, hxfst]) hafter
      rw [hout, hvx, hxfst]
      ring

set_option maxRecDepth 200000 in
/-- Witness for C4 on the 2×2 parameters: the clue 1 at cell (0,0) is
reported solved and survives into the output grid. -/
theorem claim_C4_clue_preservation_witness :
    (0 : Nat) < Params.N ⟨2, 1, 2⟩ ∧
    (fun a b => if a = 0 ∧ b = 0 then (1 : Int) else 0)
      ((0 : Nat) : Int) ((0 : Nat) : Int) ≠ 0 ∧
    isSolved (solveEC ⟨2, 1, 2⟩ (initState ⟨2, 1, 2⟩)
      (fun a b => if a = 0 ∧ b = 0 then (1 : Int) else 0) 100).1 = true ∧
    (output ⟨2, 1, 2⟩ (solveEC ⟨2, 1, 2⟩ (initState ⟨2, 1, 2⟩)
      (fun a b => if a = 0 ∧ b = 0 then (1 : Int) else 0) 100).1.runningSol
      (fun _ _ => 0)).2 ((0 : Nat) : Int) ((0 : Nat) : Int) =
      (fun a b => if a = 0 ∧ b = 0 then (1 : Int) else 0)
        ((0 : Nat) : Int) ((0 : Nat) : Int) := by
  have hs : isSolved (solveEC ⟨2, 1, 2⟩ (initState ⟨2, 1, 2⟩)
      (fun a b => if a = 0 ∧ b = 0 then (1 : Int) else 0) 100).1 = true := by
    decide
  exact ⟨by decide, by decide, hs,
    claim_C4_clue_preservation ⟨2, 1, 2⟩ (initState ⟨2, 1, 2⟩)
      (fun a b => if a = 0 ∧ b = 0 then (1 : Int) else 0) (fun _ _ => 0)
      100 0 0 (by decide) (by decide) (by decide) hs⟩

/-- Witness for C7 at the standard 9×9 parameters, column 0. -/
theorem claim_C7_pointer_symmetry_witness :
    ValidP ⟨9, 3, 3⟩ ∧ 0 < Params.MAX_COLS ⟨9, 3, 3⟩ ∧
    Params.MAX_ROWS ⟨9, 3, 3⟩ + 3 < 1000 ∧
    ((∀ x, realNode ⟨9, 3, 3⟩ x →
      okH (initState ⟨9, 3, 3⟩) x ∧ okV (initState ⟨9, 3, 3⟩) x) ∧
    (∀ x, realNode ⟨9, 3, 3⟩ x →
      okH (uncover ⟨9, 3, 3⟩ (cover ⟨9, 3, 3⟩ (initState ⟨9, 3, 3⟩)
        (NodeId.header 0) 1000) (NodeId.header 0) 1000) x ∧
      okV (uncover ⟨9, 3, 3⟩ (cover ⟨9, 3, 3⟩ (initState ⟨9, 3, 3⟩)
        (NodeId.header 0) 1000) (NodeId.header 0) 1000) x) ∧
    ¬ okH (cover ⟨9, 3, 3⟩ (initState ⟨9, 3, 3⟩) (NodeId.header 0) 1000)
      (NodeId.header 0)) := by
  have hv : ValidP ⟨9, 3, 3⟩ := ⟨by decide, by decide, by decide⟩
  exact ⟨hv, by decide, by decide,
    claim_C7_pointer_symmetry ⟨9, 3, 3⟩ hv 0 (by decide) 1000 1000
      (by decide) (by decide)⟩

/-- Concrete counterexample to the unamended C7: on the fresh 2×2 matrix,
immediately after `cover(header 0)` the covered header's own horizontal
symmetry `c->left_->right_ == c` fails (its ex-neighbours now bypass it). -/
theorem claim_C7_cover_asymmetry_cex :
    ¬ okH (cover ⟨2, 1, 2⟩ (initState ⟨2, 1, 2⟩) (NodeId.header 0) 100)
      (NodeId.header 0) := by
  unfold okH
  decide

/-- The three static fields of a placement row reassemble its index:
`row * COL_OFFSET_ + col * GRID_SIZE_ + value` recovers `r` (line 103). -/
theorem row_eta (p : Params) (r : Nat) :
    rowIdx p (iOf p r) (jOf p r) (kOf p r) = r := by
  have h1 := Nat.div_add_mod r p.N
  have h2 := Nat.div_add_mod (r / p.N) p.N
  have h3 : r / p.N / p.N = r / p.N ^ 2 := by
    rw [Nat.div_div_eq_div_mul, pow_two]
  rw [h3] at h2
  calc rowIdx p (iOf p r) (jOf p r) (kOf p r)
      = (p.N * (r / p.N ^ 2) + r / p.N % p.N) * p.N + r % p.N := by
        rw [rowIdx, iOf, jOf, kOf]; ring
    _ = r / p.N * p.N + r % p.N := by rw [h2]
    _ = r := by rw [Nat.mul_comm]; exact h1

/-- A hit of `find`'s inner loop lies on the `bottom_` chain it walked. -/
theorem findColLoop_sound (p : Params) (s : DLX) (h : NodeId) (i j v : Int) :
    ∀ (fuel : Nat) (L : List NodeId) (cur n : NodeId),
      follows s.bottom h cur L →
      findColLoop p s h i j v cur fuel = some n →
      n ∈ L := by
  intro fuel
  induction fuel with
  | zero => intro L cur n _ hn; cases hn
  | succ f ih =>
    intro L cur n hfol hn
    simp only [findColLoop] at hn
    by_cases h1 : cur = h
    · rw [if_pos h1] at hn
      cases hn
    rw [if_neg h1] at hn
    cases L with
    | nil => exact absurd hfol h1
    | cons x xs =>
      obtain ⟨hcx, hxh, hrest⟩ := hfol
      by_cases h2 : rowI p cur = i ∧ colI p cur = j ∧ valI p cur = v
      · rw [if_pos h2] at hn
        injection hn with hn2
        rw [← hn2, hcx]
        exact List.mem_cons_self x xs
      · rw [if_neg h2] at hn
        have hm := ih xs (s.bottom cur) n (by rw [hcx]; exact hrest) hn
        exact List.mem_cons_of_mem x hm

/-- Under the representation invariant, a hit of `find`'s outer loop started
anywhere on the live header chain is the column node of some live row of some
live column. -/
theorem findLoop_sound {p : Params} {s : DLX} {H : List Nat}
    {V : Nat → List Nat} (inv : Inv p s H V) (i j v : Int) :
    ∀ (fuel : Nat) (M : List Nat) (cur n : NodeId),
      follows s.right NodeId.root cur (M.map NodeId.header) →
      (∀ d ∈ M, d ∈ H) →
      findLoop p s i j v cur fuel = some n →
      ∃ d ∈ H, ∃ r ∈ V d, n = colNode p d r := by
  intro fuel
  induction fuel with
  | zero => intro M cur n _ _ hn; cases hn
  | succ f ih =>
    intro M cur n hfol hM hn
    simp only [findLoop] at hn
    by_cases hroot : cur = NodeId.root
    · rw [if_pos hroot] at hn
      cases hn
    rw [if_neg hroot] at hn
    cases M with
    | nil => exact absurd hfol hroot
    | cons d M' =>
      have hcur : cur = NodeId.header d := hfol.1
      have hdH : d ∈ H := hM d (List.mem_cons_self d M')
      cases hcl : findColLoop p s cur i j v (s.bottom cur) f with
      | some m =>
        rw [hcl] at hn
        injection hn with hn2
        have hrep : follows s.bottom cur (s.bottom cur)
            ((V d).map (colNode p d)) := by
          rw [hcur]
          exact (inv.vrep d hdH).1
        have hmem := findColLoop_sound p s cur i j v f
          ((V d).map (colNode p d)) (s.bottom cur) m hrep hcl
        obtain ⟨r, hr, hr2⟩ := List.mem_map.mp hmem
        exact ⟨d, hdH, r, hr, by rw [← hn2, ← hr2]⟩
      | none =>
        rw [hcl] at hn
        exact ih M' (s.right cur) n (by rw [hcur]; exact hfol.2.2)
          (fun d2 hd2 => hM d2 (List.mem_cons_of_mem d hd2)) hn

/-- Under the representation invariant, a hit of `find` is the column node of
a live row of a live column. -/
theorem find_sound {p : Params} {s : DLX} {H : List Nat}
    {V : Nat → List Nat} (inv : Inv p s H V) (i j v : Int) (fuel : Nat)
    (n : NodeId) (hf : find p s i j v fuel = some n) :
    ∃ d ∈ H, ∃ r ∈ V d, n = colNode p d r :=
  findLoop_sound inv i j v fuel H (s.right NodeId.root) n inv.hchainR
    (fun d hd => hd) hf

/-- A `find` hit for clue `(a, b, w)` identifies a live matrix row whose
static fields decode to exactly that clue. -/
theorem find_clue_row {p : Params} {s : DLX} {H : List Nat}
    {V : Nat → List Nat} (inv : Inv p s H V) (a b : Nat) (w : Int)
    (fuel : Nat) (n : NodeId)
    (hf : find p s (a : Int) (b : Int) (w - 1) fuel = some n) :
    ∃ d ∈ H, ∃ r ∈ V d, n = colNode p d r ∧ iOf p r = a ∧ jOf p r = b ∧
      ((kOf p r : Int) = w - 1 ∧ r = rowIdx p a b (kOf p r)) := by
  obtain ⟨d, hd, r, hr, hn⟩ := find_sound inv _ _ _ fuel n hf
  obtain ⟨h1, h2, h3⟩ := find_spec p s (a : Int) (b : Int) (w - 1) fuel
    (s.right NodeId.root) n hf
  rw [hn] at h1 h2 h3
  have h1' : (iOf p r : Int) = (a : Int) := h1
  have h2' : (jOf p r : Int) = (b : Int) := h2
  have h3' : (kOf p r : Int) = w - 1 := h3
  have hiOf : iOf p r = a := by exact_mod_cast h1'
  have hjOf : jOf p r = b := by exact_mod_cast h2'
  refine ⟨d, hd, r, hr, hn, hiOf, hjOf, h3', ?_⟩
  rw [← hiOf, ← hjOf]
  exact (row_eta p r).symm

/-- `col_header_` is idempotent: a header is its own column header. -/
theorem colHeaderOf_idem (p : Params) (n : NodeId) :
    colHeaderOf p (colHeaderOf p n) = colHeaderOf p n := by
  cases n <;> rfl

/-- `cover(node)` only looks at the node's column header (line 362). -/
theorem cover_colHeader (p : Params) (s : DLX) (n : NodeId) (fuel : Nat) :
    cover p s n fuel = cover p s (colHeaderOf p n) fuel := by
  simp only [cover, colHeaderOf_idem]

/-- One non-terminal iteration of the clue-row covering loop. -/
theorem coverRowCols_step (p : Params) (cf : Nat) (s : DLX) (rn cur : NodeId)
    (hne : cur ≠ rn) (wf : Nat) :
    coverRowCols p cf s rn cur (wf + 1) =
      coverRowCols p cf (cover p s cur cf) rn
        ((cover p s cur cf).right cur) wf := by
  simp only [coverRowCols]
  rw [if_neg hne]

/-- The clue-row covering loop stops when the cursor returns to the row
node. -/
theorem coverRowCols_exit (p : Params) (cf : Nat) (s : DLX) (rn : NodeId)
    (wf : Nat) : coverRowCols p cf s rn rn (wf + 1) = s := by
  simp only [coverRowCols]
  exact if_pos trivial

/-- Covering the column of a matrix node of a live column preserves the
representation invariant (specialisation of `cover_Inv` through
`col_header_`, with the fuel bound discharged from `MAX_ROWS_`). -/
theorem cover_node_Inv {p : Params} (v : ValidP p) {u : DLX}
    {H : List Nat} {V : Nat → List Nat} (inv : Inv p u H V) (r : Nat)
    (g : Fin 4) (hm : colOf p r g ∈ H) (cf : Nat)
    (hcf : p.MAX_ROWS + 3 < cf) :
    Inv p (cover p u (NodeId.node r g) cf) (H.erase (colOf p r g))
      (fun d => (V d).filter fun q => decide (q ∉ V (colOf p r g))) := by
  have hb : (V (colOf p r g)).length + 3 < cf := by
    have hl1 := List.Sublist.length_le (inv.vsub (colOf p r g))
    have hl2 := colRows_length_le p (colOf p r g)
    omega
  have he : cover p u (NodeId.node r g) cf =
      cover p u (NodeId.header (colOf p r g)) cf := cover_colHeader p u _ cf
  rw [he]
  exact cover_Inv v inv hm cf hb

/-- Covering the three partner columns of a clue row (the loop at lines
227-231) preserves the representation invariant; afterwards all partner
columns are dead and the live rows shrink pointwise. -/
theorem coverRowCols_Inv {p : Params} (v : ValidP p) {u : DLX}
    {H : List Nat} {V : Nat → List Nat} (inv : Inv p u H V) (r : Nat)
    (f0 : Fin 4) (hcols : ∀ g : Fin 4, g ≠ f0 → colOf p r g ∈ H)
    (hrlt : r < p.MAX_ROWS) (cf wf : Nat) (hcf : p.MAX_ROWS + 3 < cf)
    (hwf : 3 < wf) :
    ∃ H3 V3, Inv p (coverRowCols p cf u (NodeId.node r f0)
        (u.right (NodeId.node r f0)) wf) H3 V3 ∧
      (∀ d, d ∈ H3 → d ∈ H) ∧ (∀ g : Fin 4, g ≠ f0 → colOf p r g ∉ H3) ∧
      (∀ d q, q ∈ V3 d → q ∈ V d) := by
  obtain ⟨w, rfl⟩ : ∃ w, wf = w + 4 := ⟨wf - 4, by omega⟩
  have hff := fin4_facts f0
  have hne : ∀ g g' : Fin 4, g ≠ g' → colOf p r g ≠ colOf p r g' :=
    fun g g' hgg he => hgg (colOf_f_inj v r hrlt g g' he)
  have hne1 : NodeId.node r (f0 + 1) ≠ NodeId.node r f0 := by
    intro he; injection he with h1 h2; exact hff.1 h2
  have hne2 : NodeId.node r (f0 + 2) ≠ NodeId.node r f0 := by
    intro he; injection he with h1 h2; exact hff.2.1 h2
  have hne3 : NodeId.node r (f0 + 3) ≠ NodeId.node r f0 := by
    intro he; injection he with h1 h2; exact hff.2.2.1 h2
  have s1inv := cover_node_Inv v inv r (f0 + 1) (hcols _ hff.1) cf hcf
  have hd12 : colOf p r (f0 + 2) ≠ colOf p r (f0 + 1) :=
    hne _ _ (Ne.symm (fin4_distinct f0).1)
  have hm2 : colOf p r (f0 + 2) ∈ H.erase (colOf p r (f0 + 1)) :=
    (List.Nodup.mem_erase_iff inv.hnd).mpr ⟨hd12, hcols _ hff.2.1⟩
  have s2inv := cover_node_Inv v s1inv r (f0 + 2) hm2 cf hcf
  have hd13 : colOf p r (f0 + 3) ≠ colOf p r (f0 + 1) :=
    hne _ _ (Ne.symm (fin4_distinct f0).2.1)
  have hd23 : colOf p r (f0 + 3) ≠ colOf p r (f0 + 2) :=
    hne _ _ (Ne.symm (fin4_distinct f0).2.2)
  have hm3 : colOf p r (f0 + 3) ∈
      (H.erase (colOf p r (f0 + 1))).erase (colOf p r (f0 + 2)) :=
    (List.Nodup.mem_erase_iff s1inv.hnd).mpr
      ⟨hd23, (List.Nodup.mem_erase_iff inv.hnd).mpr ⟨hd13, hcols _ hff.2.2.1⟩⟩
  have s3inv := cover_node_Inv v s2inv r (f0 + 3) hm3 cf hcf
  have hgoal : coverRowCols p cf u (NodeId.node r f0)
      (u.right (NodeId.node r f0)) (w + 4) =
      cover p (cover p (cover p u (NodeId.node r (f0 + 1)) cf)
        (NodeId.node r (f0 + 2)) cf) (NodeId.node r (f0 + 3)) cf := by
    rw [inv.rowR r f0]
    rw [coverRowCols_step p cf u (NodeId.node r f0)
      (NodeId.node r (f0 + 1)) hne1 (w + 3)]
    rw [s1inv.rowR r (f0 + 1), hff.2.2.2.1]
    rw [coverRowCols_step p cf _ (NodeId.node r f0)
      (NodeId.node r (f0 + 2)) hne2 (w + 2)]
    rw [s2inv.rowR r (f0 + 2), hff.2.2.2.2.1]
    rw [coverRowCols_step p cf _ (NodeId.node r f0)
      (NodeId.node r (f0 + 3)) hne3 (w + 1)]
    rw [s3inv.rowR r (f0 + 3), hff.2.2.2.2.2.1]
    exact coverRowCols_exit p cf _ (NodeId.node r f0) w
  rw [hgoal]
  refine ⟨_, _, s3inv, ?_, ?_, ?_⟩
  · intro d hd
    exact List.mem_of_mem_erase (List.mem_of_mem_erase
      (List.mem_of_mem_erase hd))
  · intro g hg
    have hcases : g = f0 + 1 ∨ g = f0 + 2 ∨ g = f0 + 3 := by
      have hall : ∀ f g : Fin 4, g ≠ f → g = f + 1 ∨ g = f + 2 ∨ g = f + 3 :=
        by decide
      exact hall f0 g hg
    rcases hcases with h | h | h
    · subst h
      intro hmem
      have ha := List.mem_of_mem_erase (List.mem_of_mem_erase hmem)
      exact ((List.Nodup.mem_erase_iff inv.hnd).mp ha).1 rfl
    · subst h
      intro hmem
      have ha := List.mem_of_mem_erase hmem
      exact ((List.Nodup.mem_erase_iff s1inv.hnd).mp ha).1 rfl
    · subst h
      intro hmem
      exact ((List.Nodup.mem_erase_iff s2inv.hnd).mp hmem).1 rfl
  · intro d q hq
    exact List.mem_of_mem_filter (List.mem_of_mem_filter
      (List.mem_of_mem_filter hq))

/-- When the clue-insertion loop completes with no early return, the matrix
rows it inserted — one per non-zero cell, in scan order — are pairwise
column-disjoint, and they are also disjoint from every earlier-inserted row
in `ins`.  This is the key consistency consequence of `find` only searching
the live (uncovered) part of the matrix. -/
theorem insertClues_compat {p : Params} (v : ValidP p) (g : Int → Int → Int)
    (fuel : Nat) (hfuel : p.MAX_ROWS + 3 < fuel) :
    ∀ (cl : List (Nat × Nat)) (s : DLX) (pz rs : List NodeId)
      (H : List Nat) (V : Nat → List Nat) (ins : List Nat),
      Inv p s H V →
      (∀ d ∈ H, ∀ q ∈ V d, ∀ r0 ∈ ins, rowsDisjoint p q r0) →
      List.Pairwise (rowsDisjoint p) ins →
      (insertClues p g fuel s pz rs cl).2.2.2 = none →
      List.Pairwise (rowsDisjoint p)
        (ins ++ (cl.filter fun c => decide (g c.1 c.2 ≠ 0)).map
          fun c => rowIdx p c.1 c.2 (g c.1 c.2 - 1).toNat) := by
  intro cl
  induction cl with
  | nil =>
    intro s pz rs H V ins _ _ hpw _
    simpa using hpw
  | cons c rest ih =>
    obtain ⟨i, j⟩ := c
    intro s pz rs H V ins inv hcompat hpw hnone
    by_cases hrange : g i j > (p.N : Int) ∨ g i j < 0
    · exfalso
      have heq : insertClues p g fuel s pz rs ((i, j) :: rest) =
          (s, pz, rs, some SolveReport.invalidPuzzle) := by
        show (if g i j > (p.N : Int) ∨ g i j < 0 then
            (s, pz, rs, some SolveReport.invalidPuzzle) else _) = _
        rw [if_pos hrange]
      rw [heq] at hnone
      cases hnone
    by_cases hval : g i j ≠ 0
    · cases hfind : find p s (i : Int) (j : Int) (g i j - 1) fuel with
      | none =>
        exfalso
        have heq : insertClues p g fuel s pz rs ((i, j) :: rest) =
            (s, pz, rs, some (SolveReport.repeatedValue i j (g i j))) := by
          show (if g i j > (p.N : Int) ∨ g i j < 0 then
              (s, pz, rs, some SolveReport.invalidPuzzle) else _) = _
          rw [if_neg hrange]
          show (if g i j ≠ 0 then _ else _) = _
          rw [if_pos hval, hfind]
        rw [heq] at hnone
        cases hnone
      | some n =>
        have heq : insertClues p g fuel s pz rs ((i, j) :: rest) =
            insertClues p g fuel
              (coverRowCols p fuel (cover p s (colHeaderOf p n) fuel) n
                ((cover p s (colHeaderOf p n) fuel).right n) fuel)
              (n :: pz) (n :: rs) rest := by
          show (if g i j > (p.N : Int) ∨ g i j < 0 then
              (s, pz, rs, some SolveReport.invalidPuzzle) else _) = _
          rw [if_neg hrange]
          show (if g i j ≠ 0 then _ else _) = _
          rw [if_pos hval, hfind]
        rw [heq] at hnone
        obtain ⟨d, hd, r, hr, hn, hiOf, hjOf, hkInt, heta⟩ :=
          find_clue_row inv i j (g i j) fuel n hfind
        have hrC : r ∈ colRows p d := (inv.vsub d).subset hr
        have hrlt : r < p.MAX_ROWS := colRows_lt p d r hrC
        have hE : colOf p r (famOf p r d) = d :=
          famOf_colOf p r d ((mem_colRows p d r).mp hrC).2
        have hnode : n = NodeId.node r (famOf p r d) := hn
        have hch2 : colHeaderOf p (NodeId.node r (famOf p r d)) =
            NodeId.header d := by
          show NodeId.header (colOf p r (famOf p r d)) = NodeId.header d
          rw [hE]
        rw [hnode, hch2] at hnone
        have hbound : (V d).length + 3 < fuel := by
          have hl1 := List.Sublist.length_le (inv.vsub d)
          have hl2 := colRows_length_le p d
          omega
        have inv1 := cover_Inv v inv hd fuel hbound
        have hcols : ∀ gg : Fin 4, gg ≠ famOf p r d →
            colOf p r gg ∈ H.erase d := by
          intro gg hgg
          have hl := (inv.live d hd r hr gg).1
          have hne' : colOf p r gg ≠ d := by
            intro hEq
            exact hgg (colOf_f_inj v r hrlt gg (famOf p r d)
              (by rw [hE]; exact hEq))
          exact (List.Nodup.mem_erase_iff inv.hnd).mpr ⟨hne', hl⟩
        obtain ⟨H3, V3, inv3, hsubH, hnotin, hsubV⟩ :=
          coverRowCols_Inv v inv1 r (famOf p r d) hcols hrlt fuel fuel hfuel
            (by omega)
        have hdead : ∀ ff : Fin 4, colOf p r ff ∉ H3 := by
          intro ff
          by_cases hf : ff = famOf p r d
          · rw [hf, hE]
            intro hmem
            exact ((List.Nodup.mem_erase_iff inv.hnd).mp (hsubH d hmem)).1 rfl
          · exact hnotin ff hf
        have hdisj : ∀ d' ∈ H3, ∀ q ∈ V3 d', rowsDisjoint p q r := by
          intro d' hd' q hq ff ff' hEq
          have h1 := (inv3.live d' hd' q hq ff).1
          rw [hEq] at h1
          exact hdead ff' h1
        have hpw' : List.Pairwise (rowsDisjoint p) (ins ++ [r]) := by
          rw [List.pairwise_append]
          refine ⟨hpw, List.pairwise_singleton _ _, ?_⟩
          intro x hx y hy
          have hy' : y = r := List.mem_singleton.mp hy
          have hxr : rowsDisjoint p r x := hcompat d hd r hr x hx
          intro ff ff' hEq
          rw [hy'] at hEq
          exact hxr ff' ff hEq.symm
        have hcompat' : ∀ d' ∈ H3, ∀ q ∈ V3 d', ∀ r0 ∈ ins ++ [r],
            rowsDisjoint p q r0 := by
          intro d' hd' q hq r0 hr0
          rcases List.mem_append.mp hr0 with h | h
          · have hd'H : d' ∈ H := List.mem_of_mem_erase (hsubH d' hd')
            have hqV : q ∈ V d' := List.mem_of_mem_filter (hsubV d' q hq)
            exact hcompat d' hd'H q hqV r0 h
          · have hr0r : r0 = r := List.mem_singleton.mp h
            subst hr0r
            exact hdisj d' hd' q hq
        have hres := ih _ _ _ H3 V3 (ins ++ [r]) inv3 hcompat' hpw' hnone
        have hkval : (g i j - 1).toNat = kOf p r := by
          rw [← hkInt, Int.toNat_natCast]
        have hrho : r = rowIdx p i j (g i j - 1).toNat := by
          rw [hkval]
          exact heta
        rw [List.filter_cons, if_pos (by simpa using hval), List.map_cons]
        rw [hrho] at hres
        rw [List.append_assoc] at hres
        exact hres
    · have heq : insertClues p g fuel s pz rs ((i, j) :: rest) =
          insertClues p g fuel s pz rs rest := by
        show (if g i j > (p.N : Int) ∨ g i j < 0 then
            (s, pz, rs, some SolveReport.invalidPuzzle) else _) = _
        rw [if_neg hrange]
        show (if g i j ≠ 0 then _ else _) = _
        rw [if_neg hval]
      rw [heq] at hnone
      rw [List.filter_cons, if_neg (by simpa using hval)]
      exact ih _ _ _ H V ins inv hcompat hpw hnone

/-- The clue-insertion loop's early report is either `invalid_puzzle` or a
`repeated_value` triple — never the search's `not_solvable`. -/
theorem insertClues_report (p : Params) (g : Int → Int → Int) (fuel : Nat) :
    ∀ (cl : List (Nat × Nat)) (s : DLX) (pz rs : List NodeId)
      (e : SolveReport),
      (insertClues p g fuel s pz rs cl).2.2.2 = some e →
      e = SolveReport.invalidPuzzle ∨
        ∃ a b w, e = SolveReport.repeatedValue a b w := by
  intro cl
  induction cl with
  | nil => intro s pz rs e he; cases he
  | cons c rest ih =>
    obtain ⟨i, j⟩ := c
    intro s pz rs e he
    by_cases hrange : g i j > (p.N : Int) ∨ g i j < 0
    · left
      have heq : insertClues p g fuel s pz rs ((i, j) :: rest) =
          (s, pz, rs, some SolveReport.invalidPuzzle) := by
        show (if g i j > (p.N : Int) ∨ g i j < 0 then
            (s, pz, rs, some SolveReport.invalidPuzzle) else _) = _
        rw [if_pos hrange]
      rw [heq] at he
      have he' : some SolveReport.invalidPuzzle = some e := he
      injection he' with h2
      exact h2.symm
    · by_cases hval : g i j ≠ 0
      · cases hfind : find p s (i : Int) (j : Int) (g i j - 1) fuel with
        | none =>
          right
          have heq : insertClues p g fuel s pz rs ((i, j) :: rest) =
              (s, pz, rs, some (SolveReport.repeatedValue i j (g i j))) := by
            show (if g i j > (p.N : Int) ∨ g i j < 0 then
                (s, pz, rs, some SolveReport.invalidPuzzle) else _) = _
            rw [if_neg hrange]
            show (if g i j ≠ 0 then _ else _) = _
            rw [if_pos hval, hfind]
          rw [heq] at he
          have he' : some (SolveReport.repeatedValue i j (g i j)) = some e := he
          injection he' with h2
          exact ⟨i, j, g i j, h2.symm⟩
        | some n =>
          have heq : insertClues p g fuel s pz rs ((i, j) :: rest) =
              insertClues p g fuel
                (coverRowCols p fuel (cover p s (colHeaderOf p n) fuel) n
                  ((cover p s (colHeaderOf p n) fuel).right n) fuel)
                (n :: pz) (n :: rs) rest := by
            show (if g i j > (p.N : Int) ∨ g i j < 0 then
                (s, pz, rs, some SolveReport.invalidPuzzle) else _) = _
            rw [if_neg hrange]
            show (if g i j ≠ 0 then _ else _) = _
            rw [if_pos hval, hfind]
          rw [heq] at he
          exact ih _ _ _ e he
      · have heq : insertClues p g fuel s pz rs ((i, j) :: rest) =
            insertClues p g fuel s pz rs rest := by
          show (if g i j > (p.N : Int) ∨ g i j < 0 then
              (s, pz, rs, some SolveReport.invalidPuzzle) else _) = _
          rw [if_neg hrange]
          show (if g i j ≠ 0 then _ else _) = _
          rw [if_neg hval]
        rw [heq] at he
        exact ih _ _ _ e he

/-- When every scanned value is in range, the clue-insertion loop never
reports `invalid_puzzle`. -/
theorem insertClues_no_invalid (p : Params) (g : Int → Int → Int)
    (fuel : Nat) :
    ∀ (cl : List (Nat × Nat)) (s : DLX) (pz rs : List NodeId),
      (∀ c ∈ cl, ¬(g c.1 c.2 > (p.N : Int) ∨ g c.1 c.2 < 0)) →
      (insertClues p g fuel s pz rs cl).2.2.2 ≠
        some SolveReport.invalidPuzzle := by
  intro cl
  induction cl with
  | nil => intro s pz rs _ he; cases he
  | cons c rest ih =>
    obtain ⟨i, j⟩ := c
    intro s pz rs hok he
    have hrange : ¬(g i j > (p.N : Int) ∨ g i j < 0) :=
      hok (i, j) (List.mem_cons_self _ _)
    by_cases hval : g i j ≠ 0
    · cases hfind : find p s (i : Int) (j : Int) (g i j - 1) fuel with
      | none =>
        have heq : insertClues p g fuel s pz rs ((i, j) :: rest) =
            (s, pz, rs, some (SolveReport.repeatedValue i j (g i j))) := by
          show (if g i j > (p.N : Int) ∨ g i j < 0 then
              (s, pz, rs, some SolveReport.invalidPuzzle) else _) = _
          rw [if_neg hrange]
          show (if g i j ≠ 0 then _ else _) = _
          rw [if_pos hval, hfind]
        rw [heq] at he
        have he' : some (SolveReport.repeatedValue i j (g i j)) =
            some SolveReport.invalidPuzzle := he
        injection he' with h2
        exact SolveReport.noConfusion h2
      | some n =>
        have heq : insertClues p g fuel s pz rs ((i, j) :: rest) =
            insertClues p g fuel
              (coverRowCols p fuel (cover p s (colHeaderOf p n) fuel) n
                ((cover p s (colHeaderOf p n) fuel).right n) fuel)
              (n :: pz) (n :: rs) rest := by
          show (if g i j > (p.N : Int) ∨ g i j < 0 then
              (s, pz, rs, some SolveReport.invalidPuzzle) else _) = _
          rw [if_neg hrange]
          show (if g i j ≠ 0 then _ else _) = _
          rw [if_pos hval, hfind]
        rw [heq] at he
        exact ih _ _ _ (fun c hc => hok c (List.mem_cons_of_mem _ hc)) he
    · have heq : insertClues p g fuel s pz rs ((i, j) :: rest) =
          insertClues p g fuel s pz rs rest := by
        show (if g i j > (p.N : Int) ∨ g i j < 0 then
            (s, pz, rs, some SolveReport.invalidPuzzle) else _) = _
        rw [if_neg hrange]
        show (if g i j ≠ 0 then _ else _) = _
        rw [if_neg hval]
      rw [heq] at he
      exact ih _ _ _ (fun c hc => hok c (List.mem_cons_of_mem _ hc)) he

/-- Splitting a pairwise list at an element relates it to everything after
(and everything before) it. -/
theorem pairwise_of_split {α : Type} {R : α → α → Prop} {l A B : List α}
    {x : α} (hp : List.Pairwise R l) (hl : l = A ++ x :: B) :
    (∀ y ∈ B, R x y) ∧ (∀ y ∈ A, R y x) := by
  subst hl
  obtain ⟨h1, h2, h3⟩ := List.pairwise_append.mp hp
  constructor
  · exact (List.pairwise_cons.mp h2).1
  · intro y hy
    exact h3 y hy x (List.mem_cons_self x B)

/-- The cell double loop enumerates strictly increasing (row-major) cell
coordinates, generalised over the outer index list. -/
theorem pairwise_cells_aux (p : Params) : ∀ l : List Nat,
    List.Pairwise (· < ·) l →
    List.Pairwise
      (fun c c' : Nat × Nat => c.1 < c'.1 ∨ (c.1 = c'.1 ∧ c.2 < c'.2))
      (l.flatMap fun i => (List.range p.N).map fun j => (i, j)) := by
  intro l
  induction l with
  | nil => intro _; exact List.Pairwise.nil
  | cons a t ih =>
    intro hp
    rw [List.flatMap_cons, List.pairwise_append]
    obtain ⟨hat, hpt⟩ := List.pairwise_cons.mp hp
    refine ⟨?_, ih hpt, ?_⟩
    · rw [List.pairwise_map]
      exact (List.pairwise_lt_range p.N).imp fun h => Or.inr ⟨rfl, h⟩
    · intro x hx y hy
      obtain ⟨jx, hjx, hex⟩ := List.mem_map.mp hx
      obtain ⟨b, hb, hyb⟩ := List.mem_flatMap.mp hy
      obtain ⟨jy, hjy, hey⟩ := List.mem_map.mp hyb
      rw [← hex, ← hey]
      exact Or.inl (hat b hb)

/-- The cells of the clue double loop come in strict row-major order. -/
theorem cells_pairwise (p : Params) :
    List.Pairwise
      (fun c c' : Nat × Nat => c.1 < c'.1 ∨ (c.1 = c'.1 ∧ c.2 < c'.2))
      (cells p) :=
  pairwise_cells_aux p (List.range p.N) (List.pairwise_lt_range p.N)

/-- Two placement rows carrying the same value in the same puzzle row, the
same puzzle column, or the same box occupy a common constraint column. -/
theorem conflict_not_disjoint {p : Params} (v : ValidP p)
    (i1 j1 i2 j2 k : Nat) (hi1 : i1 < p.N) (hj1 : j1 < p.N) (hi2 : i2 < p.N)
    (hj2 : j2 < p.N) (hk : k < p.N)
    (hconf : i1 = i2 ∨ j1 = j2 ∨ boxIdx p i1 j1 = boxIdx p i2 j2) :
    ¬ rowsDisjoint p (rowIdx p i1 j1 k) (rowIdx p i2 j2 k) := by
  obtain ⟨e1i, e1j, e1k, _⟩ := rowIdx_decomp v i1 j1 k hi1 hj1 hk
  obtain ⟨e2i, e2j, e2k, _⟩ := rowIdx_decomp v i2 j2 k hi2 hj2 hk
  intro hdis
  rcases hconf with hc | hc | hc
  · refine hdis 0 0 ?_
    show iOf p (rowIdx p i1 j1 k) * p.N + kOf p (rowIdx p i1 j1 k) =
      iOf p (rowIdx p i2 j2 k) * p.N + kOf p (rowIdx p i2 j2 k)
    rw [e1i, e1k, e2i, e2k, hc]
  · refine hdis 1 1 ?_
    show p.COL_OFFSET + (jOf p (rowIdx p i1 j1 k) * p.N +
        kOf p (rowIdx p i1 j1 k)) =
      p.COL_OFFSET + (jOf p (rowIdx p i2 j2 k) * p.N +
        kOf p (rowIdx p i2 j2 k))
    rw [e1j, e1k, e2j, e2k, hc]
  · refine hdis 3 3 ?_
    show p.BOX_OFFSET + (boxIdx p (iOf p (rowIdx p i1 j1 k))
        (jOf p (rowIdx p i1 j1 k)) * p.N + kOf p (rowIdx p i1 j1 k)) =
      p.BOX_OFFSET + (boxIdx p (iOf p (rowIdx p i2 j2 k))
        (jOf p (rowIdx p i2 j2 k)) * p.N + kOf p (rowIdx p i2 j2 k))
    rw [e1i, e1j, e1k, e2i, e2j, e2k, hc]

/-- When some scanned cell's value is out of range, the clue-insertion loop
cannot complete: an early return fires at or before that cell. -/
theorem insertClues_range_fails (p : Params) (g : Int → Int → Int)
    (fuel : Nat) :
    ∀ (cl : List (Nat × Nat)) (s : DLX) (pz rs : List NodeId),
      (∃ c ∈ cl, g c.1 c.2 > (p.N : Int) ∨ g c.1 c.2 < 0) →
      (insertClues p g fuel s pz rs cl).2.2.2 ≠ none := by
  intro cl
  induction cl with
  | nil =>
    intro s pz rs hex _
    obtain ⟨c, hc, _⟩ := hex
    exact absurd hc (List.not_mem_nil c)
  | cons c rest ih =>
    obtain ⟨i, j⟩ := c
    intro s pz rs hex hnone
    by_cases hrange : g i j > (p.N : Int) ∨ g i j < 0
    · have heq : insertClues p g fuel s pz rs ((i, j) :: rest) =
          (s, pz, rs, some SolveReport.invalidPuzzle) := by
        show (if g i j > (p.N : Int) ∨ g i j < 0 then
            (s, pz, rs, some SolveReport.invalidPuzzle) else _) = _
        rw [if_pos hrange]
      rw [heq] at hnone
      cases hnone
    · have hex' : ∃ c ∈ rest, g c.1 c.2 > (p.N : Int) ∨ g c.1 c.2 < 0 := by
        obtain ⟨c, hc, hcr⟩ := hex
        rcases List.mem_cons.mp hc with h | h
        · exfalso
          rw [h] at hcr
          exact hrange hcr
        · exact ⟨c, h, hcr⟩
      by_cases hval : g i j ≠ 0
      · cases hfind : find p s (i : Int) (j : Int) (g i j - 1) fuel with
        | none =>
          have heq : insertClues p g fuel s pz rs ((i, j) :: rest) =
              (s, pz, rs, some (SolveReport.repeatedValue i j (g i j))) := by
            show (if g i j > (p.N : Int) ∨ g i j < 0 then
                (s, pz, rs, some SolveReport.invalidPuzzle) else _) = _
            rw [if_neg hrange]
            show (if g i j ≠ 0 then _ else _) = _
            rw [if_pos hval, hfind]
          rw [heq] at hnone
          cases hnone
        | some n =>
          have heq : insertClues p g fuel s pz rs ((i, j) :: rest) =
              insertClues p g fuel
                (coverRowCols p fuel (cover p s (colHeaderOf p n) fuel) n
                  ((cover p s (colHeaderOf p n) fuel).right n) fuel)
                (n :: pz) (n :: rs) rest := by
            show (if g i j > (p.N : Int) ∨ g i j < 0 then
                (s, pz, rs, some SolveReport.invalidPuzzle) else _) = _
            rw [if_neg hrange]
            show (if g i j ≠ 0 then _ else _) = _
            rw [if_pos hval, hfind]
          rw [heq] at hnone
          exact ih _ _ _ hex' hnone
      · have heq : insertClues p g fuel s pz rs ((i, j) :: rest) =
            insertClues p g fuel s pz rs rest := by
          show (if g i j > (p.N : Int) ∨ g i j < 0 then
              (s, pz, rs, some SolveReport.invalidPuzzle) else _) = _
          rw [if_neg hrange]
          show (if g i j ≠ 0 then _ else _) = _
          rw [if_neg hval]
        rw [heq] at hnone
        exact ih _ _ _ hex' hnone

/-- The duplicate-clue scenario of C6, factored out: with all values in
range, a duplicated non-zero value in one row, column, or box forces the
`repeated_value` early return, no search, and an unsolved flag. -/
theorem claim_C6_dup_case {p : Params} (v : ValidP p)
    {g : Int → Int → Int} (fuel : Nat) (hfuel : p.MAX_ROWS + 3 < fuel)
    {i1 j1 i2 j2 : Nat} (hi1 : i1 < p.N) (hj1 : j1 < p.N) (hi2 : i2 < p.N)
    (hj2 : j2 < p.N) (hord : i1 < i2 ∨ (i1 = i2 ∧ j1 < j2))
    (hrange : ∀ a : Nat, a < p.N → ∀ b : Nat, b < p.N →
      0 ≤ g a b ∧ g a b ≤ (p.N : Int))
    (hdup : g i1 j1 = g i2 j2) (hnz : g i2 j2 ≠ 0)
    (hconf : i1 = i2 ∨ j1 = j2 ∨ boxIdx p i1 j1 = boxIdx p i2 j2) :
    (∃ a b w, (solveEC p (initState p) g fuel).2 =
        some (SolveReport.repeatedValue a b w)) ∧
      isSolved (solveEC p (initState p) g fuel).1 = false ∧
      (solveEC p (initState p) g fuel).1.totalCompetition = 0 := by
  cases hins : insertClues p g fuel (initState p) [] [] (cells p) with
  | mk s' rest3 =>
    obtain ⟨pz, rs, rep⟩ := rest3
    cases rep with
    | none =>
      exfalso
      have hpw := insertClues_compat v g fuel hfuel (cells p) (initState p)
        [] [] (List.range p.MAX_COLS) (colRows p) [] (initState_Inv v)
        (fun d _ q _ r0 hr0 => absurd hr0 (List.not_mem_nil r0))
        List.Pairwise.nil (by rw [hins])
      have hm1 : (i1, j1) ∈ cells p := (mem_cells p i1 j1).mpr ⟨hi1, hj1⟩
      have hm2 : (i2, j2) ∈ cells p := (mem_cells p i2 j2).mpr ⟨hi2, hj2⟩
      obtain ⟨A, B, hAB⟩ := List.append_of_mem hm1
      have hsplit := pairwise_of_split (cells_pairwise p) hAB
      have hm2' : (i2, j2) ∈ B := by
        have hm2'' := hm2
        rw [hAB] at hm2''
        rcases List.mem_append.mp hm2'' with hA | hA
        · exfalso
          have hrel : i2 < i1 ∨ (i2 = i1 ∧ j2 < j1) := hsplit.2 _ hA
          rcases hord with ho | ho <;> rcases hrel with h1 | h1 <;> omega
        · rcases List.mem_cons.mp hA with hA2 | hA2
          · exfalso
            injection hA2 with ha hb
            rcases hord with ho | ho <;> omega
          · exact hA2
      have hnz1 : g i1 j1 ≠ 0 := by rw [hdup]; exact hnz
      have hfA : (cells p).filter (fun c => decide (g c.1 c.2 ≠ 0)) =
          A.filter (fun c => decide (g c.1 c.2 ≠ 0)) ++ (i1, j1) ::
            B.filter (fun c => decide (g c.1 c.2 ≠ 0)) := by
        rw [hAB, List.filter_append, List.filter_cons,
          if_pos (by simpa using hnz1)]
      have hm2f : (i2, j2) ∈ B.filter (fun c => decide (g c.1 c.2 ≠ 0)) :=
        List.mem_filter.mpr ⟨hm2', by simpa using hnz⟩
      obtain ⟨A2, B2, hA2B2⟩ := List.append_of_mem hm2f
      have hfull : ((cells p).filter (fun c => decide (g c.1 c.2 ≠ 0))).map
            (fun c => rowIdx p c.1 c.2 (g c.1 c.2 - 1).toNat) =
          (A.filter (fun c => decide (g c.1 c.2 ≠ 0))).map
            (fun c => rowIdx p c.1 c.2 (g c.1 c.2 - 1).toNat) ++
          rowIdx p i1 j1 (g i1 j1 - 1).toNat ::
            (A2.map (fun c => rowIdx p c.1 c.2 (g c.1 c.2 - 1).toNat) ++
             rowIdx p i2 j2 (g i2 j2 - 1).toNat ::
               B2.map (fun c => rowIdx p c.1 c.2 (g c.1 c.2 - 1).toNat)) := by
        rw [hfA, List.map_append, List.map_cons, hA2B2, List.map_append,
          List.map_cons]
      have hpw2 : List.Pairwise (rowsDisjoint p)
          (((cells p).filter (fun c => decide (g c.1 c.2 ≠ 0))).map
            (fun c => rowIdx p c.1 c.2 (g c.1 c.2 - 1).toNat)) := hpw
      have hkey := (pairwise_of_split hpw2 hfull).1
      have hd12 := hkey _
        (List.mem_append.mpr (Or.inr (List.mem_cons_self _ _)))
      have hk : (g i2 j2 - 1).toNat < p.N := by
        have hb := hrange i2 hi2 j2 hj2
        omega
      apply conflict_not_disjoint v i1 j1 i2 j2 ((g i2 j2 - 1).toNat) hi1 hj1
        hi2 hj2 hk hconf
      rw [hdup] at hd12
      exact hd12
    | some e =>
      have hrangeOK : ∀ c ∈ cells p,
          ¬(g c.1 c.2 > (p.N : Int) ∨ g c.1 c.2 < 0) := by
        intro c hc
        obtain ⟨a, b⟩ := c
        obtain ⟨ha, hb⟩ := (mem_cells p a b).mp hc
        obtain ⟨h1, h2⟩ := hrange a ha b hb
        show ¬(g a b > (p.N : Int) ∨ g a b < 0)
        omega
      have hnoinv := insertClues_no_invalid p g fuel (cells p) (initState p)
        [] [] hrangeOK
      have hrep : e = SolveReport.invalidPuzzle ∨
          ∃ a b w, e = SolveReport.repeatedValue a b w :=
        insertClues_report p g fuel (cells p) (initState p) [] [] e
          (by rw [hins])
      obtain ⟨a, b, w, hE⟩ : ∃ a b w, e = SolveReport.repeatedValue a b w := by
        rcases hrep with h | h
        · exfalso
          apply hnoinv
          rw [hins, h]
        · exact h
      have hq : solveEC p (initState p) g fuel =
          ({ dlx := s', runningSol := rs, solved := false,
             totalCompetition := 0 }, some e) := by
        simp only [solveEC, hins]
      refine ⟨⟨a, b, w, ?_⟩, ?_, ?_⟩
      · rw [hq, hE]
      · rw [hq]
        rfl
      · rw [hq]

/-- C6: for every input grid containing a non-zero clue that is out of range
or that duplicates a value already placed in the same row, column, or box,
the public `solve` detects this at clue-insertion time.  First conjunct
(duplicate, all values in range): the insertion loop's early return fires —
`find` misses, because the earlier clue's covers removed the offending
triple's row from the live matrix — the report is the `repeated_value`
kind, distinct from `not_solvable`, no search runs (`total_competition_`
stays `0`), and `is_solved()` afterwards returns `false`.  Second conjunct
(out of range): the loop cannot complete; the report is `invalid_puzzle` or
an earlier `repeated_value`, again distinct from `not_solvable`, with no
search and `is_solved()` false. -/
theorem claim_C6_invalid_clue_detection (p : Params) (v : ValidP p)
    (g : Int → Int → Int) (fuel : Nat) (hfuel : p.MAX_ROWS + 3 < fuel) :
    (∀ i1 j1 i2 j2 : Nat, i1 < p.N → j1 < p.N → i2 < p.N → j2 < p.N →
      (i1 < i2 ∨ (i1 = i2 ∧ j1 < j2)) →
      (∀ a : Nat, a < p.N → ∀ b : Nat, b < p.N →
        0 ≤ g a b ∧ g a b ≤ (p.N : Int)) →
      g i1 j1 = g i2 j2 → g i2 j2 ≠ 0 →
      (i1 = i2 ∨ j1 = j2 ∨ boxIdx p i1 j1 = boxIdx p i2 j2) →
      (∃ a b w, (solveEC p (initState p) g fuel).2 =
          some (SolveReport.repeatedValue a b w)) ∧
        isSolved (solveEC p (initState p) g fuel).1 = false ∧
        (solveEC p (initState p) g fuel).1.totalCompetition = 0) ∧
    ((∃ c ∈ cells p, g c.1 c.2 > (p.N : Int) ∨ g c.1 c.2 < 0) →
      (∃ e, (solveEC p (initState p) g fuel).2 = some e ∧
          (e = SolveReport.invalidPuzzle ∨
            ∃ a b w, e = SolveReport.repeatedValue a b w)) ∧
        isSolved (solveEC p (initState p) g fuel).1 = false ∧
        (solveEC p (initState p) g fuel).1.totalCompetition = 0) := by
  constructor
  · intro i1 j1 i2 j2 hi1 hj1 hi2 hj2 hord hrange hdup hnz hconf
    exact claim_C6_dup_case v fuel hfuel hi1 hj1 hi2 hj2 hord hrange hdup
      hnz hconf
  · intro hex
    cases hins : insertClues p g fuel (initState p) [] [] (cells p) with
    | mk s' rest3 =>
      obtain ⟨pz, rs, rep⟩ := rest3
      cases rep with
      | none =>
        exfalso
        apply insertClues_range_fails p g fuel (cells p) (initState p) [] []
          hex
        rw [hins]
      | some e =>
        have hrep : e = SolveReport.invalidPuzzle ∨
            ∃ a b w, e = SolveReport.repeatedValue a b w :=
          insertClues_report p g fuel (cells p) (initState p) [] [] e
            (by rw [hins])
        have hq : solveEC p (initState p) g fuel =
            ({ dlx := s', runningSol := rs, solved := false,
               totalCompetition := 0 }, some e) := by
          simp only [solveEC, hins]
        refine ⟨⟨e, ?_, hrep⟩, ?_, ?_⟩
        · rw [hq]
        · rw [hq]
          rfl
        · rw [hq]

/-- Witness for C6: the 2×2 grid with the value 1 at both (0,0) and (0,1) —
a same-row duplicate — makes `solve` report a repeated value and leave
`solved_` false. -/
theorem claim_C6_invalid_clue_detection_witness :
    ValidP ⟨2, 1, 2⟩ ∧ Params.MAX_ROWS ⟨2, 1, 2⟩ + 3 < 100 ∧
    (∀ a : Nat, a < Params.N ⟨2, 1, 2⟩ → ∀ b : Nat, b < Params.N ⟨2, 1, 2⟩ →
      0 ≤ (fun x y : Int => if x = 0 ∧ y ≤ 1 then (1 : Int) else 0) a b ∧
      (fun x y : Int => if x = 0 ∧ y ≤ 1 then (1 : Int) else 0) a b ≤
        (Params.N ⟨2, 1, 2⟩ : Int)) ∧
    (fun x y : Int => if x = 0 ∧ y ≤ 1 then (1 : Int) else 0) 0 0 =
      (fun x y : Int => if x = 0 ∧ y ≤ 1 then (1 : Int) else 0) 0 1 ∧
    (fun x y : Int => if x = 0 ∧ y ≤ 1 then (1 : Int) else 0) 0 1 ≠ 0 ∧
    (∃ a b w, (solveEC ⟨2, 1, 2⟩ (initState ⟨2, 1, 2⟩)
        (fun x y : Int => if x = 0 ∧ y ≤ 1 then (1 : Int) else 0) 100).2 =
      some (SolveReport.repeatedValue a b w)) ∧
    isSolved (solveEC ⟨2, 1, 2⟩ (initState ⟨2, 1, 2⟩)
      (fun x y : Int => if x = 0 ∧ y ≤ 1 then (1 : Int) else 0) 100).1 =
      false := by
  have hv : ValidP ⟨2, 1, 2⟩ := ⟨by decide, by decide, by decide⟩
  have happ := (claim_C6_invalid_clue_detection ⟨2, 1, 2⟩ hv
    (fun x y : Int => if x = 0 ∧ y ≤ 1 then (1 : Int) else 0) 100
    (by decide)).1 0 0 0 1 (by decide) (by decide) (by decide) (by decide)
    (Or.inr ⟨rfl, by decide⟩) (by decide) (by decide) (by decide)
    (Or.inl rfl)
  exact ⟨hv, by decide, by decide, by decide, by decide, happ.1, happ.2.1⟩

end Insight
